import Mathlib

/-!
Verification of the radix-tree map and set (shallow embedding of the
radixt crate: src/lib.rs, src/node.rs, src/map.rs, src/iter.rs, src/set.rs).

Bytes are modelled as Fin 256, byte strings as List Byte, and a tree node
as an inductive with its key fragment, optional value and ordered child
list, mirroring the logical contents of the packed node layout.
Fallible code paths (assertion failures and out-of-bounds indexing in the
Rust source) are modelled with Option: a result of none means the Rust
code would abort.
-/

set_option maxHeartbeats 1600000
set_option maxRecDepth 8192

namespace Radixt

abbrev Byte := Fin 256

/-- Lexicographic three-way comparison of byte strings; the order Rust uses
for byte slices (shorter string first on ties). -/
def bytesCmp : List Byte → List Byte → Ordering
  | [], [] => .eq
  | [], _ :: _ => .lt
  | _ :: _, [] => .gt
  | a :: ta, b :: tb => if a < b then .lt else if b < a then .gt else bytesCmp ta tb

/-- Strict lexicographic order on byte strings. -/
def lexLt (a b : List Byte) : Prop := bytesCmp a b = .lt

/-- Non-strict lexicographic order on byte strings. -/
def lexLe (a b : List Byte) : Prop := bytesCmp a b ≠ .gt

instance (a b : List Byte) : Decidable (lexLt a b) := by unfold lexLt; infer_instance

instance (a b : List Byte) : Decidable (lexLe a b) := by unfold lexLe; infer_instance

/-- Length of the common first run of equal bytes; the count that
longest_common_prefix computes with zip and take_while. -/
def commonPfxLen : List Byte → List Byte → Nat
  | a :: ta, b :: tb => if a = b then commonPfxLen ta tb + 1 else 0
  | [], _ => 0
  | _ :: _, [] => 0

/-- A radix-tree node: key fragment, optional value, ordered children
(the logical contents of the packed allocation in node.rs). -/
inductive Node (T : Type) : Type where
  | mk (key : List Byte) (value : Option T) (children : List (Node T)) : Node T

variable {T : Type}

def Node.key : Node T → List Byte
  | .mk k _ _ => k

def Node.value : Node T → Option T
  | .mk _ v _ => v

def Node.children : Node T → List (Node T)
  | .mk _ _ cs => cs

@[simp] theorem Node.key_mk (k : List Byte) (v : Option T) (cs : List (Node T)) :
    (Node.mk k v cs).key = k := rfl

@[simp] theorem Node.value_mk (k : List Byte) (v : Option T) (cs : List (Node T)) :
    (Node.mk k v cs).value = v := rfl

@[simp] theorem Node.children_mk (k : List Byte) (v : Option T) (cs : List (Node T)) :
    (Node.mk k v cs).children = cs := rfl

theorem Node.ext_iff (n : Node T) : n = .mk n.key n.value n.children := by
  cases n <;> rfl

/-- Number of nodes of a subtree; used as a termination measure. -/
def nodeSize : Node T → Nat
  | .mk _ _ cs => 1 + (cs.attach.map (fun c => nodeSize c.1)).sum
decreasing_by
  have := List.sizeOf_lt_of_mem c.2
  simp only [Node.mk.sizeOf_spec]
  omega

theorem nodeSize_mk (k : List Byte) (v : Option T) (cs : List (Node T)) :
    nodeSize (Node.mk k v cs) = 1 + (cs.map nodeSize).sum := by
  rw [nodeSize, List.map_attach]
  simp [List.pmap_eq_map]

theorem nodeSize_lt_of_mem {c n : Node T} (h : c ∈ n.children) : nodeSize c < nodeSize n := by
  cases n with
  | mk k v cs =>
    rw [nodeSize_mk]
    have h1 : nodeSize c ∈ cs.map nodeSize := List.mem_map_of_mem _ h
    have h2 : nodeSize c ≤ (cs.map nodeSize).sum :=
      List.single_le_sum (fun _ _ => Nat.zero_le _) _ h1
    omega

-- ===== single-node primitives (node.rs) =====

/-- Node::new — allocates a node with the given key fragment, no value, no
children; asserts the key length is below 256. -/
def Node.newNode (key : List Byte) : Option (Node T) :=
  if key.length < 256 then some (.mk key none []) else none

/-- Node::new_with_value. -/
def Node.newWithValue (key : List Byte) (v : T) : Option (Node T) :=
  if key.length < 256 then some (.mk key (some v) []) else none

/-- Node::replace_value — writes the value, returning the previous one. -/
def Node.replaceValue (n : Node T) (v : T) : Node T × Option T :=
  (.mk n.key (some v) n.children, n.value)

/-- Node::take_value — clears and returns the stored value. -/
def Node.takeValue (n : Node T) : Node T × Option T :=
  (.mk n.key none n.children, n.value)

/-- Node::insert_child — inserts a child at the given offset; asserts the
offset is in range and the child array is not full. -/
def Node.insertChild (n : Node T) (idx : Nat) (c : Node T) : Option (Node T) :=
  if idx ≤ n.children.length ∧ n.children.length < 256 then
    some (.mk n.key n.value (n.children.insertIdx idx c))
  else none

/-- Node::push_child — appends a child. -/
def Node.pushChild (n : Node T) (c : Node T) : Option (Node T) :=
  n.insertChild n.children.length c

/-- The in-place update children_mut()[idx] = c after a recursive call. -/
def Node.setChild (n : Node T) (idx : Nat) (c : Node T) : Node T :=
  .mk n.key n.value (n.children.set idx c)

/-- Node::remove_child, viewed from the parent (the removed node is read
separately); asserts the offset is in range. -/
def Node.removeChildAt (n : Node T) (idx : Nat) : Option (Node T) :=
  if idx < n.children.length then some (.mk n.key n.value (n.children.eraseIdx idx)) else none

/-- Node::strip_key_prefix — drops the first p bytes of the key fragment;
asserts p is at most the key length. -/
def Node.stripKeyPfx (n : Node T) (p : Nat) : Option (Node T) :=
  if p ≤ n.key.length then some (.mk (n.key.drop p) n.value n.children) else none

/-- Node::extend_key — appends a suffix to the key fragment; asserts the
new length stays below 256. -/
def Node.extendKey (n : Node T) (suffix : List Byte) : Option (Node T) :=
  if n.key.length + suffix.length < 256 then some (.mk (n.key ++ suffix) n.value n.children)
  else none

/-- Node::move_children — adopts the children of a source node; asserts the
receiver has none. -/
def Node.moveChildren (n : Node T) (src : Node T) : Option (Node T) :=
  if n.children.length = 0 then some (.mk n.key n.value src.children) else none

/-- Node::is_empty. -/
def Node.isEmptyNode (n : Node T) : Bool := n.value.isNone && n.children.isEmpty

-- ===== child selection (lib.rs) =====

/-- The loop of Rust slice::binary_search_by over the child keys: maintains
a shrinking half-open window and returns inl on an exact hit, otherwise
inr with the insertion index. -/
def binarySearchGo (keys : List (List Byte)) (target : List Byte) (left right : Nat) :
    Sum Nat Nat :=
  if h : left < right then
    let mid := left + (right - left) / 2
    match bytesCmp (keys.getD mid []) target with
    | .lt => binarySearchGo keys target (mid + 1) right
    | .gt => binarySearchGo keys target left mid
    | .eq => Sum.inl mid
  else Sum.inr left
termination_by right - left
decreasing_by
  · omega
  · omega

/-- longest_common_prefix (lib.rs): binary-search the sorted child array by
the first byte of the key, then count the shared bytes with the selected
child's key fragment.  Returns none exactly when the Rust code would index
out of bounds: the key is empty, or the selected child has an empty key
fragment. -/
def longestCommonPfx (children : List (Node T)) (key : List Byte) : Option (Nat × Nat) :=
  match key with
  | [] => none
  | k0 :: _ =>
    let idx :=
      match binarySearchGo (children.map Node.key) [k0] 0 children.length with
      | .inl i => i
      | .inr i => i
    if hlt : idx < children.length then
      match children[idx].key with
      | [] => none
      | c0 :: _ => if c0 ≠ k0 then some (0, idx) else some (commonPfxLen key children[idx].key, idx)
    else some (0, idx)

/-- Node::select_next_child: the inner option is the Rust return value,
none meaning no child fully matches. -/
def Node.selectNextChild (n : Node T) (key : List Byte) : Option (Option (Nat × Nat)) :=
  match longestCommonPfx n.children key with
  | none => none
  | some (prefixLen, childIdx) =>
    if prefixLen = 0 then some none
    else
      match n.children[childIdx]? with
      | none => none
      | some c =>
        if prefixLen < c.key.length then some none else some (some (prefixLen, childIdx))

-- ===== the recursive node operations (node.rs) =====

/-- Node::insert.  The split_child helper is inlined in the final branch.
Returns the updated node and the previous value for the key; none models
an assertion failure in a primitive. -/
def Node.insert : Node T → List Byte → T → Option (Node T × Option T)
  | n, [], value => some (n.replaceValue value)
  | n, k0 :: krest, value =>
    let key := k0 :: krest
    match longestCommonPfx n.children key with
    | none => none
    | some (prefixLen, childIdx) =>
      if hp : prefixLen = 0 then
        if hl : key.length > 255 then
          match Node.newNode (key.take 255) with
          | none => none
          | some c =>
            match n.insertChild childIdx c with
            | none => none
            | some n1 =>
              match n1.children[childIdx]? with
              | none => none
              | some child =>
                match child.insert (key.drop 255) value with
                | none => none
                | some (c2, old) => some (n1.setChild childIdx c2, old)
        else
          match Node.newWithValue key value with
          | none => none
          | some c =>
            match n.insertChild childIdx c with
            | none => none
            | some n1 => some (n1, none)
      else
        match n.children[childIdx]? with
        | none => none
        | some child =>
          if prefixLen = child.key.length then
            match child.insert (key.drop prefixLen) value with
            | none => none
            | some (c2, old) => some (n.setChild childIdx c2, old)
          else
            -- Node::split_child inlined: replace the child with a fresh
            -- node keyed by the common bytes, strip those bytes off the
            -- old child, push it under the fresh node, insert the rest.
            match Node.newNode (key.take prefixLen) with
            | none => none
            | some fresh =>
              match child.stripKeyPfx prefixLen with
              | none => none
              | some stripped =>
                match fresh.pushChild stripped with
                | none => none
                | some withOld =>
                  match withOld.insert (key.drop prefixLen) value with
                  | none => none
                  | some (c2, old) => some (n.setChild childIdx c2, old)
termination_by _ key _ => key.length
decreasing_by
  all_goals simp only [key, List.length_drop, List.length_cons] at *
  all_goals omega

/-- Node::get. -/
def Node.get : Node T → List Byte → Option (Option T)
  | n, [] => some n.value
  | n, key@(_ :: _) =>
    match n.selectNextChild key with
    | none => none
    | some none => some none
    | some (some (prefixLen, childIdx)) =>
      match h : n.children[childIdx]? with
      | none => none
      | some child => child.get (key.drop prefixLen)
termination_by n _ => nodeSize n
decreasing_by
  exact nodeSize_lt_of_mem (List.getElem?_mem h)

/-- Node::remove.  On an empty key the value is taken and, when exactly
one child remains whose fragment fits, the child is merged into the node;
otherwise the operation recurses and erases a child that became empty. -/
def Node.remove : Node T → List Byte → Option (Node T × Option T)
  | n, [] =>
    let n1 := n.takeValue.1
    let removed := n.takeValue.2
    match n1.children with
    | [c] =>
      if n1.key.length + c.key.length < 256 then
        match (Node.mk n1.key n1.value []).extendKey c.key with
        | none => none
        | some n3 =>
          let n4 :=
            match c.takeValue.2 with
            | some v => (n3.replaceValue v).1
            | none => n3
          match n4.moveChildren c.takeValue.1 with
          | none => none
          | some n5 => some (n5, removed)
      else some (n1, removed)
    | _ => some (n1, removed)
  | n, key@(_ :: _) =>
    match n.selectNextChild key with
    | none => none
    | some none => some (n, none)
    | some (some (prefixLen, childIdx)) =>
      match h : n.children[childIdx]? with
      | none => none
      | some child =>
        match child.remove (key.drop prefixLen) with
        | none => none
        | some (c2, removed) =>
          let n1 := n.setChild childIdx c2
          if removed.isSome && c2.isEmptyNode then
            match n1.removeChildAt childIdx with
            | none => none
            | some n2 => some (n2, removed)
          else some (n1, removed)
termination_by n _ => nodeSize n
decreasing_by
  exact nodeSize_lt_of_mem (List.getElem?_mem h)

/-- Node::find_prefix: locates the node whose subtree the code takes to
hold the keys extending the argument, plus the byte count consumed on
edges strictly above it. -/
def Node.findPfx : Node T → List Byte → Option (Option (Nat × Node T))
  | n, pfx =>
    match longestCommonPfx n.children pfx with
    | none => none
    | some (prefixLen, childIdx) =>
      if prefixLen = 0 then some none
      else
        match h : n.children[childIdx]? with
        | none => none
        | some child =>
          if (pfx.drop prefixLen).isEmpty then some (some (0, child))
          else
            match child.findPfx (pfx.drop prefixLen) with
            | none => none
            | some r => some (r.map (fun q => (prefixLen + q.1, q.2)))
termination_by n _ => nodeSize n
decreasing_by
  exact nodeSize_lt_of_mem (List.getElem?_mem h)

-- ===== iterators (iter.rs) =====

/-- Total size of the nodes held on an iterator stack. -/
def stackSize : List (Nat × Node T) → Nat
  | [] => 0
  | e :: rest => nodeSize e.2 + stackSize rest

theorem stackSize_append (a b : List (Nat × Node T)) :
    stackSize (a ++ b) = stackSize a + stackSize b := by
  induction a with
  | nil => simp [stackSize]
  | cons e rest ih => simp [stackSize, ih]; omega

theorem stackSize_map_children (m : Nat) (cs : List (Node T)) :
    stackSize (cs.map (fun c => (m, c))) = (cs.map nodeSize).sum := by
  induction cs with
  | nil => simp [stackSize]
  | cons c rest ih => simp [stackSize, ih]

/-- Iter::next (iter.rs): pop a node, truncate the shared prefix buffer to
the stored length, append the node's fragment, push children in reverse
(modelled as prepending them in order), and emit the value when present.
Returns the new stack, the new prefix buffer (the emitted key), and the
value. -/
def iterNext : List (Nat × Node T) → List Byte → Option (List (Nat × Node T) × List Byte × T)
  | [], _ => none
  | (pl, n) :: rest, pfx =>
    let pfx2 := pfx.take pl ++ n.key
    let stack2 := n.children.map (fun c => (pfx2.length, c)) ++ rest
    match n.value with
    | some v => some (stack2, pfx2, v)
    | none => iterNext stack2 pfx2
termination_by st _ => stackSize st
decreasing_by
  simp only [stack2, stackSize, stackSize_append, stackSize_map_children, nodeSize_mk]
  rw [show nodeSize n = 1 + (n.children.map nodeSize).sum from by
    cases n; simp [nodeSize_mk]]
  omega

/-- The full stream of items produced by repeatedly calling Iter::next
(the loop of collect());  pairs are (key, value) as yielded by the
key-and-value mapping. -/
def iterAll : List (Nat × Node T) → List Byte → List (List Byte × T)
  | [], _ => []
  | (pl, n) :: rest, pfx =>
    let pfx2 := pfx.take pl ++ n.key
    let stack2 := n.children.map (fun c => (pfx2.length, c)) ++ rest
    match n.value with
    | some v => (pfx2, v) :: iterAll stack2 pfx2
    | none => iterAll stack2 pfx2
termination_by st _ => stackSize st
decreasing_by
  all_goals
    simp only [stack2, stackSize, stackSize_append, stackSize_map_children, nodeSize_mk]
  all_goals
    rw [show nodeSize n = 1 + (n.children.map nodeSize).sum from by
      cases n; simp [nodeSize_mk]]
  all_goals omega

-- ===== range bounds (iter.rs) =====

/-- One end of a range request (std::ops::Bound). -/
inductive RBound : Type where
  | unbounded : RBound
  | included (k : List Byte) : RBound
  | excluded (k : List Byte) : RBound

/-- in_range_left (iter.rs). -/
def inRangeLeft : RBound → List Byte → Bool
  | .excluded lb, k => decide (lexLt lb k)
  | .included lb, k => decide (lexLe lb k)
  | .unbounded, _ => true

/-- in_range_right (iter.rs). -/
def inRangeRight : RBound → List Byte → Bool
  | .excluded ub, k => decide (lexLt k ub)
  | .included ub, k => decide (lexLe k ub)
  | .unbounded, _ => true

/-- Range::next (iter.rs) folded over the underlying stream: keys below
the lower bound are skipped, and the first key past the upper bound stops
the iteration for good (the done flag). -/
def rangeFilter (lo hi : RBound) : List (List Byte × T) → List (List Byte × T)
  | [] => []
  | e :: rest =>
    if !inRangeLeft lo e.1 then rangeFilter lo hi rest
    else if !inRangeRight hi e.1 then []
    else e :: rangeFilter lo hi rest

-- ===== the map wrapper (map.rs) =====

/-- RadixMap: the root node plus the cached element count. -/
structure RadixMap (T : Type) : Type where
  root : Node T
  size : Nat

/-- RadixMap::new — root is a node with empty key, no value, no children. -/
def RadixMap.new : RadixMap T := ⟨.mk [] none [], 0⟩

/-- RadixMap::len. -/
def RadixMap.len (m : RadixMap T) : Nat := m.size

/-- RadixMap::insert — forwards to the root and bumps the count when no
previous value existed. -/
def RadixMap.insert (m : RadixMap T) (key : List Byte) (v : T) :
    Option (RadixMap T × Option T) :=
  match m.root.insert key v with
  | none => none
  | some (root2, old) => some (⟨root2, m.size + (if old.isNone then 1 else 0)⟩, old)

/-- RadixMap::remove — forwards to the root and drops the count when a
value was removed. -/
def RadixMap.remove (m : RadixMap T) (key : List Byte) :
    Option (RadixMap T × Option T) :=
  match m.root.remove key with
  | none => none
  | some (root2, removed) =>
    some (⟨root2, m.size - (if removed.isSome then 1 else 0)⟩, removed)

/-- RadixMap::get. -/
def RadixMap.get (m : RadixMap T) (key : List Byte) : Option (Option T) :=
  m.root.get key

/-- The stream of (key, value) items of RadixMap::iter — the iterator is
seeded with the root and an empty prefix buffer. -/
def RadixMap.iterList (m : RadixMap T) : List (List Byte × T) :=
  iterAll [(0, m.root)] []

/-- The stream of RadixMap::prefix_iter: find_prefix seeds the iterator
with the matched node and the consumed bytes of the request. -/
def RadixMap.pfxIterList (m : RadixMap T) (p : List Byte) :
    Option (List (List Byte × T)) :=
  match m.root.findPfx p with
  | none => none
  | some (some (plen, node)) => some (iterAll [((p.take plen).length, node)] (p.take plen))
  | some none => some []

/-- The stream of RadixMap::range over the full-order iterator. -/
def RadixMap.rangeList (m : RadixMap T) (lo hi : RBound) : List (List Byte × T) :=
  rangeFilter lo hi m.iterList

-- ===== the set wrapper (set.rs) =====

/-- RadixSet wraps a map with unit payload. -/
structure RadixSet : Type where
  inner : RadixMap Unit

def RadixSet.new : RadixSet := ⟨RadixMap.new⟩

/-- RadixSet::insert — true when the key was new. -/
def RadixSet.insert (s : RadixSet) (key : List Byte) : Option (RadixSet × Bool) :=
  match s.inner.insert key () with
  | none => none
  | some (m2, old) => some (⟨m2⟩, old.isNone)

/-- The keys yielded by the set's iterator, in traversal order. -/
def RadixSet.keyList (s : RadixSet) : List (List Byte) :=
  s.inner.iterList.map Prod.fst

/-- The advancing loops of Intersection::next (set.rs): advance the
iterator while its current key is below the target; none when the
underlying iterator is exhausted first. -/
def advanceUntilGe (target k : List Byte) (rest : List (List Byte)) :
    Option (List Byte × List (List Byte)) :=
  if lexLt k target then
    match rest with
    | [] => none
    | k2 :: rest2 => advanceUntilGe target k2 rest2
  else some (k, rest)

/-- Intersection::next (set.rs): advance both iterators once, run the two
catch-up loops, and emit the left key. -/
def intersectionNext : List (List Byte) → List (List Byte) →
    Option (List Byte × List (List Byte) × List (List Byte))
  | l :: ls, r :: rs =>
    match advanceUntilGe r l ls with
    | none => none
    | some (lk, ls2) =>
      match advanceUntilGe lk r rs with
      | none => none
      | some (rk, rs2) => some (lk, ls2, rs2)
  | _, _ => none

theorem advanceUntilGe_length {target k : List Byte} {rest : List (List Byte)}
    {out : List Byte × List (List Byte)} (h : advanceUntilGe target k rest = some out) :
    out.2.length ≤ rest.length := by
  induction rest generalizing k with
  | nil =>
    rw [advanceUntilGe] at h
    split at h
    · exact absurd h (by simp)
    · cases h; simp
  | cons k2 rest2 ih =>
    rw [advanceUntilGe] at h
    split at h
    · have := ih h; simp; omega
    · cases h; simp

theorem intersectionNext_length : ∀ {ls rs : List (List Byte)} {out},
    intersectionNext ls rs = some out → out.2.1.length < ls.length
  | [], _, _, h => by simp [intersectionNext] at h
  | _ :: _, [], _, h => by simp [intersectionNext] at h
  | l :: lt, r :: rt, out, h => by
    rw [intersectionNext] at h
    split at h
    · simp at h
    · rename_i lk ls2 heq1
      split at h
      · simp at h
      · rename_i rk rs2 heq2
        simp only [Option.some.injEq] at h
        subst h
        have := advanceUntilGe_length heq1
        simp at this ⊢
        omega

/-- The stream produced by collecting the Intersection iterator. -/
def intersectionAll (ls rs : List (List Byte)) : List (List Byte) :=
  match h : intersectionNext ls rs with
  | none => []
  | some (k, ls2, rs2) => k :: intersectionAll ls2 rs2
termination_by ls.length
decreasing_by
  exact intersectionNext_length h

/-- RadixSet::intersection, collected. -/
def RadixSet.intersectionList (a b : RadixSet) : List (List Byte) :=
  intersectionAll a.keyList b.keyList

-- ===== abstraction: the entry list of a subtree =====

/-- The (zero- or one-element) entry list of a node's own value slot. -/
def valEntry (k : List Byte) (v : Option T) : List (List Byte × T) :=
  match v with
  | some x => [(k, x)]
  | none => []

/-- The association list a subtree denotes: the node's own value keyed by
the accumulated path, then each child subtree in order, depth first.
This is the specification-side view the iterators are proved against. -/
def entriesP : List Byte → Node T → List (List Byte × T)
  | pfx, .mk k v cs =>
    valEntry (pfx ++ k) v ++
    (cs.attach.map (fun c => entriesP (pfx ++ k) c.1)).flatten
decreasing_by
  have := List.sizeOf_lt_of_mem c.2
  simp only [Node.mk.sizeOf_spec]
  omega

/-- First-match lookup in an association list. -/
def findVal : List (List Byte × T) → List Byte → Option T
  | [], _ => none
  | e :: rest, k => if e.1 = k then some e.2 else findVal rest k

-- ===== invariants =====

/-- All nodes of a forest, root first then the subtrees, via a worklist. -/
def nodesList : List (Node T) → List (Node T)
  | [] => []
  | n :: rest => n :: nodesList (n.children ++ rest)
termination_by l => stackSize (l.map (fun n => (0, n)))
decreasing_by
  simp only [List.map_cons, List.map_append, stackSize, stackSize_append]
  rw [show stackSize (n.children.map fun c => (0, c)) = (n.children.map nodeSize).sum from
    stackSize_map_children 0 n.children]
  rw [show nodeSize n = 1 + (n.children.map nodeSize).sum from by cases n; simp [nodeSize_mk]]
  omega

def firstByte (k : List Byte) : Byte := k.headD 0

/-- The local well-formedness of one node: fragment below 256 bytes,
children with non-empty fragments, sorted with pairwise distinct first
bytes. -/
def localOK (n : Node T) : Prop :=
  n.key.length < 256 ∧ (∀ c ∈ n.children, c.key ≠ []) ∧
    n.children.Pairwise (fun a b => firstByte a.key < firstByte b.key)

instance (n : Node T) : Decidable (localOK n) := by unfold localOK; infer_instance

/-- Structural well-formedness of a whole subtree. -/
def NodeInv (n : Node T) : Prop := ∀ m ∈ nodesList [n], localOK m

/-- Number of value-carrying nodes of a subtree. -/
def countVals (n : Node T) : Nat :=
  (nodesList [n]).countP (fun m => m.value.isSome)

/-- Map well-formedness: a well-formed tree and an accurate cached count. -/
def MapInv (m : RadixMap T) : Prop := NodeInv m.root ∧ m.size = countVals m.root

/-- The edge-compression condition at a single (non-root) node: a
value-less node must not have exactly one child when the two fragments
together fit below 256 bytes. -/
def ecAt (n : Node T) : Prop :=
  match n.children with
  | [c] => ¬ (n.value.isNone = true ∧ n.key.length + c.key.length < 256)
  | _ => True

instance (n : Node T) : Decidable (ecAt n) := by
  unfold ecAt
  split
  · infer_instance
  · infer_instance

/-- Edge compression over every non-root node of the tree. -/
def rootEC (root : Node T) : Prop := ∀ m ∈ nodesList root.children, ecAt m

/-- Every key fragment in the tree is shorter than 256 bytes. -/
def allFragsShort (root : Node T) : Prop :=
  ∀ m ∈ nodesList [root], m.key.length < 256

instance (n : Node T) : Decidable (rootEC n) := by unfold rootEC; infer_instance

instance (n : Node T) : Decidable (NodeInv n) := by unfold NodeInv; infer_instance

instance (m : RadixMap T) : Decidable (MapInv m) := by unfold MapInv; infer_instance

instance (n : Node T) : Decidable (allFragsShort n) := by unfold allFragsShort; infer_instance

-- ===== order lemmas =====

theorem bytesCmp_eq_iff : ∀ {a b : List Byte}, bytesCmp a b = .eq ↔ a = b
  | [], [] => by simp [bytesCmp]
  | [], _ :: _ => by simp [bytesCmp]
  | _ :: _, [] => by simp [bytesCmp]
  | a :: ta, b :: tb => by
    rw [bytesCmp]
    rcases lt_trichotomy a b with h | h | h
    · simp [h, Fin.ne_of_lt h]
    · subst h
      simp [lt_irrefl, bytesCmp_eq_iff]
    · rw [if_neg (by exact not_lt_of_gt h), if_pos h]
      simp [Ne.symm (Fin.ne_of_lt h)]

theorem bytesCmp_swap : ∀ (a b : List Byte), (bytesCmp a b).swap = bytesCmp b a
  | [], [] => by simp [bytesCmp, Ordering.swap]
  | [], _ :: _ => by simp [bytesCmp, Ordering.swap]
  | _ :: _, [] => by simp [bytesCmp, Ordering.swap]
  | a :: ta, b :: tb => by
    rw [bytesCmp, bytesCmp]
    rcases lt_trichotomy a b with h | h | h
    · rw [if_pos h, if_neg (by exact not_lt_of_gt h), if_pos h]; rfl
    · subst h
      simp [lt_irrefl, bytesCmp_swap]
    · rw [if_neg (by exact not_lt_of_gt h), if_pos h, if_pos h]; rfl

theorem bytesCmp_gt_iff {a b : List Byte} : bytesCmp a b = .gt ↔ lexLt b a := by
  unfold lexLt
  rw [← bytesCmp_swap a b]
  cases bytesCmp a b <;> simp [Ordering.swap]

theorem lexLt_irrefl (a : List Byte) : ¬ lexLt a a := by
  unfold lexLt
  rw [bytesCmp_eq_iff.mpr rfl]
  simp

theorem lexLt_trans : ∀ {a b c : List Byte}, lexLt a b → lexLt b c → lexLt a c
  | [], b, [], _, hbc => by
    unfold lexLt at *
    cases b with
    | nil => simp [bytesCmp] at hbc
    | cons x tx => simp [bytesCmp] at hbc
  | [], _, _ :: _, _, _ => by unfold lexLt; simp [bytesCmp]
  | _ :: _, b, c, hab, hbc => by
    unfold lexLt at *
    cases b with
    | nil => simp [bytesCmp] at hab
    | cons y ty =>
      cases c with
      | nil => simp [bytesCmp] at hbc
      | cons z tz =>
        rename_i x tx
        rw [bytesCmp] at hab hbc ⊢
        rcases lt_trichotomy x y with h1 | h1 | h1
        · rcases lt_trichotomy y z with h2 | h2 | h2
          · rw [if_pos (lt_trans h1 h2)]
          · subst h2; rw [if_pos h1]
          · rw [if_pos h2, if_neg (by exact not_lt_of_gt h2)] at hbc
            simp at hbc
        · subst h1
          rcases lt_trichotomy x z with h2 | h2 | h2
          · rw [if_pos h2]
          · subst h2
            simp only [lt_irrefl, if_false] at hab hbc ⊢
            exact lexLt_trans hab hbc
          · rw [if_neg (by exact not_lt_of_gt h2), if_pos h2] at hbc
            simp at hbc
        · rw [if_neg (by exact not_lt_of_gt h1), if_pos h1] at hab
          simp at hab

theorem lexLt_asymm {a b : List Byte} (h : lexLt a b) : ¬ lexLt b a := by
  intro h2
  exact lexLt_irrefl a (lexLt_trans h h2)

theorem lexLt_trichotomy (a b : List Byte) : lexLt a b ∨ a = b ∨ lexLt b a := by
  rcases hc : bytesCmp a b with _ | _ | _
  · left; exact hc
  · right; left; exact bytesCmp_eq_iff.mp hc
  · right; right; exact bytesCmp_gt_iff.mp hc

theorem lexLe_iff {a b : List Byte} : lexLe a b ↔ lexLt a b ∨ a = b := by
  unfold lexLe lexLt
  constructor
  · intro h
    rcases hc : bytesCmp a b with _ | _ | _
    · left; rfl
    · right; exact bytesCmp_eq_iff.mp hc
    · exact absurd hc h
  · rintro (h | h)
    · simp [h]
    · subst h; rw [bytesCmp_eq_iff.mpr rfl]; simp

theorem not_lexLe_iff {a b : List Byte} : ¬ lexLe a b ↔ lexLt b a := by
  unfold lexLe
  rw [← bytesCmp_gt_iff]
  cases bytesCmp a b <;> simp

theorem bytesCmp_append_left : ∀ (p x y : List Byte),
    bytesCmp (p ++ x) (p ++ y) = bytesCmp x y
  | [], _, _ => rfl
  | a :: tp, x, y => by
    simp only [List.cons_append, bytesCmp, lt_irrefl, if_false]
    exact bytesCmp_append_left tp x y

theorem lexLt_append_right (p : List Byte) {x : List Byte} (h : x ≠ []) :
    lexLt p (p ++ x) := by
  unfold lexLt
  have := bytesCmp_append_left p [] x
  rw [List.append_nil] at this
  rw [this]
  cases x with
  | nil => exact absurd rfl h
  | cons a ta => rfl

theorem lexLt_of_head_lt {a b : Byte} {ta tb : List Byte} (h : a < b) :
    lexLt (a :: ta) (b :: tb) := by
  unfold lexLt
  rw [bytesCmp, if_pos h]

-- ===== common-prefix-length lemmas =====

@[simp] theorem commonPfxLen_nil_left (b : List Byte) : commonPfxLen [] b = 0 := by
  cases b <;> rfl

@[simp] theorem commonPfxLen_nil_right (a : List Byte) : commonPfxLen a [] = 0 := by
  cases a <;> rfl

theorem commonPfxLen_cons (a b : Byte) (ta tb : List Byte) :
    commonPfxLen (a :: ta) (b :: tb) = if a = b then commonPfxLen ta tb + 1 else 0 := by
  rw [commonPfxLen]

theorem commonPfxLen_le_left : ∀ (a b : List Byte), commonPfxLen a b ≤ a.length
  | [], _ => by simp
  | _ :: _, [] => by simp
  | a :: ta, b :: tb => by
    rw [commonPfxLen_cons]
    split
    · have := commonPfxLen_le_left ta tb
      simp; omega
    · simp

theorem commonPfxLen_le_right : ∀ (a b : List Byte), commonPfxLen a b ≤ b.length
  | [], _ => by simp
  | _ :: _, [] => by simp
  | a :: ta, b :: tb => by
    rw [commonPfxLen_cons]
    split
    · have := commonPfxLen_le_right ta tb
      simp; omega
    · simp

theorem commonPfxLen_take_eq : ∀ (a b : List Byte),
    a.take (commonPfxLen a b) = b.take (commonPfxLen a b)
  | [], b => by simp
  | _ :: _, [] => by simp
  | a :: ta, b :: tb => by
    rw [commonPfxLen_cons]
    split
    · rename_i h
      subst h
      simp [List.take_succ_cons, commonPfxLen_take_eq ta tb]
    · simp

theorem commonPfxLen_eq_right_iff : ∀ {a b : List Byte},
    commonPfxLen a b = b.length ↔ b <+: a
  | a, [] => by simp
  | [], b :: tb => by
    simp only [commonPfxLen_nil_left, List.length_cons]
    constructor
    · omega
    · intro h
      exact absurd h.length_le (by simp)
  | a :: ta, b :: tb => by
    rw [commonPfxLen_cons]
    split
    · rename_i h
      subst h
      simp only [List.length_cons, Nat.add_right_cancel_iff, List.cons_prefix_cons, true_and]
      exact commonPfxLen_eq_right_iff
    · rename_i h
      simp only [List.length_cons, List.cons_prefix_cons]
      constructor
      · omega
      · rintro ⟨rfl, -⟩; exact absurd rfl h

theorem commonPfxLen_head_eq {a b : Byte} {ta tb : List Byte} :
    a = b ↔ 1 ≤ commonPfxLen (a :: ta) (b :: tb) := by
  rw [commonPfxLen_cons]
  split
  · rename_i h; simp [h]
  · rename_i h; simp [h]

theorem commonPfxLen_comm : ∀ (a b : List Byte), commonPfxLen a b = commonPfxLen b a
  | [], b => by simp
  | _ :: _, [] => by simp
  | a :: ta, b :: tb => by
    rw [commonPfxLen_cons, commonPfxLen_cons]
    rcases eq_or_ne a b with h | h
    · subst h
      simp [commonPfxLen_comm ta tb]
    · simp [h, Ne.symm h]

theorem commonPfxLen_diverge : ∀ {a b : List Byte} (p : Nat), p = commonPfxLen a b →
    (hpa : p < a.length) → (hpb : p < b.length) → a.get ⟨p, hpa⟩ ≠ b.get ⟨p, hpb⟩
  | [], _, p, hp, hpa, _ => by simp at hpa
  | _ :: _, [], p, hp, _, hpb => by simp at hpb
  | a :: ta, b :: tb, p, hp, hpa, hpb => by
    rw [commonPfxLen_cons] at hp
    split at hp
    · rename_i h
      subst h
      cases p with
      | zero => omega
      | succ q =>
        simp only [List.get_cons_succ]
        exact commonPfxLen_diverge q (by omega) _ _
    · rename_i h
      subst hp
      simpa using h

-- ===== binary search and child-selection lemmas =====

theorem lexLt_cons_single {c0 k0 : Byte} {r : List Byte} :
    lexLt (c0 :: r) [k0] ↔ c0 < k0 := by
  unfold lexLt
  rw [bytesCmp]
  rcases lt_trichotomy c0 k0 with h | h | h
  · simp [h]
  · subst h
    simp only [lt_irrefl, if_false]
    cases r <;> simp [bytesCmp]
  · rw [if_neg (by exact not_lt_of_gt h), if_pos h]
    simp [not_lt_of_gt h]

theorem lexLt_single_cons {c0 k0 : Byte} {r : List Byte} :
    lexLt [k0] (c0 :: r) ↔ (k0 < c0 ∨ (k0 = c0 ∧ r ≠ [])) := by
  unfold lexLt
  rw [bytesCmp]
  rcases lt_trichotomy k0 c0 with h | h | h
  · simp [h]
  · subst h
    simp only [lt_irrefl, if_false]
    cases r <;> simp [bytesCmp]
  · rw [if_neg (by exact not_lt_of_gt h), if_pos h]
    simp [not_lt_of_gt h, Ne.symm (Fin.ne_of_lt h)]

theorem lexLt_of_firstByte_lt {a b : List Byte} (ha : a ≠ []) (hb : b ≠ [])
    (h : firstByte a < firstByte b) : lexLt a b := by
  cases a with
  | nil => exact absurd rfl ha
  | cons a0 ta =>
    cases b with
    | nil => exact absurd rfl hb
    | cons b0 tb =>
      simp only [firstByte, List.headD_cons] at h
      exact lexLt_of_head_lt h

theorem firstByte_cons (a : Byte) (ta : List Byte) : firstByte (a :: ta) = a := rfl

theorem binarySearchGo_spec {keys : List (List Byte)} {target : List Byte}
    (hs : keys.Pairwise lexLt) :
    ∀ left right, left ≤ right → right ≤ keys.length →
    (∀ i (hi : i < keys.length), i < left → lexLt keys[i] target) →
    (∀ i (hi : i < keys.length), right ≤ i → lexLt target keys[i]) →
    (∀ j, binarySearchGo keys target left right = .inl j →
        ∃ hj : j < keys.length, keys[j] = target) ∧
    (∀ j, binarySearchGo keys target left right = .inr j →
        j ≤ keys.length ∧
        (∀ i (hi : i < keys.length), i < j → lexLt keys[i] target) ∧
        (∀ i (hi : i < keys.length), j ≤ i → lexLt target keys[i])) := by
  have hpg := List.pairwise_iff_getElem.mp hs
  intro left right
  induction left, right using binarySearchGo.induct keys target with
  | case1 left right hlr mid hcmp ih =>
    intro h1 h2 h3 h4
    have hmid : mid = left + (right - left) / 2 := rfl
    rw [hmid] at hcmp
    have hmlt : left + (right - left) / 2 < keys.length := by omega
    have hmt : lexLt keys[left + (right - left) / 2] target := by
      have h5 := hcmp
      rw [List.getD_eq_getElem keys [] hmlt] at h5
      exact h5
    rw [binarySearchGo, dif_pos hlr]
    simp only [hcmp]
    refine ih (by omega) h2 ?_ h4
    intro i hi hilt
    rcases lt_trichotomy i (left + (right - left) / 2) with h | h | h
    · exact lexLt_trans (hpg i _ hi hmlt h) hmt
    · subst h; exact hmt
    · omega
  | case2 left right hlr mid hcmp ih =>
    intro h1 h2 h3 h4
    have hmid : mid = left + (right - left) / 2 := rfl
    rw [hmid] at hcmp
    have hmlt : left + (right - left) / 2 < keys.length := by omega
    have hmt : lexLt target keys[left + (right - left) / 2] := by
      have h5 := hcmp
      rw [List.getD_eq_getElem keys [] hmlt] at h5
      exact bytesCmp_gt_iff.mp h5
    rw [binarySearchGo, dif_pos hlr]
    simp only [hcmp]
    refine ih (by omega) (by omega) h3 ?_
    intro i hi hile
    rcases eq_or_lt_of_le hile with h | h
    · subst h; exact hmt
    · exact lexLt_trans hmt (hpg _ i hmlt hi h)
  | case3 left right hlr mid hcmp =>
    intro h1 h2 h3 h4
    have hmid : mid = left + (right - left) / 2 := rfl
    rw [hmid] at hcmp
    have hmlt : left + (right - left) / 2 < keys.length := by omega
    have hmt : keys[left + (right - left) / 2] = target := by
      have h5 := hcmp
      rw [List.getD_eq_getElem keys [] hmlt] at h5
      exact bytesCmp_eq_iff.mp h5
    rw [binarySearchGo, dif_pos hlr]
    simp only [hcmp]
    constructor
    · intro j hj
      cases hj
      exact ⟨hmlt, hmt⟩
    · intro j hj
      cases hj
  | case4 left right hlr =>
    intro h1 h2 h3 h4
    rw [binarySearchGo, dif_neg hlr]
    constructor
    · intro j hj
      cases hj
    · intro j hj
      cases hj
      exact ⟨by omega, h3, fun i hi hle => h4 i hi (by omega)⟩

/-- Correctness of longest_common_prefix on a well-formed child array: it
returns some pair; if a child starts with the key's first byte, the result
selects that child with the true shared-prefix length (at least 1);
otherwise the length is 0 and the index is the sorted insertion point. -/
theorem lcp_spec {cs : List (Node T)} (hne : ∀ c ∈ cs, c.key ≠ [])
    (hp : cs.Pairwise (fun a b => firstByte a.key < firstByte b.key))
    (k0 : Byte) (kt : List Byte) :
    ∃ p i, longestCommonPfx cs (k0 :: kt) = some (p, i) ∧ i ≤ cs.length ∧
      (∀ j (hj : j < cs.length), j < i → firstByte (cs[j]).key < k0) ∧
      (∀ j (hj : j < cs.length), i < j → k0 < firstByte (cs[j]).key) ∧
      ((∃ hi : i < cs.length, firstByte (cs[i]).key = k0 ∧
          p = commonPfxLen (k0 :: kt) (cs[i]).key ∧ 1 ≤ p)
       ∨ (p = 0 ∧ (∀ j (hj : j < cs.length), firstByte (cs[j]).key ≠ k0) ∧
          (∀ hi : i < cs.length, k0 < firstByte (cs[i]).key))) := by
  have hpg := List.pairwise_iff_getElem.mp hp
  have hkeys : (cs.map Node.key).Pairwise lexLt := by
    rw [List.pairwise_map]
    refine hp.imp_of_mem ?_
    intro a b ha hb hab
    exact lexLt_of_firstByte_lt (hne a ha) (hne b hb) hab
  have hspec := @binarySearchGo_spec (cs.map Node.key) [k0] hkeys 0 cs.length (Nat.zero_le _)
    (by simp) (by intro i hi h; omega) (by intro i hi h; simp at hi; omega)
  have hkmem : ∀ (j : Nat) (hj : j < cs.length), (cs[j]).key ≠ [] :=
    fun j hj => hne _ (List.getElem_mem hj)
  have hkget : ∀ (j : Nat) (hj : j < cs.length) (hj2 : j < (cs.map Node.key).length),
      (cs.map Node.key)[j] = (cs[j]).key := by
    intro j hj hj2
    simp
  cases hbs : binarySearchGo (cs.map Node.key) [k0] 0 cs.length with
  | inl i =>
    obtain ⟨hilen, hieq⟩ := hspec.1 i hbs
    rw [List.length_map] at hilen
    rw [hkget i hilen (by simpa using hilen)] at hieq
    have hfb : firstByte (cs[i]).key = k0 := by rw [hieq]; rfl
    refine ⟨commonPfxLen (k0 :: kt) (cs[i]).key, i, ?_, by omega,
      fun j hj hji => hfb ▸ hpg j i hj hilen hji,
      fun j hj hij => hfb ▸ hpg i j hilen hj hij, ?_⟩
    · simp only [longestCommonPfx, hbs]
      rw [dif_pos hilen]
      rw [show (cs[i]).key = k0 :: ([] : List Byte) from hieq]
      simp
    · refine Or.inl ⟨hilen, hfb, rfl, ?_⟩
      rw [hieq]
      exact commonPfxLen_head_eq.mp rfl
  | inr i =>
    obtain ⟨hile, hlow, hhigh⟩ := hspec.2 i hbs
    rw [List.length_map] at hile
    have hlow2 : ∀ (j : Nat) (hj : j < cs.length), j < i → firstByte (cs[j]).key < k0 := by
      intro j hj hji
      have hlj := hlow j (by simpa using hj) hji
      rw [hkget j hj (by simpa using hj)] at hlj
      rcases hck : (cs[j]).key with _ | ⟨c0, r⟩
      · exact absurd hck (hkmem j hj)
      · rw [hck] at hlj
        rw [firstByte_cons]
        exact lexLt_cons_single.mp hlj
    have hhigh2 : ∀ (j : Nat) (hj : j < cs.length), i ≤ j →
        k0 < firstByte (cs[j]).key ∨ (k0 = firstByte (cs[j]).key ∧ (cs[j]).key ≠ [k0]) := by
      intro j hj hij
      have hlj := hhigh j (by simpa using hj) hij
      rw [hkget j hj (by simpa using hj)] at hlj
      rcases hck : (cs[j]).key with _ | ⟨c0, r⟩
      · exact absurd hck (hkmem j hj)
      · rw [hck] at hlj
        rcases lexLt_single_cons.mp hlj with h | ⟨h1, h2⟩
        · left; rw [firstByte_cons]; exact h
        · right
          constructor
          · rw [firstByte_cons]; exact h1
          · intro hq
            rw [List.cons_eq_cons] at hq
            exact h2 hq.2
    rcases Nat.lt_or_ge i cs.length with hilt | hige
    · rcases hck : (cs[i]).key with _ | ⟨c0, r⟩
      · exact absurd hck (hkmem i hilt)
      · rcases eq_or_ne c0 k0 with hc | hc
        · -- the selected child starts with the key's first byte
          subst hc
          refine ⟨commonPfxLen (c0 :: kt) (cs[i]).key, i, ?_, by omega, hlow2,
            fun j hj hij => ?_, ?_⟩
          · simp only [longestCommonPfx, hbs]
            rw [dif_pos hilt, hck]
            simp
          · have := hpg i j hilt hj hij
            rw [hck, firstByte_cons] at this
            exact this
          · refine Or.inl ⟨hilt, by rw [hck, firstByte_cons], rfl, ?_⟩
            rw [hck]
            exact commonPfxLen_head_eq.mp rfl
        · -- no child starts with the key's first byte
          have hik : k0 < c0 := by
            rcases hhigh2 i hilt (le_refl i) with h | ⟨h1, h2⟩
            · rw [hck, firstByte_cons] at h; exact h
            · rw [hck, firstByte_cons] at h1; exact absurd h1.symm hc
          refine ⟨0, i, ?_, by omega, hlow2, fun j hj hij => ?_, ?_⟩
          · simp only [longestCommonPfx, hbs]
            rw [dif_pos hilt, hck]
            simp [hc]
          · have := hpg i j hilt hj hij
            rw [hck, firstByte_cons] at this
            exact lt_trans hik this
          · refine Or.inr ⟨rfl, ?_, ?_⟩
            · intro j hj
              rcases lt_trichotomy j i with h | h | h
              · exact ne_of_lt (hlow2 j hj h)
              · subst h
                rw [hck, firstByte_cons]
                exact hc
              · have := hpg i j hilt hj h
                rw [hck, firstByte_cons] at this
                exact ne_of_gt (lt_trans hik this)
            · intro hi2
              rw [hck, firstByte_cons]
              exact hik
    · -- insertion point at the very end
      refine ⟨0, i, ?_, hile, hlow2, fun j hj hij => by omega, ?_⟩
      · simp only [longestCommonPfx, hbs]
        rw [dif_neg (by omega)]
      · refine Or.inr ⟨rfl, ?_, ?_⟩
        · intro j hj
          exact ne_of_lt (hlow2 j hj (by omega))
        · intro hi2
          omega

-- ===== structural helpers =====

theorem nodeSize_pos (n : Node T) : 1 ≤ nodeSize n := by
  cases n with
  | mk k v cs => rw [nodeSize_mk]; omega

theorem node_strong_ind {P : Node T → Prop}
    (h : ∀ n, (∀ c ∈ n.children, P c) → P n) : ∀ n, P n := by
  have H : ∀ s (n : Node T), nodeSize n ≤ s → P n := by
    intro s
    induction s with
    | zero =>
      intro n hn
      have := nodeSize_pos n
      omega
    | succ s ih =>
      intro n hn
      refine h n (fun c hc => ih c ?_)
      have := nodeSize_lt_of_mem hc
      omega
  exact fun n => H (nodeSize n) n (le_refl _)

@[simp] theorem valEntry_some (k : List Byte) (x : T) :
    valEntry k (some x) = [(k, x)] := rfl

@[simp] theorem valEntry_none (k : List Byte) :
    valEntry k (none : Option T) = [] := rfl

theorem entriesP_mk (pfx k : List Byte) (v : Option T) (cs : List (Node T)) :
    entriesP pfx (Node.mk k v cs) =
      valEntry (pfx ++ k) v ++ (cs.map (entriesP (pfx ++ k))).flatten := by
  conv_lhs => rw [entriesP.eq_def]
  simp [List.map_attach, List.pmap_eq_map]

theorem valPart_lookup_ne {k tgt : List Byte} (h : k ≠ tgt) (v : Option T) :
    findVal (valEntry k v) tgt = none := by
  cases v with
  | some x =>
    rw [valEntry, findVal, if_neg h, findVal]
  | none => rfl

theorem valPart_lookup_self (k : List Byte) (v : Option T) :
    findVal (valEntry k v) k = v := by
  cases v with
  | some x => rw [valEntry, findVal, if_pos rfl]
  | none => rfl

theorem valEntry_length (k : List Byte) (v : Option T) :
    (valEntry k v).length = if v.isSome then 1 else 0 := by
  cases v <;> rfl

theorem nodesList_cons (n : Node T) (rest : List (Node T)) :
    nodesList (n :: rest) = n :: nodesList (n.children ++ rest) := by
  rw [nodesList]

theorem nodesList_append : ∀ (l1 l2 : List (Node T)),
    nodesList (l1 ++ l2) = nodesList l1 ++ nodesList l2 := by
  have H : ∀ s (l1 l2 : List (Node T)), (l1.map nodeSize).sum ≤ s →
      nodesList (l1 ++ l2) = nodesList l1 ++ nodesList l2 := by
    intro s
    induction s with
    | zero =>
      intro l1 l2 hs
      cases l1 with
      | nil => simp [nodesList]
      | cons n t =>
        exfalso
        simp only [List.map_cons, List.sum_cons] at hs
        have := nodeSize_pos n
        omega
    | succ s ih =>
      intro l1 l2 hs
      cases l1 with
      | nil => simp [nodesList]
      | cons n t =>
        rw [List.cons_append, nodesList_cons, nodesList_cons]
        rw [show n.children ++ (t ++ l2) = (n.children ++ t) ++ l2 from
          (List.append_assoc _ _ _).symm]
        rw [ih (n.children ++ t) l2 ?_]
        · simp
        · simp only [List.map_cons, List.sum_cons] at hs
          rw [show nodeSize n = 1 + (n.children.map nodeSize).sum from by
            cases n; simp [nodeSize_mk]] at hs
          simp only [List.map_append, List.sum_append]
          omega
  exact fun l1 l2 => H ((l1.map nodeSize).sum) l1 l2 (le_refl _)

theorem nodesList_single (n : Node T) : nodesList [n] = n :: nodesList n.children := by
  rw [nodesList_cons, List.append_nil]

theorem mem_nodesList_iff {m : Node T} : ∀ {l : List (Node T)},
    m ∈ nodesList l ↔ ∃ c ∈ l, m ∈ nodesList [c] := by
  intro l
  induction l with
  | nil => simp [nodesList]
  | cons n t ih =>
    rw [show n :: t = [n] ++ t from rfl, nodesList_append]
    simp only [List.mem_append, ih, List.mem_singleton]
    constructor
    · rintro (h | ⟨c, hc, hm⟩)
      · exact ⟨n, Or.inl rfl, h⟩
      · exact ⟨c, Or.inr hc, hm⟩
    · rintro ⟨c, rfl | hc, hm⟩
      · exact Or.inl hm
      · exact Or.inr ⟨c, hc, hm⟩

theorem self_mem_nodesList (n : Node T) : n ∈ nodesList [n] := by
  rw [nodesList_single]
  simp

theorem NodeInv_iff {n : Node T} :
    NodeInv n ↔ localOK n ∧ ∀ c ∈ n.children, NodeInv c := by
  unfold NodeInv
  rw [nodesList_single]
  simp only [List.mem_cons]
  constructor
  · intro h
    refine ⟨h n (Or.inl rfl), fun c hc m hm => h m ?_⟩
    right
    rw [mem_nodesList_iff]
    exact ⟨c, hc, hm⟩
  · rintro ⟨hl, hc⟩ m hm
    rcases hm with rfl | hm
    · exact hl
    · rw [mem_nodesList_iff] at hm
      obtain ⟨c, hcm, hm⟩ := hm
      exact hc c hcm m hm

theorem NodeInv.localOK {n : Node T} (h : NodeInv n) : localOK n :=
  (NodeInv_iff.mp h).1

theorem NodeInv.child {n c : Node T} (h : NodeInv n) (hc : c ∈ n.children) : NodeInv c :=
  (NodeInv_iff.mp h).2 c hc

theorem countVals_mk (k : List Byte) (v : Option T) (cs : List (Node T)) :
    countVals (Node.mk k v cs) =
      (if v.isSome then 1 else 0) + (cs.map countVals).sum := by
  have H : ∀ (l : List (Node T)),
      (nodesList l).countP (fun m => m.value.isSome) = (l.map countVals).sum := by
    intro l
    induction l with
    | nil => simp [nodesList]
    | cons c t ihh =>
      rw [show c :: t = [c] ++ t from rfl, nodesList_append, List.countP_append, ihh]
      simp [countVals]
  have h1 : countVals (Node.mk k v cs) =
      (nodesList [Node.mk k v cs]).countP (fun m => m.value.isSome) := rfl
  rw [h1, nodesList_single, List.countP_cons, H]
  simp only [Node.value_mk, Node.children_mk]
  cases v <;> simp <;> omega

-- ===== entriesP lemmas =====

theorem entriesP_append (p : List Byte) : ∀ (n : Node T) (q : List Byte),
    entriesP (p ++ q) n = (entriesP q n).map (fun e => (p ++ e.1, e.2)) := by
  refine node_strong_ind ?_
  rintro ⟨k, v, cs⟩ ih q
  rw [entriesP_mk, entriesP_mk, List.map_append, List.map_flatten, List.map_map]
  congr 1
  · cases v with
    | none => rfl
    | some x => simp [List.append_assoc]
  · congr 1
    refine List.map_congr_left ?_
    intro c hc
    simp only [Function.comp_apply]
    have h2 := ih c (by simpa using hc) (q ++ k)
    rw [← List.append_assoc] at h2
    exact h2

theorem entriesP_eq_map (p : List Byte) (n : Node T) :
    entriesP p n = (entriesP [] n).map (fun e => (p ++ e.1, e.2)) := by
  have := entriesP_append p n []
  rwa [List.append_nil] at this

theorem entriesP_key_extends : ∀ (n : Node T) (p : List Byte),
    ∀ e ∈ entriesP p n, (p ++ n.key) <+: e.1 := by
  refine node_strong_ind ?_
  rintro ⟨k, v, cs⟩ ih p e he
  rw [entriesP_mk] at he
  rcases List.mem_append.mp he with h | h
  · cases v with
    | none => simp at h
    | some x =>
      simp only [valEntry_some, List.mem_singleton] at h
      subst h
      exact List.prefix_refl _
  · rw [List.mem_flatten] at h
    obtain ⟨l, hl, hel⟩ := h
    rw [List.mem_map] at hl
    obtain ⟨c, hc, rfl⟩ := hl
    have h2 := ih c (by simpa using hc) (p ++ k) e hel
    refine List.IsPrefix.trans ?_ h2
    exact ⟨c.key, rfl⟩

theorem firstByte_append {a : List Byte} (b : List Byte) (h : a ≠ []) :
    firstByte (a ++ b) = firstByte a := by
  cases a with
  | nil => exact absurd rfl h
  | cons a0 ta => rfl

theorem append_ne_nil_left {a b : List Byte} (h : a ≠ []) : a ++ b ≠ [] := by
  cases a with
  | nil => exact absurd rfl h
  | cons a0 ta => simp

/-- Keys of a well-formed subtree's entry list are strictly ascending. -/
theorem entriesP_sorted : ∀ (n : Node T), NodeInv n → ∀ (p : List Byte),
    (entriesP p n).Pairwise (fun e1 e2 => lexLt e1.1 e2.1) := by
  refine node_strong_ind ?_
  rintro ⟨k, v, cs⟩ ih hinv p
  obtain ⟨hloc, hchild⟩ := NodeInv_iff.mp hinv
  obtain ⟨hklen, hne, hsort⟩ := hloc
  simp only [Node.children_mk] at hchild hne hsort
  rw [entriesP_mk]
  rw [List.pairwise_append]
  refine ⟨?_, ?_, ?_⟩
  · cases v <;> simp
  · rw [List.pairwise_join]
    constructor
    · intro l hl
      rw [List.mem_map] at hl
      obtain ⟨c, hc, rfl⟩ := hl
      exact ih c (by simpa using hc) (hchild c hc) (p ++ k)
    · rw [List.pairwise_map]
      refine hsort.imp_of_mem ?_
      intro a b ha hb hab e1 he1 e2 he2
      have hp1 := entriesP_key_extends a (p ++ k) e1 he1
      have hp2 := entriesP_key_extends b (p ++ k) e2 he2
      obtain ⟨r1, hr1⟩ := hp1
      obtain ⟨r2, hr2⟩ := hp2
      rw [List.append_assoc] at hr1 hr2
      unfold lexLt
      rw [← hr1, ← hr2, bytesCmp_append_left]
      exact lexLt_of_firstByte_lt (append_ne_nil_left (hne a ha))
        (append_ne_nil_left (hne b hb))
        (by rw [firstByte_append _ (hne a ha), firstByte_append _ (hne b hb)]
            exact hab)
  · intro e1 he1 e2 he2
    cases v with
    | none => simp at he1
    | some x =>
      simp only [valEntry_some, List.mem_singleton] at he1
      subst he1
      rw [List.mem_flatten] at he2
      obtain ⟨l, hl, hel⟩ := he2
      rw [List.mem_map] at hl
      obtain ⟨c, hc, rfl⟩ := hl
      have h2 := entriesP_key_extends c (p ++ k) e2 hel
      obtain ⟨r, hr⟩ := h2
      rw [List.append_assoc] at hr
      have h3 : lexLt (p ++ k) ((p ++ k) ++ (c.key ++ r)) :=
        lexLt_append_right _ (append_ne_nil_left (hne c (by simpa using hc)))
      rw [hr] at h3
      exact h3

/-- The entry count of a subtree agrees with the number of value-carrying
nodes. -/
theorem entriesP_length : ∀ (n : Node T) (p : List Byte),
    (entriesP p n).length = countVals n := by
  refine node_strong_ind ?_
  rintro ⟨k, v, cs⟩ ih p
  rw [entriesP_mk, countVals_mk, List.length_append]
  congr 1
  · cases v <;> simp
  · rw [List.length_flatten, List.map_map]
    congr 1
    refine List.map_congr_left ?_
    intro c hc
    exact ih c (by simpa using hc) (p ++ k)

-- ===== findVal lemmas =====

theorem findVal_append (l1 l2 : List (List Byte × T)) (k : List Byte) :
    findVal (l1 ++ l2) k = (findVal l1 k).or (findVal l2 k) := by
  induction l1 with
  | nil => simp [findVal]
  | cons e t ih =>
    rw [List.cons_append, findVal, findVal]
    split
    · simp [Option.or]
    · exact ih

theorem findVal_eq_none_iff {l : List (List Byte × T)} {k : List Byte} :
    findVal l k = none ↔ ∀ e ∈ l, e.1 ≠ k := by
  induction l with
  | nil => simp [findVal]
  | cons e t ih =>
    rw [findVal]
    split
    · rename_i h
      simp [h]
    · rename_i h
      simp [ih, h]

theorem findVal_map_prepend (p : List Byte) (l : List (List Byte × T)) (k : List Byte) :
    findVal (l.map (fun e => (p ++ e.1, e.2))) (p ++ k) = findVal l k := by
  induction l with
  | nil => simp [findVal]
  | cons e t ih =>
    simp only [List.map_cons, findVal]
    rcases eq_or_ne e.1 k with h | h
    · rw [if_pos (by rw [h]), if_pos h]
    · rw [if_neg (fun hq => h (List.append_cancel_left hq)), if_neg h, ih]

theorem findVal_map_prepend_none {p k : List Byte} (h : ¬ p <+: k)
    (l : List (List Byte × T)) :
    findVal (l.map (fun e => (p ++ e.1, e.2))) k = none := by
  rw [findVal_eq_none_iff]
  intro e he
  rw [List.mem_map] at he
  obtain ⟨e0, he0, rfl⟩ := he
  intro hq
  exact h ⟨e0.1, hq⟩

theorem findVal_mem {l : List (List Byte × T)} {k : List Byte} {v : T}
    (h : findVal l k = some v) : (k, v) ∈ l := by
  induction l with
  | nil => simp [findVal] at h
  | cons e t ih =>
    rw [findVal] at h
    split at h
    · rename_i he
      cases h
      rw [← he]
      simp
    · exact List.mem_cons_of_mem _ (ih h)

theorem mem_findVal {l : List (List Byte × T)} {k : List Byte} {v : T}
    (hs : l.Pairwise (fun e1 e2 => lexLt e1.1 e2.1)) (h : (k, v) ∈ l) :
    findVal l k = some v := by
  induction l with
  | nil => simp at h
  | cons e t ih =>
    rw [findVal]
    rcases List.mem_cons.mp h with rfl | h2
    · rw [if_pos rfl]
    · have hlt := (List.pairwise_cons.mp hs).1 _ h2
      simp only at hlt
      rw [if_neg ?_]
      · exact ih (List.pairwise_cons.mp hs).2 h2
      · intro he
        rw [he] at hlt
        exact lexLt_irrefl k hlt

-- ===== locating a key inside the child forest =====

theorem ne_of_strict_extends {k e1 : List Byte} (pre : List Byte) (hpre : pre ≠ [])
    (h : (k ++ pre) <+: e1) : e1 ≠ k := by
  intro heq
  subst heq
  have hlen := h.length_le
  rw [List.length_append] at hlen
  have : pre.length = 0 := by omega
  exact hpre (List.length_eq_zero.mp this)

/-- An entry of a child whose fragment starts with a different byte can
never be the looked-up key. -/
theorem entries_child_ne {c : Node T} (hck : c.key ≠ []) (k : List Byte) {k0 : Byte}
    {kt : List Byte} (hfb : firstByte c.key ≠ k0) :
    ∀ e ∈ entriesP k c, e.1 ≠ k ++ (k0 :: kt) := by
  intro e he heq
  obtain ⟨r, hr⟩ := entriesP_key_extends c k e he
  rw [heq] at hr
  rw [List.append_assoc] at hr
  have h2 := List.append_cancel_left hr
  cases hkc : c.key with
  | nil => exact hck hkc
  | cons c0 ct =>
    rw [hkc, List.cons_append] at h2
    injection h2 with h3 _
    exact hfb (by rw [hkc, firstByte_cons]; exact h3)

theorem flatten_map_split {α β : Type} (f : α → List β) (cs : List α) (i : Nat)
    (hi : i < cs.length) :
    (cs.map f).flatten =
      ((cs.take i).map f).flatten ++ f cs[i] ++ ((cs.drop (i + 1)).map f).flatten := by
  have hsplit : cs = cs.take i ++ cs[i] :: cs.drop (i + 1) := by
    rw [← List.drop_eq_getElem_cons hi, List.take_append_drop]
  conv_lhs => rw [hsplit]
  rw [List.map_append, List.map_cons, List.flatten_append, List.flatten_cons,
    ← List.append_assoc]

theorem mem_take_firstByte {cs : List (Node T)} {i : Nat} {c : Node T}
    (hc : c ∈ cs.take i) : ∃ (j : Nat) (hj : j < cs.length), j < i ∧ cs[j] = c := by
  rw [List.mem_iff_getElem] at hc
  obtain ⟨j, hj, hget⟩ := hc
  rw [List.length_take] at hj
  refine ⟨j, by omega, by omega, ?_⟩
  rw [← hget, List.getElem_take]

theorem mem_drop_firstByte {cs : List (Node T)} {i : Nat} {c : Node T}
    (hc : c ∈ cs.drop (i + 1)) :
    ∃ (j : Nat) (hj : j < cs.length), i + 1 ≤ j ∧ cs[j] = c := by
  rw [List.mem_iff_getElem] at hc
  obtain ⟨j, hj, hget⟩ := hc
  rw [List.length_drop] at hj
  refine ⟨i + 1 + j, by omega, by omega, ?_⟩
  rw [← hget, List.getElem_drop]

/-- Lookup in the concatenated child entries reduces to the one child that
could hold the key. -/
theorem findVal_children_split {cs : List (Node T)} {i : Nat} (hi : i < cs.length)
    (k tgt : List Byte)
    (hother : ∀ (j : Nat) (hj : j < cs.length), j ≠ i →
      ∀ e ∈ entriesP k (cs[j]), e.1 ≠ tgt) :
    findVal ((cs.map (entriesP k)).flatten) tgt = findVal (entriesP k (cs[i])) tgt := by
  rw [flatten_map_split (entriesP k) cs i hi]
  rw [findVal_append, findVal_append]
  have h1 : findVal (((cs.take i).map (entriesP k)).flatten) tgt = none := by
    rw [findVal_eq_none_iff]
    intro e he
    rw [List.mem_flatten] at he
    obtain ⟨l, hl, hel⟩ := he
    rw [List.mem_map] at hl
    obtain ⟨c, hc, rfl⟩ := hl
    obtain ⟨j, hj, hji, rfl⟩ := mem_take_firstByte hc
    exact hother j hj (by omega) e hel
  have h2 : findVal (((cs.drop (i + 1)).map (entriesP k)).flatten) tgt = none := by
    rw [findVal_eq_none_iff]
    intro e he
    rw [List.mem_flatten] at he
    obtain ⟨l, hl, hel⟩ := he
    rw [List.mem_map] at hl
    obtain ⟨c, hc, rfl⟩ := hl
    obtain ⟨j, hj, hji, rfl⟩ := mem_drop_firstByte hc
    exact hother j hj (by omega) e hel
  rw [h1, h2]
  cases findVal (entriesP k cs[i]) tgt <;> simp [Option.or]

/-- Lookup in the child entries is none when no child can hold the key. -/
theorem findVal_children_none {cs : List (Node T)}
    (k tgt : List Byte)
    (hall : ∀ (j : Nat) (hj : j < cs.length), ∀ e ∈ entriesP k (cs[j]), e.1 ≠ tgt) :
    findVal ((cs.map (entriesP k)).flatten) tgt = none := by
  rw [findVal_eq_none_iff]
  intro e he
  rw [List.mem_flatten] at he
  obtain ⟨l, hl, hel⟩ := he
  rw [List.mem_map] at hl
  obtain ⟨c, hc, rfl⟩ := hl
  rw [List.mem_iff_getElem] at hc
  obtain ⟨j, hj, rfl⟩ := hc
  exact hall j hj e hel

-- ===== Node::get against the entry list =====

/-- Node::get never aborts on a well-formed subtree and returns the
association-list lookup of the key, relative to the node's own fragment. -/
theorem get_spec : ∀ (n : Node T), NodeInv n → ∀ (key : List Byte),
    n.get key = some (findVal (entriesP [] n) (n.key ++ key)) := by
  refine node_strong_ind ?_
  rintro ⟨k, v, cs⟩ ih hinv key
  obtain ⟨hloc, hchild⟩ := NodeInv_iff.mp hinv
  obtain ⟨hklen, hne, hsort⟩ := hloc
  simp only [Node.children_mk] at hchild hne hsort
  cases key with
  | nil =>
    rw [Node.get, entriesP_mk]
    simp only [List.nil_append, List.append_nil, Node.value_mk, Node.key_mk]
    have hflat : findVal ((cs.map (entriesP k)).flatten) k = none := by
      refine findVal_children_none k k ?_
      intro j hj e he
      refine ne_of_strict_extends (cs[j]).key (hne _ (List.getElem_mem hj)) ?_
      exact entriesP_key_extends _ k e he
    cases v with
    | some x =>
      rw [findVal_append, valPart_lookup_self]
      rfl
    | none =>
      rw [findVal_append, hflat]
      rfl
  | cons k0 kt =>
    obtain ⟨p, i, hlcp, hile, hlow, hhigh, hcase⟩ := lcp_spec hne hsort k0 kt
    have hval : findVal (valEntry k v) (k ++ (k0 :: kt)) = none := by
      refine valPart_lookup_ne ?_ v
      exact fun h => (ne_of_strict_extends (k0 :: kt) (by simp) (List.prefix_refl _)) h.symm
    have hother : (∀ (j : Nat) (hj : j < cs.length), j ≠ i →
        ∀ e ∈ entriesP k (cs[j]), e.1 ≠ k ++ (k0 :: kt)) := by
      intro j hj hne2 e he
      rcases hcase with ⟨hilt, hfb, hpeq, hp1⟩ | ⟨hp0, hnofb, hgt⟩
      · refine entries_child_ne (hne _ (List.getElem_mem hj)) k ?_ e he
        intro h
        apply hne2
        rcases Nat.lt_or_ge j i with hj2 | hj2
        · have h5 := hlow j hj hj2
          rw [h] at h5
          exact absurd h5 (lt_irrefl _)
        · rcases Nat.lt_or_ge i j with hj3 | hj3
          · have h5 := hhigh j hj hj3
            rw [h] at h5
            exact absurd h5 (lt_irrefl _)
          · omega
      · exact entries_child_ne (hne _ (List.getElem_mem hj)) k (hnofb j hj) e he
    rcases hcase with ⟨hilt, hfb, hpeq, hp1⟩ | ⟨hp0, hnofb, hgt⟩
    · -- a child shares the first byte
      have hp0f : (p = 0) = False := by simp; omega
      have hcple := commonPfxLen_le_right (k0 :: kt) (cs[i]).key
      rcases Nat.lt_or_ge p ((cs[i]).key.length) with hplt | hpge
      · -- partial match: the key is absent
        rw [Node.get]
        simp only [Node.selectNextChild, Node.children_mk, hlcp, hp0f, if_false,
          List.getElem?_eq_getElem hilt, eq_true hplt, if_true]
        rw [entriesP_mk]
        simp only [List.nil_append, Node.key_mk]
        rw [findVal_append, hval]
        rw [findVal_children_none k (k ++ (k0 :: kt)) ?_]
        · rfl
        · intro j hj e he
          rcases eq_or_ne j i with rfl | hne2
          · intro heq
            obtain ⟨r, hr⟩ := entriesP_key_extends (cs[j]) k e he
            rw [heq, List.append_assoc] at hr
            have h2 := List.append_cancel_left hr
            have hpref : (cs[j]).key <+: (k0 :: kt) := ⟨r, h2⟩
            have := commonPfxLen_eq_right_iff.mpr hpref
            omega
          · exact hother j hj hne2 e he
      · -- the child fragment is a prefix of the key: recurse
        have hpeq2 : p = (cs[i]).key.length := by omega
        have hpltf : (p < (cs[i]).key.length) = False := by simp; omega
        rw [Node.get]
        simp only [Node.selectNextChild, Node.children_mk, hlcp, hp0f, if_false,
          List.getElem?_eq_getElem hilt, hpltf]
        have hcinv := hchild _ (List.getElem_mem hilt)
        have hrec := ih _ (by simpa using List.getElem_mem hilt) hcinv ((k0 :: kt).drop p)
        split
        · rename_i heq
          rw [List.getElem?_eq_getElem hilt] at heq
          exact absurd heq (by simp)
        rename_i child heq
        rw [List.getElem?_eq_getElem hilt] at heq
        injection heq with heq2
        subst heq2
        rw [hrec]
        congr 1
        have hpref : (cs[i]).key <+: (k0 :: kt) :=
          commonPfxLen_eq_right_iff.mp (by omega)
        have hkeyeq : (cs[i]).key ++ (k0 :: kt).drop p = (k0 :: kt) := by
          obtain ⟨r, hr⟩ := hpref
          conv_lhs => rw [← hr]
          rw [hpeq2, List.drop_left]
          exact hr
        rw [entriesP_mk]
        simp only [List.nil_append, Node.key_mk]
        rw [findVal_append, hval]
        rw [findVal_children_split hilt k (k ++ (k0 :: kt)) hother]
        rw [entriesP_eq_map k (cs[i])]
        rw [findVal_map_prepend, Option.none_or, hkeyeq]
    · -- no child shares the first byte: the key is absent
      have hp0t : (p = 0) = True := by simp [hp0]
      rw [Node.get]
      simp only [Node.selectNextChild, Node.children_mk, hlcp, hp0t, if_true]
      rw [entriesP_mk]
      simp only [List.nil_append, Node.key_mk]
      congr 1
      rw [findVal_append, hval]
      rw [findVal_children_none k (k ++ (k0 :: kt)) ?_]
      · rfl
      · intro j hj e he
        exact entries_child_ne (hne _ (List.getElem_mem hj)) k (hnofb j hj) e he


-- ===== helpers for child-array surgery =====

theorem insertIdx_eq_take_cons_drop {α : Type} :
    ∀ (i : Nat) (l : List α), i ≤ l.length →
    ∀ (a : α), l.insertIdx i a = l.take i ++ a :: l.drop i := by
  intro i
  induction i with
  | zero => intro l h a; simp [List.insertIdx_zero]
  | succ i ih =>
    intro l h a
    cases l with
    | nil => simp at h
    | cons x xs =>
      rw [List.insertIdx_succ_cons]
      simp only [List.take_succ_cons, List.drop_succ_cons, List.cons_append]
      rw [ih xs (by simpa using h) a]

theorem mem_drop_pos {α : Type} {l : List α} {d : Nat} {c : α}
    (hc : c ∈ l.drop d) : ∃ (j : Nat) (hj : j < l.length), d ≤ j ∧ l[j] = c := by
  rw [List.mem_iff_getElem] at hc
  obtain ⟨j, hj, hget⟩ := hc
  rw [List.length_drop] at hj
  refine ⟨d + j, by omega, by omega, ?_⟩
  rw [← hget, List.getElem_drop]

theorem mem_take_pos {α : Type} {l : List α} {i : Nat} {c : α}
    (hc : c ∈ l.take i) : ∃ (j : Nat) (hj : j < l.length), j < i ∧ l[j] = c := by
  rw [List.mem_iff_getElem] at hc
  obtain ⟨j, hj, hget⟩ := hc
  rw [List.length_take] at hj
  refine ⟨j, by omega, by omega, ?_⟩
  rw [← hget, List.getElem_take]

theorem pairwise_take_cons_drop {α : Type} {R : α → α → Prop} {l : List α}
    (hp : l.Pairwise R) {i d : Nat} (hid : i ≤ d) (a : α)
    (hbefore : ∀ (j : Nat) (hj : j < l.length), j < i → R l[j] a)
    (hafter : ∀ (j : Nat) (hj : j < l.length), d ≤ j → R a l[j]) :
    (l.take i ++ a :: l.drop d).Pairwise R := by
  have hpg := List.pairwise_iff_getElem.mp hp
  rw [List.pairwise_append]
  refine ⟨hp.sublist (List.take_sublist i l), ?_, ?_⟩
  · rw [List.pairwise_cons]
    constructor
    · intro b hb
      obtain ⟨j, hj, hdj, rfl⟩ := mem_drop_pos hb
      exact hafter j hj hdj
    · exact hp.sublist (List.drop_sublist d l)
  · intro x hx y hy
    obtain ⟨j, hj, hji, rfl⟩ := mem_take_pos hx
    rcases List.mem_cons.mp hy with rfl | hy2
    · exact hbefore j hj hji
    · obtain ⟨j2, hj2, hdj2, rfl⟩ := mem_drop_pos hy2
      exact hpg j j2 hj hj2 (by omega)

-- lookup transport between a child's own entries and its entries under
-- the parent's accumulated path

theorem findVal_entriesP_shift (k : List Byte) (c : Node T) (t : List Byte) :
    findVal (entriesP k c) (k ++ t) = findVal (entriesP [] c) t := by
  rw [entriesP_eq_map, findVal_map_prepend]

theorem findVal_entriesP_shift_none {k tgt : List Byte} (h : ¬ k <+: tgt) (c : Node T) :
    findVal (entriesP k c) tgt = none := by
  rw [entriesP_eq_map]
  exact findVal_map_prepend_none h _

/-- Lookup of the node's own key in its entry list returns the stored
value. -/
theorem findVal_entries_at_self {k : List Byte} {v : Option T} {cs : List (Node T)}
    (hne : ∀ c ∈ cs, c.key ≠ []) :
    findVal (entriesP [] (Node.mk k v cs)) k = v := by
  rw [entriesP_mk]
  simp only [List.nil_append]
  rw [findVal_append]
  have hflat : findVal ((cs.map (entriesP k)).flatten) k = none := by
    refine findVal_children_none k k ?_
    intro j hj e he
    refine ne_of_strict_extends (cs[j]).key (hne _ (List.getElem_mem hj)) ?_
    exact entriesP_key_extends _ k e he
  rw [valPart_lookup_self, hflat]
  cases v <;> rfl

/-- Lookup of a deeper key reduces to the unique child sharing its first
byte. -/
theorem findVal_entries_at_child {k : List Byte} {v : Option T} {cs : List (Node T)}
    (hne : ∀ c ∈ cs, c.key ≠ [])
    (hsort : cs.Pairwise (fun a b => firstByte a.key < firstByte b.key))
    {k0 : Byte} {kt : List Byte} {i : Nat} (hi : i < cs.length)
    (hfb : firstByte (cs[i]).key = k0) :
    findVal (entriesP [] (Node.mk k v cs)) (k ++ (k0 :: kt)) =
      findVal (entriesP k (cs[i])) (k ++ (k0 :: kt)) := by
  have hpg := List.pairwise_iff_getElem.mp hsort
  rw [entriesP_mk]
  simp only [List.nil_append]
  rw [findVal_append]
  have hval : findVal (valEntry k v) (k ++ (k0 :: kt)) = none := by
    refine valPart_lookup_ne ?_ v
    exact fun h => (ne_of_strict_extends (k0 :: kt) (by simp) (List.prefix_refl _)) h.symm
  rw [hval]
  rw [findVal_children_split hi k (k ++ (k0 :: kt)) ?_]
  · cases findVal (entriesP k cs[i]) (k ++ k0 :: kt) <;> simp [Option.or]
  · intro j hj hne2 e he
    refine entries_child_ne (hne _ (List.getElem_mem hj)) k ?_ e he
    intro h
    apply hne2
    rcases Nat.lt_or_ge j i with hj2 | hj2
    · have h5 := hpg j i hj hi hj2
      rw [h, hfb] at h5
      exact absurd h5 (lt_irrefl _)
    · rcases Nat.lt_or_ge i j with hj3 | hj3
      · have h5 := hpg i j hi hj hj3
        rw [h, hfb] at h5
        exact absurd h5 (lt_irrefl _)
      · omega

/-- Lookup of a deeper key is none when no child shares its first byte. -/
theorem findVal_entries_nomatch {k : List Byte} {v : Option T} {cs : List (Node T)}
    (hne : ∀ c ∈ cs, c.key ≠ [])
    {k0 : Byte} {kt : List Byte}
    (hnofb : ∀ (j : Nat) (hj : j < cs.length), firstByte (cs[j]).key ≠ k0) :
    findVal (entriesP [] (Node.mk k v cs)) (k ++ (k0 :: kt)) = none := by
  rw [entriesP_mk]
  simp only [List.nil_append]
  rw [findVal_append]
  have hval : findVal (valEntry k v) (k ++ (k0 :: kt)) = none := by
    refine valPart_lookup_ne ?_ v
    exact fun h => (ne_of_strict_extends (k0 :: kt) (by simp) (List.prefix_refl _)) h.symm
  rw [hval]
  rw [findVal_children_none k (k ++ (k0 :: kt)) ?_]
  · rfl
  · intro j hj e he
    exact entries_child_ne (hne _ (List.getElem_mem hj)) k (hnofb j hj) e he

-- ===== value-slot and child-forest lookup algebra =====

theorem findVal_flatten_none_of_fb {L : List (Node T)} {k : List Byte} {k0 : Byte}
    {kt : List Byte} (h : ∀ c ∈ L, c.key ≠ [] ∧ firstByte c.key ≠ k0) :
    findVal ((L.map (entriesP k)).flatten) (k ++ (k0 :: kt)) = none := by
  rw [findVal_eq_none_iff]
  intro e he
  rw [List.mem_flatten] at he
  obtain ⟨l, hl, hel⟩ := he
  rw [List.mem_map] at hl
  obtain ⟨c, hc, rfl⟩ := hl
  exact entries_child_ne (h c hc).1 k (h c hc).2 e hel

/-- Replacing the child at a given slot with a node that carries the same
first byte: effect on well-formedness, lookups and entry count. -/
theorem aggregate_set {k : List Byte} {v : Option T} {cs : List (Node T)}
    (hinv : NodeInv (Node.mk k v cs))
    {i : Nat} (hi : i < cs.length)
    {k0 : Byte} {kt : List Byte} (hfb : firstByte (cs[i]).key = k0)
    {c2 : Node T} (hc2inv : NodeInv c2) (hc2ne : c2.key ≠ [])
    (hc2fb : firstByte c2.key = k0)
    {vv : T}
    (hpoint : ∀ t', findVal (entriesP [] c2) t' =
        if t' = (k0 :: kt) then some vv else findVal (entriesP [] (cs[i])) t')
    (hlen : (entriesP [] c2).length = (entriesP [] (cs[i])).length +
        (if (findVal (entriesP [] (cs[i])) (k0 :: kt)).isNone then 1 else 0)) :
    NodeInv (Node.mk k v (cs.set i c2)) ∧
    (∀ tgt, findVal (entriesP [] (Node.mk k v (cs.set i c2))) tgt =
        if tgt = k ++ (k0 :: kt) then some vv
        else findVal (entriesP [] (Node.mk k v cs)) tgt) ∧
    (entriesP [] (Node.mk k v (cs.set i c2))).length =
      (entriesP [] (Node.mk k v cs)).length +
      (if (findVal (entriesP [] (Node.mk k v cs)) (k ++ (k0 :: kt))).isNone then 1 else 0) := by
  obtain ⟨hloc, hchild⟩ := NodeInv_iff.mp hinv
  obtain ⟨hklen, hne, hsort⟩ := hloc
  simp only [Node.children_mk, Node.key_mk] at hchild hne hsort hklen
  have hpg := List.pairwise_iff_getElem.mp hsort
  have hset : cs.set i c2 = cs.take i ++ c2 :: cs.drop (i + 1) :=
    List.set_eq_take_cons_drop c2 hi
  have hcs : cs = cs.take i ++ cs[i] :: cs.drop (i + 1) := by
    rw [← List.drop_eq_getElem_cons hi, List.take_append_drop]
  have htakeprop : ∀ c ∈ cs.take i, c.key ≠ [] ∧ firstByte c.key ≠ k0 := by
    intro c hc
    obtain ⟨j, hj, hji, rfl⟩ := mem_take_pos hc
    have := hpg j i hj hi hji
    rw [hfb] at this
    exact ⟨hne _ (List.getElem_mem hj), ne_of_lt this⟩
  have hdropprop : ∀ c ∈ cs.drop (i + 1), c.key ≠ [] ∧ firstByte c.key ≠ k0 := by
    intro c hc
    obtain ⟨j, hj, hji, rfl⟩ := mem_drop_pos hc
    have := hpg i j hi hj (by omega)
    rw [hfb] at this
    exact ⟨hne _ (List.getElem_mem hj), ne_of_gt this⟩
  have hinv2 : NodeInv (Node.mk k v (cs.set i c2)) := by
    rw [NodeInv_iff]
    refine ⟨⟨by simpa using hklen, ?_, ?_⟩, ?_⟩
    · intro c hc
      rw [Node.children_mk, hset] at hc
      rcases List.mem_append.mp hc with hc | hc
      · exact (htakeprop c hc).1
      · rcases List.mem_cons.mp hc with rfl | hc
        · exact hc2ne
        · exact (hdropprop c hc).1
    · rw [Node.children_mk, hset]
      refine pairwise_take_cons_drop hsort (by omega) c2 ?_ ?_
      · intro j hj hji
        have := hpg j i hj hi hji
        rw [hfb] at this
        rw [hc2fb]
        exact this
      · intro j hj hji
        have := hpg i j hi hj (by omega)
        rw [hfb] at this
        rw [hc2fb]
        exact this
    · intro c hc
      rw [Node.children_mk, hset] at hc
      rcases List.mem_append.mp hc with hc | hc
      · exact hchild c (List.mem_of_mem_take hc)
      · rcases List.mem_cons.mp hc with rfl | hc
        · exact hc2inv
        · exact hchild c (List.mem_of_mem_drop hc)
  have hnew : entriesP [] (Node.mk k v (cs.set i c2)) =
      valEntry k v ++
      (((cs.take i).map (entriesP k)).flatten ++
        (entriesP k c2 ++ ((cs.drop (i + 1)).map (entriesP k)).flatten)) := by
    conv_lhs => rw [hset]
    rw [entriesP_mk]
    simp only [List.nil_append]
    rw [List.map_append, List.map_cons, List.flatten_append, List.flatten_cons]
  have hold : entriesP [] (Node.mk k v cs) =
      valEntry k v ++
      (((cs.take i).map (entriesP k)).flatten ++
        (entriesP k (cs[i]) ++ ((cs.drop (i + 1)).map (entriesP k)).flatten)) := by
    conv_lhs => rw [hcs]
    rw [entriesP_mk]
    simp only [List.nil_append]
    rw [List.map_append, List.map_cons, List.flatten_append, List.flatten_cons]
  refine ⟨hinv2, ?_, ?_⟩
  · intro tgt
    rw [hnew, hold]
    rw [findVal_append, findVal_append, findVal_append, findVal_append,
      findVal_append, findVal_append]
    by_cases htgt : tgt = k ++ (k0 :: kt)
    · subst htgt
      rw [if_pos rfl]
      rw [valPart_lookup_ne (by
        intro h
        exact (ne_of_strict_extends (k0 :: kt) (by simp) (List.prefix_refl _)) h.symm) v]
      rw [findVal_flatten_none_of_fb htakeprop, findVal_flatten_none_of_fb hdropprop]
      rw [findVal_entriesP_shift, hpoint, if_pos rfl]
      simp [Option.or]
    · rw [if_neg htgt]
      have he : findVal (entriesP k c2) tgt = findVal (entriesP k (cs[i])) tgt := by
        by_cases hpre : k <+: tgt
        · obtain ⟨t2, rfl⟩ := hpre
          rw [findVal_entriesP_shift, findVal_entriesP_shift, hpoint,
            if_neg (fun h => htgt (by rw [h]))]
        · rw [findVal_entriesP_shift_none hpre, findVal_entriesP_shift_none hpre]
      rw [he]
  · have hiff : findVal (entriesP [] (Node.mk k v cs)) (k ++ (k0 :: kt)) =
        findVal (entriesP [] (cs[i])) (k0 :: kt) := by
      rw [findVal_entries_at_child hne hsort hi hfb, findVal_entriesP_shift]
    rw [hiff, hnew, hold]
    simp only [List.length_append]
    have hl2 : (entriesP k c2).length = (entriesP [] c2).length := by
      rw [entriesP_eq_map, List.length_map]
    have hl3 : (entriesP k (cs[i])).length = (entriesP [] (cs[i])).length := by
      rw [entriesP_eq_map, List.length_map]
    rw [hl2, hl3, hlen]
    omega

/-- Inserting a fresh child at the sorted position of a first byte no
existing child carries: effect on well-formedness, lookups and entry
count. -/
theorem aggregate_insertIdx {k : List Byte} {v : Option T} {cs : List (Node T)}
    (hinv : NodeInv (Node.mk k v cs))
    {i : Nat} (hi : i ≤ cs.length)
    {k0 : Byte} {kt : List Byte}
    (hlow : ∀ (j : Nat) (hj : j < cs.length), j < i → firstByte (cs[j]).key < k0)
    (hhigh : ∀ (j : Nat) (hj : j < cs.length), i ≤ j → k0 < firstByte (cs[j]).key)
    {c2 : Node T} (hc2inv : NodeInv c2) (hc2ne : c2.key ≠ [])
    (hc2fb : firstByte c2.key = k0)
    {vv : T}
    (hpoint : ∀ t', findVal (entriesP [] c2) t' =
        if t' = (k0 :: kt) then some vv else none)
    (hlen : (entriesP [] c2).length = 1) :
    NodeInv (Node.mk k v (cs.insertIdx i c2)) ∧
    (∀ tgt, findVal (entriesP [] (Node.mk k v (cs.insertIdx i c2))) tgt =
        if tgt = k ++ (k0 :: kt) then some vv
        else findVal (entriesP [] (Node.mk k v cs)) tgt) ∧
    (entriesP [] (Node.mk k v (cs.insertIdx i c2))).length =
      (entriesP [] (Node.mk k v cs)).length + 1 ∧
    findVal (entriesP [] (Node.mk k v cs)) (k ++ (k0 :: kt)) = none := by
  obtain ⟨hloc, hchild⟩ := NodeInv_iff.mp hinv
  obtain ⟨hklen, hne, hsort⟩ := hloc
  simp only [Node.children_mk, Node.key_mk] at hchild hne hsort hklen
  have hins : cs.insertIdx i c2 = cs.take i ++ c2 :: cs.drop i :=
    insertIdx_eq_take_cons_drop i cs hi c2
  have hcs : cs = cs.take i ++ cs.drop i := (List.take_append_drop i cs).symm
  have htakeprop : ∀ c ∈ cs.take i, c.key ≠ [] ∧ firstByte c.key ≠ k0 := by
    intro c hc
    obtain ⟨j, hj, hji, rfl⟩ := mem_take_pos hc
    exact ⟨hne _ (List.getElem_mem hj), ne_of_lt (hlow j hj hji)⟩
  have hdropprop : ∀ c ∈ cs.drop i, c.key ≠ [] ∧ firstByte c.key ≠ k0 := by
    intro c hc
    obtain ⟨j, hj, hji, rfl⟩ := mem_drop_pos hc
    exact ⟨hne _ (List.getElem_mem hj), ne_of_gt (hhigh j hj hji)⟩
  have hvalne : findVal (valEntry k v) (k ++ (k0 :: kt)) = none := by
    refine valPart_lookup_ne ?_ v
    exact fun h => (ne_of_strict_extends (k0 :: kt) (by simp) (List.prefix_refl _)) h.symm
  have hinv2 : NodeInv (Node.mk k v (cs.insertIdx i c2)) := by
    rw [NodeInv_iff]
    refine ⟨⟨by simpa using hklen, ?_, ?_⟩, ?_⟩
    · intro c hc
      rw [Node.children_mk, hins] at hc
      rcases List.mem_append.mp hc with hc | hc
      · exact (htakeprop c hc).1
      · rcases List.mem_cons.mp hc with rfl | hc
        · exact hc2ne
        · exact (hdropprop c hc).1
    · rw [Node.children_mk, hins]
      refine pairwise_take_cons_drop hsort (le_refl i) c2 ?_ ?_
      · intro j hj hji
        rw [hc2fb]
        exact hlow j hj hji
      · intro j hj hji
        rw [hc2fb]
        exact hhigh j hj hji
    · intro c hc
      rw [Node.children_mk, hins] at hc
      rcases List.mem_append.mp hc with hc | hc
      · exact hchild c (List.mem_of_mem_take hc)
      · rcases List.mem_cons.mp hc with rfl | hc
        · exact hc2inv
        · exact hchild c (List.mem_of_mem_drop hc)
  have hnew : entriesP [] (Node.mk k v (cs.insertIdx i c2)) =
      valEntry k v ++
      (((cs.take i).map (entriesP k)).flatten ++
        (entriesP k c2 ++ ((cs.drop i).map (entriesP k)).flatten)) := by
    conv_lhs => rw [hins]
    rw [entriesP_mk]
    simp only [List.nil_append]
    rw [List.map_append, List.map_cons, List.flatten_append, List.flatten_cons]
  have hold : entriesP [] (Node.mk k v cs) =
      valEntry k v ++
      (((cs.take i).map (entriesP k)).flatten ++
        ((cs.drop i).map (entriesP k)).flatten) := by
    conv_lhs => rw [hcs]
    rw [entriesP_mk]
    simp only [List.nil_append]
    rw [List.map_append, List.flatten_append]
  have hnone : findVal (entriesP [] (Node.mk k v cs)) (k ++ (k0 :: kt)) = none := by
    rw [hold, findVal_append, findVal_append, hvalne,
      findVal_flatten_none_of_fb htakeprop, findVal_flatten_none_of_fb hdropprop]
    rfl
  refine ⟨hinv2, ?_, ?_, hnone⟩
  · intro tgt
    rw [hnew, hold]
    rw [findVal_append, findVal_append, findVal_append, findVal_append, findVal_append]
    by_cases htgt : tgt = k ++ (k0 :: kt)
    · subst htgt
      rw [if_pos rfl, hvalne,
        findVal_flatten_none_of_fb htakeprop, findVal_flatten_none_of_fb hdropprop,
        findVal_entriesP_shift, hpoint, if_pos rfl]
      rfl
    · rw [if_neg htgt]
      have he : findVal (entriesP k c2) tgt = none := by
        by_cases hpre : k <+: tgt
        · obtain ⟨t2, rfl⟩ := hpre
          rw [findVal_entriesP_shift, hpoint,
            if_neg (fun h => htgt (by rw [h]))]
        · exact findVal_entriesP_shift_none hpre c2
      rw [he]
      cases findVal (((cs.take i).map (entriesP k)).flatten) tgt <;> rfl
  · rw [hnew, hold]
    simp only [List.length_append]
    have hl2 : (entriesP k c2).length = (entriesP [] c2).length := by
      rw [entriesP_eq_map, List.length_map]
    rw [hl2, hlen]
    omega

-- ===== helper facts feeding the insert specification =====

theorem set_insertIdx {α : Type} : ∀ (i : Nat) (l : List α), i ≤ l.length →
    ∀ (a b : α), (l.insertIdx i a).set i b = l.insertIdx i b := by
  intro i
  induction i with
  | zero =>
    intro l h a b
    simp [List.insertIdx_zero]
  | succ i ih =>
    intro l h a b
    cases l with
    | nil => simp at h
    | cons x xs =>
      rw [List.insertIdx_succ_cons, List.insertIdx_succ_cons]
      show x :: ((xs.insertIdx i a).set i b) = x :: xs.insertIdx i b
      rw [ih xs (by simpa using h) a b]

theorem insertIdx_self_getElem {α : Type} : ∀ (i : Nat) (l : List α), i ≤ l.length →
    ∀ (a : α), (l.insertIdx i a)[i]? = some a := by
  intro i
  induction i with
  | zero =>
    intro l h a
    simp [List.insertIdx_zero]
  | succ i ih =>
    intro l h a
    cases l with
    | nil => simp at h
    | cons x xs =>
      rw [List.insertIdx_succ_cons]
      rw [List.getElem?_cons_succ]
      exact ih xs (by simpa using h) a

theorem entriesP_absorb (p k : List Byte) (v : Option T) (cs : List (Node T)) :
    entriesP p (Node.mk k v cs) = entriesP [] (Node.mk (p ++ k) v cs) := by
  rw [entriesP_mk, entriesP_mk]
  simp

/-- Strictly increasing first bytes avoiding one value: fewer than 256
children, so insert_child cannot overflow the child array. -/
theorem children_cap {cs : List (Node T)}
    (hsort : cs.Pairwise (fun a b => firstByte a.key < firstByte b.key))
    {k0 : Byte} (hnofb : ∀ (j : Nat) (hj : j < cs.length), firstByte (cs[j]).key ≠ k0) :
    cs.length < 256 := by
  have hmap : (cs.map (fun c => firstByte c.key)).Pairwise (fun a b => a < b) := by
    rw [List.pairwise_map]
    exact hsort
  have hnd : (cs.map (fun c => firstByte c.key)).Nodup :=
    hmap.imp (fun h => ne_of_lt h)
  have hsub : (cs.map (fun c => firstByte c.key)).toFinset ⊆ Finset.univ.erase k0 := by
    intro x hx
    rw [List.mem_toFinset, List.mem_map] at hx
    obtain ⟨c, hc, rfl⟩ := hx
    rw [Finset.mem_erase]
    obtain ⟨j, hj, rfl⟩ := List.mem_iff_getElem.mp hc
    exact ⟨hnofb j hj, Finset.mem_univ _⟩
  have hcard := Finset.card_le_card hsub
  rw [List.toFinset_card_of_nodup hnd] at hcard
  rw [Finset.card_erase_of_mem (Finset.mem_univ k0), Finset.card_univ] at hcard
  simp only [Fintype.card_fin, List.length_map] at hcard
  omega

theorem findVal_single (e : List Byte × T) (tgt : List Byte) :
    findVal [e] tgt = if tgt = e.1 then some e.2 else none := by
  by_cases h : tgt = e.1
  · simp [findVal, h]
  · rw [findVal, if_neg (fun hh => h hh.symm), if_neg h, findVal]

theorem Node.eta : ∀ (n : Node T), Node.mk n.key n.value n.children = n := by
  rintro ⟨k, v, cs⟩
  rfl

/-- Overwriting the value slot of a node: effect on well-formedness,
lookups and entry count. -/
theorem insert_entries_replace {k : List Byte} {v : Option T} {cs : List (Node T)}
    (hinv : NodeInv (Node.mk k v cs)) (value : T) :
    NodeInv (Node.mk k (some value) cs) ∧
    (∀ tgt, findVal (entriesP [] (Node.mk k (some value) cs)) tgt =
        if tgt = k then some value else findVal (entriesP [] (Node.mk k v cs)) tgt) ∧
    (entriesP [] (Node.mk k (some value) cs)).length =
      (entriesP [] (Node.mk k v cs)).length +
      (if (findVal (entriesP [] (Node.mk k v cs)) k).isNone then 1 else 0) := by
  obtain ⟨hloc, hchild⟩ := NodeInv_iff.mp hinv
  obtain ⟨hklen, hne, hsort⟩ := hloc
  simp only [Node.children_mk, Node.key_mk] at hchild hne hsort hklen
  have hinv2 : NodeInv (Node.mk k (some value) cs) := by
    rw [NodeInv_iff]
    exact ⟨⟨by simpa using hklen, by simpa using hne, by simpa using hsort⟩,
      by simpa using hchild⟩
  have hv : findVal (entriesP [] (Node.mk k v cs)) k = v := findVal_entries_at_self hne
  refine ⟨hinv2, ?_, ?_⟩
  · intro tgt
    rw [entriesP_mk, entriesP_mk]
    simp only [List.nil_append]
    rw [findVal_append, findVal_append]
    by_cases h : tgt = k
    · subst h
      rw [if_pos rfl, valPart_lookup_self]
      rfl
    · rw [if_neg h, valPart_lookup_ne (fun hh => h hh.symm) (some value),
        valPart_lookup_ne (fun hh => h hh.symm) v]
  · rw [hv, entriesP_mk, entriesP_mk]
    simp only [List.nil_append, List.length_append, valEntry_length]
    cases v <;> simp <;> omega

/-- Node::insert with the empty key: replace_value semantics. -/
theorem insert_nil_case (n : Node T) (hinv : NodeInv n) (value : T) :
    ∃ n2 old, n.insert [] value = some (n2, old) ∧ n2.key = n.key ∧ NodeInv n2 ∧
      old = findVal (entriesP [] n) (n.key ++ []) ∧
      (∀ tgt, findVal (entriesP [] n2) tgt =
          if tgt = n.key ++ [] then some value else findVal (entriesP [] n) tgt) ∧
      (entriesP [] n2).length = (entriesP [] n).length +
        (if (findVal (entriesP [] n) (n.key ++ [])).isNone then 1 else 0) := by
  rcases n with ⟨k, v, cs⟩
  obtain ⟨hinv2, hpoint, hlen⟩ := insert_entries_replace hinv value
  have hne : ∀ c ∈ cs, c.key ≠ [] := by
    have := (NodeInv_iff.mp hinv).1.2.1
    simpa using this
  refine ⟨Node.mk k (some value) cs, v, ?_, rfl, hinv2, ?_, ?_, ?_⟩
  · rw [Node.insert]
    rfl
  · rw [Node.key_mk, List.append_nil]
    exact (findVal_entries_at_self hne).symm
  · intro tgt
    rw [Node.key_mk, List.append_nil]
    exact hpoint tgt
  · rw [Node.key_mk, List.append_nil]
    exact hlen

/-- Node::insert on a well-formed subtree: it never hits an assertion,
keeps the key fragment and well-formedness, updates exactly the written
path, returns the previous value there, and grows the entry count by one
exactly when the path was absent. -/
theorem insert_spec : ∀ (key : List Byte) (n : Node T), NodeInv n → ∀ (value : T),
    ∃ n2 old, n.insert key value = some (n2, old) ∧ n2.key = n.key ∧ NodeInv n2 ∧
      old = findVal (entriesP [] n) (n.key ++ key) ∧
      (∀ tgt, findVal (entriesP [] n2) tgt =
          if tgt = n.key ++ key then some value else findVal (entriesP [] n) tgt) ∧
      (entriesP [] n2).length = (entriesP [] n).length +
        (if (findVal (entriesP [] n) (n.key ++ key)).isNone then 1 else 0) := by
  have H : ∀ (kl : Nat) (key : List Byte), key.length ≤ kl → ∀ (n : Node T), NodeInv n →
      ∀ (value : T),
      ∃ n2 old, n.insert key value = some (n2, old) ∧ n2.key = n.key ∧ NodeInv n2 ∧
        old = findVal (entriesP [] n) (n.key ++ key) ∧
        (∀ tgt, findVal (entriesP [] n2) tgt =
            if tgt = n.key ++ key then some value else findVal (entriesP [] n) tgt) ∧
        (entriesP [] n2).length = (entriesP [] n).length +
          (if (findVal (entriesP [] n) (n.key ++ key)).isNone then 1 else 0) := by
    intro kl
    induction kl with
    | zero =>
      intro key hkey n hinv value
      cases key with
      | nil => exact insert_nil_case n hinv value
      | cons a b =>
        rw [List.length_cons] at hkey
        exact (Nat.not_succ_le_zero _ hkey).elim
    | succ m ih =>
      intro key hkey n hinv value
      cases key with
      | nil => exact insert_nil_case n hinv value
      | cons k0 krest =>
        rcases n with ⟨k, v, cs⟩
        obtain ⟨hloc, hchild⟩ := NodeInv_iff.mp hinv
        obtain ⟨hklen, hne, hsort⟩ := hloc
        simp only [Node.children_mk, Node.key_mk] at hchild hne hsort hklen
        obtain ⟨p, i, hlcp, hile, hlow, hhigh, hcase⟩ := lcp_spec hne hsort k0 krest
        rw [List.length_cons] at hkey
        simp only [Node.insert, Node.children_mk, Node.key_mk, hlcp]
        rcases hcase with ⟨hilt, hfb, hpeq, hp1⟩ | ⟨hp0, hnofb, hgt⟩
        · -- a child shares the first byte: descend, possibly splitting
          rw [dif_neg (by omega : ¬ p = 0)]
          have hinvi : NodeInv (cs[i]) := hchild _ (List.getElem_mem hilt)
          have hnei : (cs[i]).key ≠ [] := hne _ (List.getElem_mem hilt)
          have hkleni : (cs[i]).key.length < 256 := by
            have := (NodeInv_iff.mp hinvi).1.1
            simpa using this
          have hdl : ((k0 :: krest).drop p).length ≤ m := by
            rw [List.length_drop, List.length_cons]
            omega
          have hiff : findVal (entriesP [] (Node.mk k v cs)) (k ++ (k0 :: krest)) =
              findVal (entriesP [] (cs[i])) (k0 :: krest) := by
            rw [findVal_entries_at_child hne hsort hilt hfb, findVal_entriesP_shift]
          simp only [List.getElem?_eq_getElem hilt]
          by_cases hpl : p = (cs[i]).key.length
          · -- the child key is fully consumed: plain recursion
            rw [if_pos hpl]
            obtain ⟨c2, old2, heqrec, hkey2, hinv2, hold2, hpoint2, hlen2⟩ :=
              ih ((k0 :: krest).drop p) hdl (cs[i]) hinvi value
            simp only [heqrec]
            have hkeyi : (cs[i]).key = (k0 :: krest).take p := by
              have h1 := commonPfxLen_take_eq (k0 :: krest) (cs[i]).key
              rw [← hpeq] at h1
              have h2 : (cs[i]).key.take p = (cs[i]).key := by
                rw [hpl, List.take_length]
              exact (h1.trans h2).symm
            have hfull : (cs[i]).key ++ (k0 :: krest).drop p = k0 :: krest := by
              rw [hkeyi]
              exact List.take_append_drop p (k0 :: krest)
            have hpc : ∀ t', findVal (entriesP [] c2) t' =
                if t' = k0 :: krest then some value
                else findVal (entriesP [] (cs[i])) t' := by
              intro t'
              rw [hpoint2 t']
              simp only [hfull]
            have hlc : (entriesP [] c2).length = (entriesP [] (cs[i])).length +
                (if (findVal (entriesP [] (cs[i])) (k0 :: krest)).isNone then 1 else 0) := by
              rw [hlen2]
              simp only [hfull]
            have hc2ne : c2.key ≠ [] := by
              rw [hkey2]
              exact hnei
            have hc2fb : firstByte c2.key = k0 := by
              rw [hkey2]
              exact hfb
            obtain ⟨hainv, hapoint, halen⟩ :=
              aggregate_set hinv hilt hfb hinv2 hc2ne hc2fb hpc hlc
            refine ⟨Node.mk k v (cs.set i c2), old2, rfl, rfl, hainv, ?_, hapoint, halen⟩
            rw [hiff, hold2, hfull]
          · -- the key diverges inside the child fragment: split first
            rw [if_neg hpl]
            have hple : p ≤ (cs[i]).key.length := by
              rw [hpeq]
              exact commonPfxLen_le_right _ _
            have hplt : p < (cs[i]).key.length := lt_of_le_of_ne hple hpl
            have hnn : (Node.newNode ((k0 :: krest).take p) : Option (Node T)) =
                some (Node.mk ((k0 :: krest).take p) none []) := by
              rw [Node.newNode, if_pos]
              rw [List.length_take]
              omega
            simp only [hnn]
            have hstrip : (cs[i]).stripKeyPfx p =
                some (Node.mk ((cs[i]).key.drop p) (cs[i]).value (cs[i]).children) := by
              rw [Node.stripKeyPfx, if_pos hple]
            simp only [hstrip]
            have hpush : (Node.mk ((k0 :: krest).take p) none
                  ([] : List (Node T))).pushChild
                (Node.mk ((cs[i]).key.drop p) (cs[i]).value (cs[i]).children) =
                some (Node.mk ((k0 :: krest).take p) none
                  [Node.mk ((cs[i]).key.drop p) (cs[i]).value (cs[i]).children]) := by
              rw [Node.pushChild, Node.insertChild]
              simp only [Node.children_mk, Node.key_mk, Node.value_mk, List.length_nil]
              rw [if_pos ⟨le_refl 0, by omega⟩, List.insertIdx_zero]
            simp only [hpush]
            obtain ⟨hloci, hchildi⟩ := NodeInv_iff.mp hinvi
            obtain ⟨hkleni2, hnei2, hsorti⟩ := hloci
            have hinvS : NodeInv (Node.mk ((cs[i]).key.drop p) (cs[i]).value
                (cs[i]).children) := by
              rw [NodeInv_iff]
              refine ⟨⟨?_, ?_, ?_⟩, ?_⟩
              · simp only [Node.key_mk, List.length_drop]
                omega
              · simpa using hnei2
              · simpa using hsorti
              · simpa using hchildi
            have hinvW : NodeInv (Node.mk ((k0 :: krest).take p) none
                [Node.mk ((cs[i]).key.drop p) (cs[i]).value (cs[i]).children]) := by
              rw [NodeInv_iff]
              refine ⟨⟨?_, ?_, ?_⟩, ?_⟩
              · simp only [Node.key_mk, List.length_take]
                omega
              · intro cch hc
                simp only [Node.children_mk, List.mem_singleton] at hc
                subst hc
                simp only [Node.key_mk]
                intro hnil
                have := congrArg List.length hnil
                rw [List.length_drop] at this
                simp at this
                omega
              · simp
              · intro cch hc
                simp only [Node.children_mk, List.mem_singleton] at hc
                subst hc
                exact hinvS
            have htko : (k0 :: krest).take p = (cs[i]).key.take p := by
              have h1 := commonPfxLen_take_eq (k0 :: krest) (cs[i]).key
              rw [← hpeq] at h1
              exact h1
            have hentW : entriesP [] (Node.mk ((k0 :: krest).take p) none
                [Node.mk ((cs[i]).key.drop p) (cs[i]).value (cs[i]).children]) =
                entriesP [] (cs[i]) := by
              rw [entriesP_mk]
              simp only [List.nil_append, valEntry_none, List.map_cons, List.map_nil,
                List.flatten_cons, List.flatten_nil, List.append_nil]
              rw [entriesP_absorb, htko, List.take_append_drop, Node.eta]
            obtain ⟨c2, old2, heqrec, hkey2, hinv2, hold2, hpoint2, hlen2⟩ :=
              ih ((k0 :: krest).drop p) hdl _ hinvW value
            simp only [heqrec]
            simp only [Node.key_mk] at hkey2 hold2 hpoint2 hlen2
            have hfullW : (k0 :: krest).take p ++ (k0 :: krest).drop p = k0 :: krest :=
              List.take_append_drop p (k0 :: krest)
            have hpc : ∀ t', findVal (entriesP [] c2) t' =
                if t' = k0 :: krest then some value
                else findVal (entriesP [] (cs[i])) t' := by
              intro t'
              rw [hpoint2 t']
              simp only [hfullW, hentW]
            have hlc : (entriesP [] c2).length = (entriesP [] (cs[i])).length +
                (if (findVal (entriesP [] (cs[i])) (k0 :: krest)).isNone then 1 else 0) := by
              rw [hlen2]
              simp only [hfullW, hentW]
            have hc2ne : c2.key ≠ [] := by
              rw [hkey2]
              cases p with
              | zero => omega
              | succ q =>
                rw [List.take_succ_cons]
                exact List.cons_ne_nil _ _
            have hc2fb : firstByte c2.key = k0 := by
              rw [hkey2]
              cases p with
              | zero => omega
              | succ q =>
                rw [List.take_succ_cons, firstByte_cons]
            obtain ⟨hainv, hapoint, halen⟩ :=
              aggregate_set hinv hilt hfb hinv2 hc2ne hc2fb hpc hlc
            refine ⟨Node.mk k v (cs.set i c2), old2, rfl, rfl, hainv, ?_, hapoint, halen⟩
            rw [hiff, hold2, hfullW, hentW]
        · -- no child shares the first byte: a fresh child is inserted
          subst hp0
          rw [dif_pos rfl]
          have hcap : cs.length < 256 := children_cap hsort hnofb
          have hhigh2 : ∀ (j : Nat) (hj : j < cs.length), i ≤ j →
              k0 < firstByte (cs[j]).key := by
            intro j hj hij
            rcases Nat.eq_or_lt_of_le hij with rfl | hlt2
            · exact hgt hj
            · exact hhigh j hj hlt2
          by_cases hl : (k0 :: krest).length > 255
          · -- oversized key: a 255-byte chain link is created first
            rw [dif_pos hl]
            rw [List.length_cons] at hl
            have hnn : (Node.newNode ((k0 :: krest).take 255) : Option (Node T)) =
                some (Node.mk ((k0 :: krest).take 255) none []) := by
              rw [Node.newNode, if_pos]
              rw [List.length_take]
              omega
            simp only [hnn]
            have hic : (Node.mk k v cs).insertChild i
                (Node.mk ((k0 :: krest).take 255) none []) =
                some (Node.mk k v (cs.insertIdx i
                  (Node.mk ((k0 :: krest).take 255) none []))) := by
              rw [Node.insertChild]
              simp only [Node.children_mk, Node.key_mk, Node.value_mk]
              rw [if_pos ⟨hile, hcap⟩]
            simp only [hic, Node.children_mk,
              insertIdx_self_getElem i cs hile (Node.mk ((k0 :: krest).take 255) none [])]
            have hinvc : NodeInv (Node.mk ((k0 :: krest).take 255) (none : Option T) []) := by
              rw [NodeInv_iff]
              refine ⟨⟨?_, ?_, ?_⟩, ?_⟩
              · simp only [Node.key_mk, List.length_take]
                omega
              · simp
              · simp
              · simp
            obtain ⟨c2, old2, heqrec, hkey2, hinv2, hold2, hpoint2, hlen2⟩ :=
              ih ((k0 :: krest).drop 255) (by rw [List.length_drop, List.length_cons]; omega)
                (Node.mk ((k0 :: krest).take 255) none []) hinvc value
            simp only [heqrec]
            simp only [Node.key_mk] at hkey2 hold2 hpoint2 hlen2
            have hset2 : (Node.mk k v (cs.insertIdx i
                (Node.mk ((k0 :: krest).take 255) none []))).setChild i c2 =
                Node.mk k v (cs.insertIdx i c2) := by
              rw [Node.setChild]
              simp only [Node.children_mk, Node.key_mk, Node.value_mk]
              rw [set_insertIdx i cs hile]
            rw [hset2]
            have hentc : entriesP [] (Node.mk ((k0 :: krest).take 255) none
                ([] : List (Node T))) = [] := by
              rw [entriesP_mk]
              simp
            have hfull : (k0 :: krest).take 255 ++ (k0 :: krest).drop 255 = k0 :: krest :=
              List.take_append_drop 255 (k0 :: krest)
            have htake : (k0 :: krest).take 255 = k0 :: krest.take 254 := rfl
            have hpc : ∀ t', findVal (entriesP [] c2) t' =
                if t' = k0 :: krest then some value else none := by
              intro t'
              rw [hpoint2 t']
              simp only [hfull, hentc]
              split <;> rfl
            have hlc : (entriesP [] c2).length = 1 := by
              rw [hlen2]
              simp only [hentc, findVal, List.length_nil, Option.isNone_none, if_true]
            have hc2ne : c2.key ≠ [] := by
              rw [hkey2, htake]
              exact List.cons_ne_nil _ _
            have hc2fb : firstByte c2.key = k0 := by
              rw [hkey2, htake, firstByte_cons]
            obtain ⟨hainv, hapoint, halen, hanone⟩ :=
              aggregate_insertIdx hinv hile hlow hhigh2 hinv2 hc2ne hc2fb hpc hlc
            refine ⟨Node.mk k v (cs.insertIdx i c2), old2, rfl, rfl, hainv, ?_,
              hapoint, ?_⟩
            · rw [hanone, hold2, hentc]
              rfl
            · rw [halen]
              simp only [hanone, Option.isNone_none, if_true]
          · -- fits in one fragment: a single leaf is inserted
            rw [dif_neg hl]
            rw [List.length_cons] at hl
            have hnwv : (Node.newWithValue (k0 :: krest) value : Option (Node T)) =
                some (Node.mk (k0 :: krest) (some value) []) := by
              rw [Node.newWithValue, if_pos]
              rw [List.length_cons]
              omega
            simp only [hnwv]
            have hic : (Node.mk k v cs).insertChild i
                (Node.mk (k0 :: krest) (some value) []) =
                some (Node.mk k v (cs.insertIdx i
                  (Node.mk (k0 :: krest) (some value) []))) := by
              rw [Node.insertChild]
              simp only [Node.children_mk, Node.key_mk, Node.value_mk]
              rw [if_pos ⟨hile, hcap⟩]
            simp only [hic]
            have hinvc : NodeInv (Node.mk (k0 :: krest) (some value) []) := by
              rw [NodeInv_iff]
              refine ⟨⟨?_, ?_, ?_⟩, ?_⟩
              · simp only [Node.key_mk, List.length_cons]
                omega
              · simp
              · simp
              · simp
            have hpc : ∀ t', findVal (entriesP [] (Node.mk (k0 :: krest)
                (some value) ([] : List (Node T)))) t' =
                if t' = k0 :: krest then some value else none := by
              intro t'
              rw [entriesP_mk]
              simp only [List.nil_append, List.map_nil, List.flatten_nil,
                List.append_nil, valEntry_some]
              rw [findVal_single]
            have hlc : (entriesP [] (Node.mk (k0 :: krest) (some value)
                ([] : List (Node T)))).length = 1 := by
              rw [entriesP_mk]
              rfl
            obtain ⟨hainv, hapoint, halen, hanone⟩ :=
              aggregate_insertIdx hinv hile hlow hhigh2 hinvc
                (List.cons_ne_nil _ _) (firstByte_cons _ _) hpc hlc
            refine ⟨Node.mk k v (cs.insertIdx i
              (Node.mk (k0 :: krest) (some value) [])), none, rfl, rfl, hainv, ?_,
              hapoint, ?_⟩
            · rw [hanone]
            · rw [halen]
              simp only [hanone, Option.isNone_none, if_true]
  intro key n hinv value
  exact H key.length key (le_refl _) n hinv value

-- ===== helpers feeding the remove specification =====

theorem entriesP_of_isEmpty {n : Node T} (h : n.isEmptyNode = true) :
    entriesP [] n = [] := by
  rcases n with ⟨k, v, cs⟩
  rw [Node.isEmptyNode] at h
  simp only [Node.value_mk, Node.children_mk, Bool.and_eq_true, Option.isNone_iff_eq_none,
    List.isEmpty_iff] at h
  obtain ⟨rfl, rfl⟩ := h
  rw [entriesP_mk]
  simp

theorem eraseIdx_set {α : Type} (l : List α) (i : Nat) (a : α) :
    (l.set i a).eraseIdx i = l.eraseIdx i := by
  rcases Nat.lt_or_ge i l.length with hi | hi
  · rw [List.eraseIdx_eq_take_drop_succ, List.eraseIdx_eq_take_drop_succ,
      List.set_eq_take_cons_drop a hi]
    have hlen : (l.take i).length = i := by
      rw [List.length_take]
      omega
    congr 1
    · rw [List.take_append_eq_append_take, List.take_take, hlen]
      simp [Nat.min_self]
    · rw [List.drop_append_eq_append_drop, hlen]
      simp
  · rw [List.set_eq_of_length_le hi]

/-- Clearing the value slot of a node: effect on well-formedness, lookups
and entry count. -/
theorem remove_entries_takeValue {k : List Byte} {v : Option T} {cs : List (Node T)}
    (hinv : NodeInv (Node.mk k v cs)) :
    NodeInv (Node.mk k none cs) ∧
    (∀ tgt, findVal (entriesP [] (Node.mk k none cs)) tgt =
        if tgt = k then none else findVal (entriesP [] (Node.mk k v cs)) tgt) ∧
    (entriesP [] (Node.mk k none cs)).length + (if v.isSome then 1 else 0) =
      (entriesP [] (Node.mk k v cs)).length := by
  obtain ⟨hloc, hchild⟩ := NodeInv_iff.mp hinv
  obtain ⟨hklen, hne, hsort⟩ := hloc
  simp only [Node.children_mk, Node.key_mk] at hchild hne hsort hklen
  have hinv2 : NodeInv (Node.mk k none cs) := by
    rw [NodeInv_iff]
    exact ⟨⟨by simpa using hklen, by simpa using hne, by simpa using hsort⟩,
      by simpa using hchild⟩
  have hflat : findVal ((cs.map (entriesP k)).flatten) k = none := by
    refine findVal_children_none k k ?_
    intro j hj e he
    refine ne_of_strict_extends (cs[j]).key (hne _ (List.getElem_mem hj)) ?_
    exact entriesP_key_extends _ k e he
  refine ⟨hinv2, ?_, ?_⟩
  · intro tgt
    rw [entriesP_mk, entriesP_mk]
    simp only [List.nil_append]
    rw [findVal_append, findVal_append]
    by_cases h : tgt = k
    · subst h
      rw [if_pos rfl, valPart_lookup_self, hflat]
      rfl
    · rw [if_neg h, valPart_lookup_ne (fun hh => h hh.symm) none,
        valPart_lookup_ne (fun hh => h hh.symm) v]
  · rw [entriesP_mk, entriesP_mk]
    simp only [List.nil_append, List.length_append, valEntry_length]
    cases v <;> simp <;> omega

/-- Replacing the child at a slot with a node carrying the same first byte
and a pointwise-updated entry table: the general form covering both the
writing and the erasing recursion. -/
theorem aggregate_replace {k : List Byte} {v : Option T} {cs : List (Node T)}
    (hinv : NodeInv (Node.mk k v cs))
    {i : Nat} (hi : i < cs.length)
    {k0 : Byte} {kt : List Byte} (hfb : firstByte (cs[i]).key = k0)
    {c2 : Node T} (hc2inv : NodeInv c2) (hc2ne : c2.key ≠ [])
    (hc2fb : firstByte c2.key = k0)
    {X : Option T}
    (hpoint : ∀ t', findVal (entriesP [] c2) t' =
        if t' = (k0 :: kt) then X else findVal (entriesP [] (cs[i])) t') :
    NodeInv (Node.mk k v (cs.set i c2)) ∧
    (∀ tgt, findVal (entriesP [] (Node.mk k v (cs.set i c2))) tgt =
        if tgt = k ++ (k0 :: kt) then X
        else findVal (entriesP [] (Node.mk k v cs)) tgt) ∧
    (entriesP [] (Node.mk k v (cs.set i c2))).length + (entriesP [] (cs[i])).length =
      (entriesP [] (Node.mk k v cs)).length + (entriesP [] c2).length := by
  obtain ⟨hloc, hchild⟩ := NodeInv_iff.mp hinv
  obtain ⟨hklen, hne, hsort⟩ := hloc
  simp only [Node.children_mk, Node.key_mk] at hchild hne hsort hklen
  have hpg := List.pairwise_iff_getElem.mp hsort
  have hset : cs.set i c2 = cs.take i ++ c2 :: cs.drop (i + 1) :=
    List.set_eq_take_cons_drop c2 hi
  have hcs : cs = cs.take i ++ cs[i] :: cs.drop (i + 1) := by
    rw [← List.drop_eq_getElem_cons hi, List.take_append_drop]
  have htakeprop : ∀ c ∈ cs.take i, c.key ≠ [] ∧ firstByte c.key ≠ k0 := by
    intro c hc
    obtain ⟨j, hj, hji, rfl⟩ := mem_take_pos hc
    have := hpg j i hj hi hji
    rw [hfb] at this
    exact ⟨hne _ (List.getElem_mem hj), ne_of_lt this⟩
  have hdropprop : ∀ c ∈ cs.drop (i + 1), c.key ≠ [] ∧ firstByte c.key ≠ k0 := by
    intro c hc
    obtain ⟨j, hj, hji, rfl⟩ := mem_drop_pos hc
    have := hpg i j hi hj (by omega)
    rw [hfb] at this
    exact ⟨hne _ (List.getElem_mem hj), ne_of_gt this⟩
  have hvalne : findVal (valEntry k v) (k ++ (k0 :: kt)) = none := by
    refine valPart_lookup_ne ?_ v
    exact fun h => (ne_of_strict_extends (k0 :: kt) (by simp) (List.prefix_refl _)) h.symm
  have hinv2 : NodeInv (Node.mk k v (cs.set i c2)) := by
    rw [NodeInv_iff]
    refine ⟨⟨by simpa using hklen, ?_, ?_⟩, ?_⟩
    · intro c hc
      rw [Node.children_mk, hset] at hc
      rcases List.mem_append.mp hc with hc | hc
      · exact (htakeprop c hc).1
      · rcases List.mem_cons.mp hc with rfl | hc
        · exact hc2ne
        · exact (hdropprop c hc).1
    · rw [Node.children_mk, hset]
      refine pairwise_take_cons_drop hsort (by omega) c2 ?_ ?_
      · intro j hj hji
        have := hpg j i hj hi hji
        rw [hfb] at this
        rw [hc2fb]
        exact this
      · intro j hj hji
        have := hpg i j hi hj (by omega)
        rw [hfb] at this
        rw [hc2fb]
        exact this
    · intro c hc
      rw [Node.children_mk, hset] at hc
      rcases List.mem_append.mp hc with hc | hc
      · exact hchild c (List.mem_of_mem_take hc)
      · rcases List.mem_cons.mp hc with rfl | hc
        · exact hc2inv
        · exact hchild c (List.mem_of_mem_drop hc)
  have hnew : entriesP [] (Node.mk k v (cs.set i c2)) =
      valEntry k v ++
      (((cs.take i).map (entriesP k)).flatten ++
        (entriesP k c2 ++ ((cs.drop (i + 1)).map (entriesP k)).flatten)) := by
    conv_lhs => rw [hset]
    rw [entriesP_mk]
    simp only [List.nil_append]
    rw [List.map_append, List.map_cons, List.flatten_append, List.flatten_cons]
  have hold : entriesP [] (Node.mk k v cs) =
      valEntry k v ++
      (((cs.take i).map (entriesP k)).flatten ++
        (entriesP k (cs[i]) ++ ((cs.drop (i + 1)).map (entriesP k)).flatten)) := by
    conv_lhs => rw [hcs]
    rw [entriesP_mk]
    simp only [List.nil_append]
    rw [List.map_append, List.map_cons, List.flatten_append, List.flatten_cons]
  refine ⟨hinv2, ?_, ?_⟩
  · intro tgt
    rw [hnew, hold]
    rw [findVal_append, findVal_append, findVal_append, findVal_append,
      findVal_append, findVal_append]
    by_cases htgt : tgt = k ++ (k0 :: kt)
    · subst htgt
      rw [if_pos rfl]
      rw [hvalne]
      rw [findVal_flatten_none_of_fb htakeprop, findVal_flatten_none_of_fb hdropprop]
      rw [findVal_entriesP_shift, hpoint, if_pos rfl]
      cases X <;> rfl
    · rw [if_neg htgt]
      have he : findVal (entriesP k c2) tgt = findVal (entriesP k (cs[i])) tgt := by
        by_cases hpre : k <+: tgt
        · obtain ⟨t2, rfl⟩ := hpre
          rw [findVal_entriesP_shift, findVal_entriesP_shift, hpoint,
            if_neg (fun h => htgt (by rw [h]))]
        · rw [findVal_entriesP_shift_none hpre, findVal_entriesP_shift_none hpre]
      rw [he]
  · rw [hnew, hold]
    simp only [List.length_append]
    have hl2 : (entriesP k c2).length = (entriesP [] c2).length := by
      rw [entriesP_eq_map, List.length_map]
    have hl3 : (entriesP k (cs[i])).length = (entriesP [] (cs[i])).length := by
      rw [entriesP_eq_map, List.length_map]
    rw [hl2, hl3]
    omega

/-- Dropping the child at a slot when its entry table has shrunk to at most
the single removed path. -/
theorem aggregate_drop {k : List Byte} {v : Option T} {cs : List (Node T)}
    (hinv : NodeInv (Node.mk k v cs))
    {i : Nat} (hi : i < cs.length)
    {k0 : Byte} {kt : List Byte} (hfb : firstByte (cs[i]).key = k0)
    (hsub : ∀ t', t' ≠ (k0 :: kt) → findVal (entriesP [] (cs[i])) t' = none) :
    NodeInv (Node.mk k v (cs.eraseIdx i)) ∧
    (∀ tgt, findVal (entriesP [] (Node.mk k v (cs.eraseIdx i))) tgt =
        if tgt = k ++ (k0 :: kt) then none
        else findVal (entriesP [] (Node.mk k v cs)) tgt) ∧
    (entriesP [] (Node.mk k v (cs.eraseIdx i))).length + (entriesP [] (cs[i])).length =
      (entriesP [] (Node.mk k v cs)).length := by
  obtain ⟨hloc, hchild⟩ := NodeInv_iff.mp hinv
  obtain ⟨hklen, hne, hsort⟩ := hloc
  simp only [Node.children_mk, Node.key_mk] at hchild hne hsort hklen
  have hpg := List.pairwise_iff_getElem.mp hsort
  have herase : cs.eraseIdx i = cs.take i ++ cs.drop (i + 1) :=
    List.eraseIdx_eq_take_drop_succ cs i
  have hcs : cs = cs.take i ++ cs[i] :: cs.drop (i + 1) := by
    rw [← List.drop_eq_getElem_cons hi, List.take_append_drop]
  have htakeprop : ∀ c ∈ cs.take i, c.key ≠ [] ∧ firstByte c.key ≠ k0 := by
    intro c hc
    obtain ⟨j, hj, hji, rfl⟩ := mem_take_pos hc
    have := hpg j i hj hi hji
    rw [hfb] at this
    exact ⟨hne _ (List.getElem_mem hj), ne_of_lt this⟩
  have hdropprop : ∀ c ∈ cs.drop (i + 1), c.key ≠ [] ∧ firstByte c.key ≠ k0 := by
    intro c hc
    obtain ⟨j, hj, hji, rfl⟩ := mem_drop_pos hc
    have := hpg i j hi hj (by omega)
    rw [hfb] at this
    exact ⟨hne _ (List.getElem_mem hj), ne_of_gt this⟩
  have hvalne : findVal (valEntry k v) (k ++ (k0 :: kt)) = none := by
    refine valPart_lookup_ne ?_ v
    exact fun h => (ne_of_strict_extends (k0 :: kt) (by simp) (List.prefix_refl _)) h.symm
  have hsl : List.Sublist (cs.eraseIdx i) cs := List.eraseIdx_sublist cs i
  have hinv2 : NodeInv (Node.mk k v (cs.eraseIdx i)) := by
    rw [NodeInv_iff]
    refine ⟨⟨by simpa using hklen, ?_, ?_⟩, ?_⟩
    · intro c hc
      rw [Node.children_mk] at hc
      exact hne c (hsl.subset hc)
    · rw [Node.children_mk]
      exact hsort.sublist hsl
    · intro c hc
      rw [Node.children_mk] at hc
      exact hchild c (hsl.subset hc)
  have hnew : entriesP [] (Node.mk k v (cs.eraseIdx i)) =
      valEntry k v ++
      (((cs.take i).map (entriesP k)).flatten ++
        ((cs.drop (i + 1)).map (entriesP k)).flatten) := by
    conv_lhs => rw [herase]
    rw [entriesP_mk]
    simp only [List.nil_append]
    rw [List.map_append, List.flatten_append]
  have hold : entriesP [] (Node.mk k v cs) =
      valEntry k v ++
      (((cs.take i).map (entriesP k)).flatten ++
        (entriesP k (cs[i]) ++ ((cs.drop (i + 1)).map (entriesP k)).flatten)) := by
    conv_lhs => rw [hcs]
    rw [entriesP_mk]
    simp only [List.nil_append]
    rw [List.map_append, List.map_cons, List.flatten_append, List.flatten_cons]
  refine ⟨hinv2, ?_, ?_⟩
  · intro tgt
    rw [hnew, hold]
    rw [findVal_append, findVal_append, findVal_append, findVal_append, findVal_append]
    by_cases htgt : tgt = k ++ (k0 :: kt)
    · subst htgt
      rw [if_pos rfl, hvalne,
        findVal_flatten_none_of_fb htakeprop, findVal_flatten_none_of_fb hdropprop]
      rfl
    · rw [if_neg htgt]
      have he : findVal (entriesP k (cs[i])) tgt = none := by
        by_cases hpre : k <+: tgt
        · obtain ⟨t2, rfl⟩ := hpre
          rw [findVal_entriesP_shift]
          exact hsub t2 (fun h => htgt (by rw [h]))
        · exact findVal_entriesP_shift_none hpre _
      rw [he]
      cases findVal (((cs.take i).map (entriesP k)).flatten) tgt <;> rfl
  · rw [hnew, hold]
    simp only [List.length_append]
    have hl3 : (entriesP k (cs[i])).length = (entriesP [] (cs[i])).length := by
      rw [entriesP_eq_map, List.length_map]
    rw [hl3]
    omega

/-- Node::remove with the empty key: the value is taken and a sole
fitting child is merged into the node. -/
theorem remove_nil_case (n : Node T) (hinv : NodeInv n) :
    ∃ n2 old, n.remove [] = some (n2, old) ∧ NodeInv n2 ∧ n.key <+: n2.key ∧
      old = findVal (entriesP [] n) (n.key ++ []) ∧
      (∀ tgt, findVal (entriesP [] n2) tgt =
          if tgt = n.key ++ [] then none else findVal (entriesP [] n) tgt) ∧
      (entriesP [] n2).length + (if old.isSome then 1 else 0) =
        (entriesP [] n).length := by
  rcases n with ⟨k, v, cs⟩
  obtain ⟨hloc, hchild⟩ := NodeInv_iff.mp hinv
  obtain ⟨hklen, hne, hsort⟩ := hloc
  simp only [Node.children_mk, Node.key_mk] at hchild hne hsort hklen
  obtain ⟨htinv, htpoint, htlen⟩ := remove_entries_takeValue hinv
  have hself : findVal (entriesP [] (Node.mk k v cs)) k = v := findVal_entries_at_self hne
  rcases cs with _ | ⟨c, _ | ⟨c7, ctail⟩⟩ <;>
    simp only [Node.remove, Node.takeValue, Node.children_mk, Node.key_mk, Node.value_mk,
      List.append_nil]
  · -- no children
    exact ⟨Node.mk k none [], v, rfl, htinv, List.prefix_refl _, hself.symm, htpoint, htlen⟩
  · -- exactly one child: merge it when the fragments fit
    have hcinv : NodeInv c := hchild c (List.mem_singleton.mpr rfl)
    have hcne : c.key ≠ [] := hne c (List.mem_singleton.mpr rfl)
    obtain ⟨hloci, hchildi⟩ := NodeInv_iff.mp hcinv
    obtain ⟨hckl, hcne2, hcsort⟩ := hloci
    by_cases hfit : k.length + c.key.length < 256
    · rw [if_pos hfit]
      have hext : (Node.mk k (none : Option T) ([] : List (Node T))).extendKey c.key =
          some (Node.mk (k ++ c.key) none []) := by
        rw [Node.extendKey]
        simp only [Node.key_mk, Node.value_mk, Node.children_mk, List.length_nil]
        rw [if_pos hfit]
      simp only [hext, Node.takeValue]
      have hn4 : (match c.value with
          | some w => ((Node.mk (k ++ c.key) none ([] : List (Node T))).replaceValue w).1
          | none => Node.mk (k ++ c.key) none []) = Node.mk (k ++ c.key) c.value [] := by
        cases c.value <;> rfl
      rw [hn4]
      have hmv : (Node.mk (k ++ c.key) c.value ([] : List (Node T))).moveChildren
          (Node.mk c.key none c.children) =
          some (Node.mk (k ++ c.key) c.value c.children) := by
        rw [Node.moveChildren]
        simp
      rw [hmv]
      have hmerge : entriesP [] (Node.mk (k ++ c.key) c.value c.children) =
          entriesP k c := by
        conv_rhs => rw [← Node.eta c]
        rw [entriesP_absorb k c.key c.value c.children]
      have hchnone : findVal (entriesP k c) k = none := by
        rw [findVal_eq_none_iff]
        intro e he
        exact ne_of_strict_extends c.key hcne (entriesP_key_extends c k e he)
      have hdecomp : entriesP [] (Node.mk k v [c]) =
          valEntry k v ++ entriesP k c := by
        rw [entriesP_mk]
        simp
      refine ⟨Node.mk (k ++ c.key) c.value c.children, v, rfl, ?_, ⟨c.key, rfl⟩,
        hself.symm, ?_, ?_⟩
      · rw [NodeInv_iff]
        refine ⟨⟨?_, ?_, ?_⟩, ?_⟩
        · simpa using hfit
        · simpa using hcne2
        · simpa using hcsort
        · simpa using hchildi
      · intro tgt
        rw [hmerge, hdecomp, findVal_append]
        by_cases htgt : tgt = k
        · subst htgt
          rw [if_pos rfl, hchnone]
        · rw [if_neg htgt, valPart_lookup_ne (fun hh => htgt hh.symm) v]
          rfl
      · rw [hmerge, hdecomp, List.length_append, valEntry_length]
        cases v <;> simp <;> omega
    · rw [if_neg hfit]
      exact ⟨Node.mk k none [c], v, rfl, htinv, List.prefix_refl _, hself.symm,
        htpoint, htlen⟩
  · -- two or more children
    exact ⟨Node.mk k none (c :: c7 :: ctail), v, rfl, htinv, List.prefix_refl _,
      hself.symm, htpoint, htlen⟩

/-- Node::remove on a well-formed subtree: it never hits an assertion,
keeps well-formedness, extends the key fragment only by merging, erases
exactly the requested path, returns the value previously there, and
shrinks the entry count by one exactly when a value was removed. -/
theorem remove_spec : ∀ (key : List Byte) (n : Node T), NodeInv n →
    ∃ n2 old, n.remove key = some (n2, old) ∧ NodeInv n2 ∧ n.key <+: n2.key ∧
      old = findVal (entriesP [] n) (n.key ++ key) ∧
      (∀ tgt, findVal (entriesP [] n2) tgt =
          if tgt = n.key ++ key then none else findVal (entriesP [] n) tgt) ∧
      (entriesP [] n2).length + (if old.isSome then 1 else 0) =
        (entriesP [] n).length := by
  have H : ∀ (kl : Nat) (key : List Byte), key.length ≤ kl → ∀ (n : Node T), NodeInv n →
      ∃ n2 old, n.remove key = some (n2, old) ∧ NodeInv n2 ∧ n.key <+: n2.key ∧
        old = findVal (entriesP [] n) (n.key ++ key) ∧
        (∀ tgt, findVal (entriesP [] n2) tgt =
            if tgt = n.key ++ key then none else findVal (entriesP [] n) tgt) ∧
        (entriesP [] n2).length + (if old.isSome then 1 else 0) =
          (entriesP [] n).length := by
    intro kl
    induction kl with
    | zero =>
      intro key hkey n hinv
      cases key with
      | nil => exact remove_nil_case n hinv
      | cons a b =>
        rw [List.length_cons] at hkey
        exact (Nat.not_succ_le_zero _ hkey).elim
    | succ m ih =>
      intro key hkey n hinv
      cases key with
      | nil => exact remove_nil_case n hinv
      | cons k0 kt =>
        rcases n with ⟨k, v, cs⟩
        obtain ⟨hloc, hchild⟩ := NodeInv_iff.mp hinv
        obtain ⟨hklen, hne, hsort⟩ := hloc
        simp only [Node.children_mk, Node.key_mk] at hchild hne hsort hklen
        obtain ⟨p, i, hlcp, hile, hlow, hhigh, hcase⟩ := lcp_spec hne hsort k0 kt
        rw [List.length_cons] at hkey
        simp only [Node.remove, Node.selectNextChild, Node.children_mk, Node.key_mk, hlcp]
        rcases hcase with ⟨hilt, hfb, hpeq, hp1⟩ | ⟨hp0, hnofb, hgt⟩
        · -- a child shares the first byte
          have hp0f : (p = 0) = False := by simp; omega
          have hcple := commonPfxLen_le_right (k0 :: kt) (cs[i]).key
          have hinvi : NodeInv (cs[i]) := hchild _ (List.getElem_mem hilt)
          have hnei : (cs[i]).key ≠ [] := hne _ (List.getElem_mem hilt)
          have hiff : findVal (entriesP [] (Node.mk k v cs)) (k ++ (k0 :: kt)) =
              findVal (entriesP [] (cs[i])) (k0 :: kt) := by
            rw [findVal_entries_at_child hne hsort hilt hfb, findVal_entriesP_shift]
          simp only [hp0f, if_false, List.getElem?_eq_getElem hilt]
          rcases Nat.lt_or_ge p ((cs[i]).key.length) with hplt | hpge
          · -- partial match inside the child fragment: nothing to remove
            simp only [eq_true hplt, if_true]
            have hnonei : findVal (entriesP [] (cs[i])) (k0 :: kt) = none := by
              rw [findVal_eq_none_iff]
              intro e he heq
              obtain ⟨r, hr⟩ := entriesP_key_extends (cs[i]) [] e he
              rw [List.nil_append] at hr
              rw [heq] at hr
              have hpref : (cs[i]).key <+: (k0 :: kt) := ⟨r, hr⟩
              have := commonPfxLen_eq_right_iff.mpr hpref
              omega
            refine ⟨Node.mk k v cs, none, rfl, hinv, List.prefix_refl _, ?_, ?_, by simp⟩
            · rw [hiff, hnonei]
            · intro tgt
              by_cases htgt : tgt = k ++ (k0 :: kt)
              · subst htgt
                rw [if_pos rfl, hiff, hnonei]
              · rw [if_neg htgt]
          · -- the child fragment is fully matched: recurse
            have hpeq2 : p = (cs[i]).key.length := by omega
            have hpltf : (p < (cs[i]).key.length) = False := by simp; omega
            simp only [hpltf, if_false]
            have hdl : ((k0 :: kt).drop p).length ≤ m := by
              rw [List.length_drop, List.length_cons]
              omega
            obtain ⟨c2, old2, heqrec, hinv2, hpre2, hold2, hpoint2, hlen2⟩ :=
              ih ((k0 :: kt).drop p) hdl (cs[i]) hinvi
            split
            · rename_i heq
              rw [List.getElem?_eq_getElem hilt] at heq
              exact absurd heq (by simp)
            rename_i child heq
            rw [List.getElem?_eq_getElem hilt] at heq
            injection heq with heq2
            subst heq2
            simp only [heqrec]
            have hkeyi : (cs[i]).key = (k0 :: kt).take p := by
              have h1 := commonPfxLen_take_eq (k0 :: kt) (cs[i]).key
              rw [← hpeq] at h1
              have h2 : (cs[i]).key.take p = (cs[i]).key := by
                rw [hpeq2, List.take_length]
              exact (h1.trans h2).symm
            have hfull : (cs[i]).key ++ (k0 :: kt).drop p = k0 :: kt := by
              rw [hkeyi]
              exact List.take_append_drop p (k0 :: kt)
            have hc2ne : c2.key ≠ [] := by
              intro h0
              rw [h0, List.prefix_nil] at hpre2
              exact hnei hpre2
            have hc2fb : firstByte c2.key = k0 := by
              obtain ⟨ext, hext⟩ := hpre2
              rw [← hext, firstByte_append _ hnei, hfb]
            have hpc : ∀ t', findVal (entriesP [] c2) t' =
                if t' = k0 :: kt then none
                else findVal (entriesP [] (cs[i])) t' := by
              intro t'
              rw [hpoint2 t']
              simp only [hfull]
            have holdv : old2 = findVal (entriesP [] (Node.mk k v cs)) (k ++ (k0 :: kt)) := by
              rw [hiff, hold2, hfull]
            by_cases hemp : (old2.isSome && c2.isEmptyNode) = true
            · -- the child became empty: it is dropped from the array
              rw [if_pos hemp]
              rw [Bool.and_eq_true] at hemp
              have hc2e : entriesP [] c2 = [] := entriesP_of_isEmpty hemp.2
              have hsub : ∀ t', t' ≠ (k0 :: kt) →
                  findVal (entriesP [] (cs[i])) t' = none := by
                intro t' ht'
                have := hpc t'
                rw [if_neg ht', hc2e] at this
                exact this.symm
              obtain ⟨hainv, hapoint, halen⟩ := aggregate_drop hinv hilt hfb hsub
              have hrca : (Node.mk k v (cs.set i c2)).removeChildAt i =
                  some (Node.mk k v (cs.eraseIdx i)) := by
                rw [Node.removeChildAt]
                simp only [Node.children_mk, Node.key_mk, Node.value_mk, List.length_set]
                rw [if_pos hilt, eraseIdx_set]
              have hsetc : (Node.mk k v cs).setChild i c2 = Node.mk k v (cs.set i c2) := rfl
              simp only [hsetc, hrca]
              refine ⟨Node.mk k v (cs.eraseIdx i), old2, rfl, hainv,
                List.prefix_refl _, holdv, hapoint, ?_⟩
              have hlenz : (entriesP [] c2).length = 0 := by
                rw [hc2e]
                rfl
              omega
            · -- the child stays: it is overwritten in place
              rw [if_neg hemp]
              obtain ⟨hainv, hapoint, halen⟩ :=
                aggregate_replace hinv hilt hfb hinv2 hc2ne hc2fb hpc
              have hsetc : (Node.mk k v cs).setChild i c2 = Node.mk k v (cs.set i c2) := rfl
              simp only [hsetc]
              refine ⟨Node.mk k v (cs.set i c2), old2, rfl, hainv,
                List.prefix_refl _, holdv, hapoint, ?_⟩
              omega
        · -- no child shares the first byte: nothing to remove
          have hp0t : (p = 0) = True := by simp [hp0]
          simp only [hp0t, if_true]
          have hnone : findVal (entriesP [] (Node.mk k v cs)) (k ++ (k0 :: kt)) = none :=
            findVal_entries_nomatch hne hnofb
          refine ⟨Node.mk k v cs, none, rfl, hinv, List.prefix_refl _, hnone.symm, ?_, by simp⟩
          intro tgt
          by_cases htgt : tgt = k ++ (k0 :: kt)
          · subst htgt
            rw [if_pos rfl, hnone]
          · rw [if_neg htgt]
  intro key n hinv
  exact H key.length key (le_refl _) n hinv

-- ===== the iterator agrees with the entry-list abstraction =====

/-- The collected iterator stream equals the concatenated entry lists of
the stacked subtrees, provided the stack respects the prefix-buffer
discipline (stored lengths within the buffer and nonincreasing downward). -/
theorem iterAll_spec : ∀ (s : Nat) (stack : List (Nat × Node T)) (pfx : List Byte),
    stackSize stack ≤ s →
    (∀ e ∈ stack, e.1 ≤ pfx.length) →
    ((stack.map Prod.fst).Pairwise (fun a b => b ≤ a)) →
    iterAll stack pfx = (stack.map (fun e => entriesP (pfx.take e.1) e.2)).flatten := by
  intro s
  induction s with
  | zero =>
    intro stack pfx hs hall hmono
    cases stack with
    | nil =>
      rw [iterAll]
      rfl
    | cons e rest =>
      exfalso
      rcases e with ⟨pl, n⟩
      have h1 : 1 ≤ nodeSize (pl, n).2 := nodeSize_pos _
      rw [stackSize] at hs
      omega
  | succ s ih =>
    intro stack pfx hs hall hmono
    cases stack with
    | nil =>
      rw [iterAll]
      rfl
    | cons e rest =>
      rcases e with ⟨pl, n⟩
      rcases n with ⟨nk, nv, ncs⟩
      have hpl : pl ≤ pfx.length := by
        have := hall (pl, Node.mk nk nv ncs) (List.mem_cons_self _ _)
        simpa using this
      have hlenp2 : (pfx.take pl ++ nk).length = pl + nk.length := by
        rw [List.length_append, List.length_take]
        omega
      have hmono3 : List.Pairwise (fun a b => b ≤ a) (pl :: rest.map Prod.fst) := by
        simpa using hmono
      have hmc := List.pairwise_cons.mp hmono3
      have hrestle : ∀ e ∈ rest, e.1 ≤ pl := by
        intro e he
        exact hmc.1 e.1 (List.mem_map_of_mem Prod.fst he)
      have htagree : ∀ (j : Nat), j ≤ pl → (pfx.take pl ++ nk).take j = pfx.take j := by
        intro j hj
        rw [List.take_append_of_le_length (by rw [List.length_take]; omega)]
        rw [List.take_take]
        congr 1
        omega
      have hsz : stackSize (ncs.map (fun c => ((pfx.take pl ++ nk).length, c)) ++ rest)
          ≤ s := by
        rw [stackSize_append, stackSize_map_children]
        rw [stackSize] at hs
        have hn : nodeSize (Node.mk nk nv ncs) = 1 + (ncs.map nodeSize).sum :=
          nodeSize_mk nk nv ncs
        simp only [] at hs
        omega
      have hall2 : ∀ e ∈ ncs.map (fun c => ((pfx.take pl ++ nk).length, c)) ++ rest,
          e.1 ≤ (pfx.take pl ++ nk).length := by
        intro e he
        rcases List.mem_append.mp he with he | he
        · rw [List.mem_map] at he
          obtain ⟨c, hc, rfl⟩ := he
          exact le_refl _
        · have := hrestle e he
          rw [hlenp2]
          omega
      have hmono2 : (((ncs.map (fun c => ((pfx.take pl ++ nk).length, c)) ++ rest).map
          Prod.fst).Pairwise (fun a b => b ≤ a)) := by
        rw [List.map_append, List.pairwise_append]
        refine ⟨?_, hmc.2, ?_⟩
        · rw [List.pairwise_iff_getElem]
          intro i j hi hj hij
          simp
        · intro a ha b hb
          rw [List.map_map, List.mem_map] at ha
          obtain ⟨c, hc, rfl⟩ := ha
          rw [List.mem_map] at hb
          obtain ⟨e, he, rfl⟩ := hb
          have := hrestle e he
          simp only [Function.comp_apply]
          omega
      have hihres := ih (ncs.map (fun c => ((pfx.take pl ++ nk).length, c)) ++ rest)
        (pfx.take pl ++ nk) hsz hall2 hmono2
      have hflatten : ((ncs.map (fun c => ((pfx.take pl ++ nk).length, c)) ++ rest).map
          (fun e => entriesP ((pfx.take pl ++ nk).take e.1) e.2)).flatten =
          (ncs.map (entriesP (pfx.take pl ++ nk))).flatten ++
          (rest.map (fun e => entriesP (pfx.take e.1) e.2)).flatten := by
        rw [List.map_append, List.flatten_append]
        congr 1
        · rw [List.map_map]
          congr 1
          refine List.map_congr_left ?_
          intro c hc
          simp only [Function.comp_apply]
          rw [List.take_length]
        · congr 1
          refine List.map_congr_left ?_
          intro e he
          rw [htagree e.1 (hrestle e he)]
      rw [iterAll]
      simp only [Node.value_mk, Node.children_mk, Node.key_mk]
      rw [List.map_cons, List.flatten_cons, entriesP_mk]
      cases nv with
      | some w =>
        rw [hihres, hflatten]
        simp [List.append_assoc, valEntry]
      | none =>
        rw [hihres, hflatten]
        simp [List.append_assoc, valEntry]

/-- Collecting is exactly the repeated application of Iter::next. -/
theorem iterAll_iterNext : ∀ (s : Nat) (stack : List (Nat × Node T)) (pfx : List Byte),
    stackSize stack ≤ s →
    iterAll stack pfx =
      (match iterNext stack pfx with
       | none => []
       | some (st2, pfx2, v) => (pfx2, v) :: iterAll st2 pfx2) := by
  intro s
  induction s with
  | zero =>
    intro stack pfx hs
    cases stack with
    | nil =>
      rw [iterAll, iterNext]
    | cons e rest =>
      exfalso
      rcases e with ⟨pl, n⟩
      have h1 : 1 ≤ nodeSize (pl, n).2 := nodeSize_pos _
      rw [stackSize] at hs
      omega
  | succ s ih =>
    intro stack pfx hs
    cases stack with
    | nil =>
      rw [iterAll, iterNext]
    | cons e rest =>
      rcases e with ⟨pl, n⟩
      rw [iterAll, iterNext]
      cases hv : n.value with
      | some w => rfl
      | none =>
        have hsz : stackSize (n.children.map
            (fun c => ((pfx.take pl ++ n.key).length, c)) ++ rest) ≤ s := by
          rw [stackSize_append, stackSize_map_children]
          rw [stackSize] at hs
          have hn : nodeSize n = 1 + (n.children.map nodeSize).sum := by
            cases n
            rw [nodeSize_mk]
            simp
          simp only [] at hs
          omega
        exact ih _ _ hsz

/-- RadixMap::iter, collected, is the entry list of the root. -/
theorem iterList_eq_entries (m : RadixMap T) : m.iterList = entriesP [] m.root := by
  rw [RadixMap.iterList,
    iterAll_spec (stackSize [(0, m.root)]) _ _ (le_refl _) (by simp) (by simp)]
  simp

-- ===== the range iterator filters the sorted stream =====

theorem inRangeRight_mono {hi : RBound} {a b : List Byte}
    (h : inRangeRight hi a = false) (hab : lexLt a b) : inRangeRight hi b = false := by
  cases hi with
  | unbounded => exact absurd h (by rw [inRangeRight]; simp)
  | included ub =>
    rw [inRangeRight, decide_eq_false_iff_not] at h ⊢
    intro hb
    refine h ?_
    rw [lexLe_iff] at hb ⊢
    rcases hb with hb | hb
    · exact Or.inl (lexLt_trans hab hb)
    · subst hb
      exact Or.inl hab
  | excluded ub =>
    rw [inRangeRight, decide_eq_false_iff_not] at h ⊢
    intro hb
    exact h (lexLt_trans hab hb)

/-- On a stream with strictly ascending keys, the skip-then-stop loop of
Range::next computes exactly the in-bounds filter. -/
theorem rangeFilter_eq_filter : ∀ (l : List (List Byte × T)),
    l.Pairwise (fun e1 e2 => lexLt e1.1 e2.1) → ∀ (lo hi : RBound),
    rangeFilter lo hi l = l.filter (fun e => inRangeLeft lo e.1 && inRangeRight hi e.1) := by
  intro l
  induction l with
  | nil =>
    intro _ lo hi
    rfl
  | cons e rest ih =>
    intro hp lo hi
    obtain ⟨hhead, htail⟩ := List.pairwise_cons.mp hp
    rw [rangeFilter, List.filter_cons]
    cases hL : inRangeLeft lo e.1 with
    | false =>
      simp only [hL, Bool.not_false, if_true, Bool.false_and, if_false]
      exact ih htail lo hi
    | true =>
      cases hR : inRangeRight hi e.1 with
      | false =>
        simp only [hL, hR, Bool.not_true, Bool.not_false, if_false, if_true,
          Bool.true_and]
        have hnil : rest.filter (fun e => inRangeLeft lo e.1 && inRangeRight hi e.1)
            = [] := by
          rw [List.filter_eq_nil_iff]
          intro a ha
          have := inRangeRight_mono hR (hhead a ha)
          simp [this]
        rw [hnil]
        simp
      | true =>
        simp only [hL, hR, Bool.not_true, if_false, Bool.true_and, if_true]
        rw [ih htail lo hi]
        simp

-- ===== map-level operation specifications =====

/-- RadixMap::insert on a well-formed map. -/
theorem mapInsert_spec (m : RadixMap T) (hinv : MapInv m) (key : List Byte) (value : T) :
    ∃ m2 old, m.insert key value = some (m2, old) ∧ MapInv m2 ∧
      m2.root.key = m.root.key ∧
      old = findVal (entriesP [] m.root) (m.root.key ++ key) ∧
      (∀ tgt, findVal (entriesP [] m2.root) tgt =
          if tgt = m.root.key ++ key then some value
          else findVal (entriesP [] m.root) tgt) ∧
      m2.len = m.len + (if old.isNone then 1 else 0) := by
  obtain ⟨hroot, hsize⟩ := hinv
  obtain ⟨n2, old, heq, hkey, hinv2, hold, hpoint, hlen⟩ := insert_spec key m.root hroot value
  refine ⟨⟨n2, m.size + (if old.isNone then 1 else 0)⟩, old, ?_, ⟨hinv2, ?_⟩, hkey,
    hold, hpoint, rfl⟩
  · rw [RadixMap.insert, heq]
  · show m.size + (if old.isNone then 1 else 0) = countVals n2
    subst hold
    rw [← entriesP_length n2 [], hlen, entriesP_length m.root [], ← hsize]

/-- RadixMap::remove on a well-formed map. -/
theorem mapRemove_spec (m : RadixMap T) (hinv : MapInv m) (key : List Byte) :
    ∃ m2 old, m.remove key = some (m2, old) ∧ MapInv m2 ∧
      m.root.key <+: m2.root.key ∧
      old = findVal (entriesP [] m.root) (m.root.key ++ key) ∧
      (∀ tgt, findVal (entriesP [] m2.root) tgt =
          if tgt = m.root.key ++ key then none
          else findVal (entriesP [] m.root) tgt) ∧
      m2.len + (if old.isSome then 1 else 0) = m.len := by
  obtain ⟨hroot, hsize⟩ := hinv
  obtain ⟨n2, old, heq, hinv2, hpre, hold, hpoint, hlen⟩ := remove_spec key m.root hroot
  have hclen : countVals n2 + (if old.isSome then 1 else 0) = countVals m.root := by
    rw [← entriesP_length n2 [], ← entriesP_length m.root []]
    exact hlen
  refine ⟨⟨n2, m.size - (if old.isSome then 1 else 0)⟩, old, ?_, ⟨hinv2, ?_⟩, hpre,
    hold, hpoint, ?_⟩
  · rw [RadixMap.remove, heq]
  · show m.size - (if old.isSome then 1 else 0) = countVals n2
    rw [hsize]
    omega
  · show m.size - (if old.isSome then 1 else 0) + (if old.isSome then 1 else 0) = m.len
    rw [RadixMap.len, hsize]
    omega

-- ===== extensionality of sorted entry lists =====

/-- Two streams with strictly ascending keys and the same lookup table are
the same stream. -/
theorem entries_ext : ∀ (l1 l2 : List (List Byte × T)),
    l1.Pairwise (fun e1 e2 => lexLt e1.1 e2.1) →
    l2.Pairwise (fun e1 e2 => lexLt e1.1 e2.1) →
    (∀ k, findVal l1 k = findVal l2 k) → l1 = l2 := by
  intro l1
  induction l1 with
  | nil =>
    intro l2 _ _ hpt
    cases l2 with
    | nil => rfl
    | cons e2 t2 =>
      have h := hpt e2.1
      rw [findVal, findVal, if_pos rfl] at h
      exact absurd h (by simp)
  | cons e1 t1 ih =>
    intro l2 h1 h2 hpt
    cases l2 with
    | nil =>
      have h := hpt e1.1
      rw [findVal, findVal, if_pos rfl] at h
      exact absurd h (by simp)
    | cons e2 t2 =>
      obtain ⟨hh1, ht1⟩ := List.pairwise_cons.mp h1
      obtain ⟨hh2, ht2⟩ := List.pairwise_cons.mp h2
      have hkeys : e1.1 = e2.1 := by
        by_contra hne
        have ha := hpt e1.1
        rw [findVal, if_pos rfl] at ha
        rw [findVal, if_neg (fun hx => hne hx.symm)] at ha
        have hb := hpt e2.1
        rw [findVal, if_neg hne] at hb
        rw [findVal, if_pos rfl] at hb
        have hma := findVal_mem ha.symm
        have hmb := findVal_mem hb
        have hlt1 := hh2 _ hma
        have hlt2 := hh1 _ hmb
        exact lexLt_asymm hlt1 hlt2
      have hvals : e1.2 = e2.2 := by
        have h := hpt e1.1
        rw [findVal, if_pos rfl] at h
        rw [findVal, if_pos hkeys.symm] at h
        exact Option.some.inj h
      have hheads : e1 = e2 := Prod.ext hkeys hvals
      subst hheads
      congr 1
      refine ih t2 ht1 ht2 ?_
      intro k
      by_cases hk : k = e1.1
      · subst hk
        have hn1 : findVal t1 e1.1 = none := by
          rw [findVal_eq_none_iff]
          intro e he heq
          have := hh1 e he
          rw [heq] at this
          exact lexLt_irrefl _ this
        have hn2 : findVal t2 e1.1 = none := by
          rw [findVal_eq_none_iff]
          intro e he heq
          have := hh2 e he
          rw [heq] at this
          exact lexLt_irrefl _ this
        rw [hn1, hn2]
      · have h := hpt k
        rw [findVal, if_neg (fun hx => hk hx.symm)] at h
        rw [findVal, if_neg (fun hx => hk hx.symm)] at h
        exact h

-- ===== building a map from a batch of insertions =====

/-- Insert a list of pairs left to right into a fresh map (the round-trip
scenario of the spec). -/
def buildMap (ps : List (List Byte × T)) : Option (RadixMap T) :=
  ps.foldlM (fun m e => (RadixMap.insert m e.1 e.2).map Prod.fst) RadixMap.new

theorem mapInv_new : MapInv (RadixMap.new : RadixMap T) := by
  constructor
  · show NodeInv (Node.mk [] none [])
    rw [NodeInv_iff]
    refine ⟨⟨by simp, by simp, by simp⟩, by simp⟩
  · show (0 : Nat) = countVals (Node.mk [] none [])
    rw [countVals_mk]
    simp

theorem entries_new : entriesP [] (RadixMap.new : RadixMap T).root = [] := by
  show entriesP [] (Node.mk [] none []) = []
  rw [entriesP_mk]
  simp

theorem buildMapGo_spec : ∀ (ps : List (List Byte × T)) (m : RadixMap T), MapInv m →
    m.root.key = [] →
    ∃ m2, ps.foldlM (fun m e => (RadixMap.insert m e.1 e.2).map Prod.fst) m = some m2 ∧
      MapInv m2 ∧ m2.root.key = [] ∧
      ∀ k, findVal (entriesP [] m2.root) k =
        (findVal ps.reverse k).or (findVal (entriesP [] m.root) k) := by
  intro ps
  induction ps with
  | nil =>
    intro m hinv hkey
    refine ⟨m, rfl, hinv, hkey, ?_⟩
    intro k
    rfl
  | cons e pt ih =>
    intro m hinv hkey
    obtain ⟨m1, old, heq, hinv1, hkey1, hold, hpoint, hlen⟩ := mapInsert_spec m hinv e.1 e.2
    obtain ⟨m2, heq2, hinv2, hkey2, hpt2⟩ := ih m1 hinv1 (hkey1.trans hkey)
    refine ⟨m2, ?_, hinv2, hkey2, ?_⟩
    · rw [List.foldlM_cons, heq]
      simpa using heq2
    · intro k
      rw [hpt2 k, List.reverse_cons, findVal_append, hpoint k, hkey]
      simp only [List.nil_append]
      rw [findVal_single]
      by_cases hk : k = e.1
      · rw [if_pos hk, if_pos hk]
        cases findVal pt.reverse k <;> rfl
      · rw [if_neg hk, if_neg hk]
        cases findVal pt.reverse k <;> rfl

/-- A key appears in an association list iff its lookup succeeds. -/
theorem findVal_isSome_iff {l : List (List Byte × T)} {k : List Byte} :
    (findVal l k).isSome = true ↔ k ∈ l.map Prod.fst := by
  constructor
  · intro h
    rcases hv : findVal l k with _ | v
    · rw [hv] at h
      exact absurd h (by simp)
    · exact List.mem_map_of_mem Prod.fst (findVal_mem hv)
  · intro h
    rcases hv : findVal l k with _ | v
    · rw [findVal_eq_none_iff] at hv
      rw [List.mem_map] at h
      obtain ⟨e, he, rfl⟩ := h
      exact absurd rfl (hv e he)
    · rfl

/-- The length of a strictly sorted entry list is the cardinality of its
key set. -/
theorem sorted_length_card {l : List (List Byte × T)}
    (hs : l.Pairwise (fun e1 e2 => lexLt e1.1 e2.1)) :
    l.length = (l.map Prod.fst).toFinset.card := by
  have hnd : (l.map Prod.fst).Nodup := by
    have h2 : (l.map Prod.fst).Pairwise (fun a b => a ≠ b) := by
      rw [List.pairwise_map]
      refine hs.imp ?_
      intro a b h heq
      rw [heq] at h
      exact lexLt_irrefl _ h
    exact h2
  rw [List.toFinset_card_of_nodup hnd, List.length_map]

-- ===== strong edge compression: the amended invariant for C3 =====

/-- Every node of the forest carries a value or at least two children. -/
def allSEC (l : List (Node T)) : Prop :=
  ∀ m ∈ nodesList l, (m.value.isSome = true ∨ 2 ≤ m.children.length)

theorem allSEC_mem {l : List (Node T)} (h : allSEC l) {c : Node T} (hc : c ∈ l) :
    ((c.value.isSome = true ∨ 2 ≤ c.children.length) ∧ allSEC c.children) := by
  constructor
  · refine h c ?_
    rw [mem_nodesList_iff]
    exact ⟨c, hc, self_mem_nodesList c⟩
  · intro m hm
    refine h m ?_
    rw [mem_nodesList_iff]
    refine ⟨c, hc, ?_⟩
    rw [nodesList_single]
    exact List.mem_cons_of_mem _ hm

theorem allSEC_of {l : List (Node T)}
    (h : ∀ c ∈ l, ((c.value.isSome = true ∨ 2 ≤ c.children.length) ∧ allSEC c.children)) :
    allSEC l := by
  intro m hm
  rw [mem_nodesList_iff] at hm
  obtain ⟨c, hc, hm⟩ := hm
  rw [nodesList_single] at hm
  rcases List.mem_cons.mp hm with rfl | hm
  · exact (h m hc).1
  · exact (h c hc).2 m hm

theorem allSEC_nil : allSEC ([] : List (Node T)) := by
  intro m hm
  rw [nodesList] at hm
  exact absurd hm (by simp)

theorem firstByte_drop {l : List Byte} {p : Nat} (hp : p < l.length) :
    firstByte (l.drop p) = l.get ⟨p, hp⟩ := by
  rw [List.drop_eq_getElem_cons hp, firstByte_cons]
  rfl

/-- Node::insert with a key of at most 255 bytes keeps strong edge
compression below the node, never unsets a value, and never shrinks the
child array; a fresh first byte grows it. -/
theorem insert_sec : ∀ (key : List Byte), key.length ≤ 255 →
    ∀ (n : Node T), NodeInv n → allSEC n.children → ∀ (value : T),
    ∃ n2 old, n.insert key value = some (n2, old) ∧
      allSEC n2.children ∧
      (n.value.isSome = true → n2.value.isSome = true) ∧
      n.children.length ≤ n2.children.length ∧
      (key = [] → n2.value.isSome = true) ∧
      (∀ k0 kt, key = k0 :: kt →
        (∀ (j : Nat) (hj : j < n.children.length), firstByte ((n.children[j]).key) ≠ k0) →
        n.children.length < n2.children.length) := by
  have H : ∀ (kl : Nat) (key : List Byte), key.length ≤ kl → key.length ≤ 255 →
      ∀ (n : Node T), NodeInv n → allSEC n.children → ∀ (value : T),
      ∃ n2 old, n.insert key value = some (n2, old) ∧
        allSEC n2.children ∧
        (n.value.isSome = true → n2.value.isSome = true) ∧
        n.children.length ≤ n2.children.length ∧
        (key = [] → n2.value.isSome = true) ∧
        (∀ k0 kt, key = k0 :: kt →
          (∀ (j : Nat) (hj : j < n.children.length), firstByte ((n.children[j]).key) ≠ k0) →
          n.children.length < n2.children.length) := by
    intro kl
    induction kl with
    | zero =>
      intro key hkey h255 n hinv hsec value
      cases key with
      | nil =>
        rcases n with ⟨k, v, cs⟩
        refine ⟨Node.mk k (some value) cs, v, ?_, by simpa using hsec, by simp, by simp,
          by simp, by simp⟩
        rw [Node.insert]
        rfl
      | cons a b =>
        rw [List.length_cons] at hkey
        exact (Nat.not_succ_le_zero _ hkey).elim
    | succ m ih =>
      intro key hkey h255 n hinv hsec value
      cases key with
      | nil =>
        rcases n with ⟨k, v, cs⟩
        refine ⟨Node.mk k (some value) cs, v, ?_, by simpa using hsec, by simp, by simp,
          by simp, by simp⟩
        rw [Node.insert]
        rfl
      | cons k0 krest =>
        rcases n with ⟨k, v, cs⟩
        obtain ⟨hloc, hchild⟩ := NodeInv_iff.mp hinv
        obtain ⟨hklen, hne, hsort⟩ := hloc
        simp only [Node.children_mk, Node.key_mk] at hchild hne hsort hklen
        simp only [Node.children_mk, Node.value_mk, Node.key_mk]
        obtain ⟨p, i, hlcp, hile, hlow, hhigh, hcase⟩ := lcp_spec hne hsort k0 krest
        rw [List.length_cons] at hkey h255
        simp only [Node.insert, Node.children_mk, Node.key_mk, hlcp]
        rcases hcase with ⟨hilt, hfb, hpeq, hp1⟩ | ⟨hp0, hnofb, hgt⟩
        · -- a child shares the first byte
          rw [dif_neg (by omega : ¬ p = 0)]
          have hinvi : NodeInv (cs[i]) := hchild _ (List.getElem_mem hilt)
          have hnei : (cs[i]).key ≠ [] := hne _ (List.getElem_mem hilt)
          have hkleni : (cs[i]).key.length < 256 := by
            have := (NodeInv_iff.mp hinvi).1.1
            simpa using this
          have hseci := allSEC_mem hsec (List.getElem_mem hilt)
          have hdl : ((k0 :: krest).drop p).length ≤ m := by
            rw [List.length_drop, List.length_cons]
            omega
          have hd255 : ((k0 :: krest).drop p).length ≤ 255 := by
            rw [List.length_drop, List.length_cons]
            omega
          simp only [List.getElem?_eq_getElem hilt]
          have hfinish : ∀ (c2 : Node T),
              (c2.value.isSome = true ∨ 2 ≤ c2.children.length) → allSEC c2.children →
              allSEC (cs.set i c2) := by
            intro c2 hself hkids
            refine allSEC_of ?_
            intro c hc
            rcases List.mem_or_eq_of_mem_set hc with hc | rfl
            · exact allSEC_mem hsec hc
            · exact ⟨hself, hkids⟩
          by_cases hpl : p = (cs[i]).key.length
          · -- plain recursion into the matching child
            rw [if_pos hpl]
            obtain ⟨c2, old2, heqrec, hsec2, hvmono, hcmono, hnilv, hgrow⟩ :=
              ih ((k0 :: krest).drop p) hdl hd255 (cs[i]) hinvi hseci.2 value
            simp only [heqrec]
            have hself2 : c2.value.isSome = true ∨ 2 ≤ c2.children.length := by
              rcases hseci.1 with hx | hx
              · exact Or.inl (hvmono hx)
              · exact Or.inr (le_trans hx hcmono)
            refine ⟨Node.mk k v (cs.set i c2), old2, rfl, ?_, by simp, ?_, by simp, ?_⟩
            · simp only [Node.children_mk]
              exact hfinish c2 hself2 hsec2
            · simp only [Node.children_mk, List.length_set]
              exact le_refl _
            · intro a b hab hno
              injection hab with h1 h2
              subst h1
              exact absurd hfb (hno i hilt)
          · -- split, then recurse into the fresh node
            rw [if_neg hpl]
            have hple : p ≤ (cs[i]).key.length := by
              rw [hpeq]
              exact commonPfxLen_le_right _ _
            have hplt : p < (cs[i]).key.length := lt_of_le_of_ne hple hpl
            have hnn : (Node.newNode ((k0 :: krest).take p) : Option (Node T)) =
                some (Node.mk ((k0 :: krest).take p) none []) := by
              rw [Node.newNode, if_pos]
              rw [List.length_take]
              omega
            simp only [hnn]
            have hstrip : (cs[i]).stripKeyPfx p =
                some (Node.mk ((cs[i]).key.drop p) (cs[i]).value (cs[i]).children) := by
              rw [Node.stripKeyPfx, if_pos hple]
            simp only [hstrip]
            have hpush : (Node.mk ((k0 :: krest).take p) none
                  ([] : List (Node T))).pushChild
                (Node.mk ((cs[i]).key.drop p) (cs[i]).value (cs[i]).children) =
                some (Node.mk ((k0 :: krest).take p) none
                  [Node.mk ((cs[i]).key.drop p) (cs[i]).value (cs[i]).children]) := by
              rw [Node.pushChild, Node.insertChild]
              simp only [Node.children_mk, Node.key_mk, Node.value_mk, List.length_nil]
              rw [if_pos ⟨le_refl 0, by omega⟩, List.insertIdx_zero]
            simp only [hpush]
            obtain ⟨hloci, hchildi⟩ := NodeInv_iff.mp hinvi
            obtain ⟨hkleni2, hnei2, hsorti⟩ := hloci
            have hinvS : NodeInv (Node.mk ((cs[i]).key.drop p) (cs[i]).value
                (cs[i]).children) := by
              rw [NodeInv_iff]
              refine ⟨⟨?_, ?_, ?_⟩, ?_⟩
              · simp only [Node.key_mk, List.length_drop]
                omega
              · simpa using hnei2
              · simpa using hsorti
              · simpa using hchildi
            have hinvW : NodeInv (Node.mk ((k0 :: krest).take p) none
                [Node.mk ((cs[i]).key.drop p) (cs[i]).value (cs[i]).children]) := by
              rw [NodeInv_iff]
              refine ⟨⟨?_, ?_, ?_⟩, ?_⟩
              · simp only [Node.key_mk, List.length_take]
                omega
              · intro cch hc
                simp only [Node.children_mk, List.mem_singleton] at hc
                subst hc
                simp only [Node.key_mk]
                intro hnil
                have := congrArg List.length hnil
                rw [List.length_drop] at this
                simp at this
                omega
              · simp
              · intro cch hc
                simp only [Node.children_mk, List.mem_singleton] at hc
                subst hc
                exact hinvS
            have hsecW : allSEC (Node.mk ((k0 :: krest).take p) none
                [Node.mk ((cs[i]).key.drop p) (cs[i]).value (cs[i]).children]).children := by
              simp only [Node.children_mk]
              refine allSEC_of ?_
              intro c hc
              rcases List.mem_singleton.mp hc with rfl
              constructor
              · simpa using hseci.1
              · simp only [Node.children_mk]
                exact hseci.2
            obtain ⟨c2, old2, heqrec, hsec2, hvmono, hcmono, hnilv, hgrow⟩ :=
              ih ((k0 :: krest).drop p) hdl hd255 _ hinvW hsecW value
            simp only [heqrec]
            have hself2 : c2.value.isSome = true ∨ 2 ≤ c2.children.length := by
              cases hdp : (k0 :: krest).drop p with
              | nil => exact Or.inl (hnilv hdp)
              | cons d0 dt =>
                refine Or.inr ?_
                have hplen : p < (k0 :: krest).length := by
                  rw [List.length_cons]
                  rcases Nat.lt_or_ge p (krest.length + 1) with h | h
                  · exact h
                  · exfalso
                    have : (k0 :: krest).drop p = [] := by
                      rw [List.drop_eq_nil_of_le]
                      rw [List.length_cons]
                      omega
                    rw [hdp] at this
                    exact absurd this (by simp)
                have hd0 : d0 = (k0 :: krest).get ⟨p, hplen⟩ := by
                  have := firstByte_drop hplen
                  rw [hdp, firstByte_cons] at this
                  exact this
                have hdiverge := commonPfxLen_diverge p hpeq hplen hplt
                have hgrow2 := hgrow d0 dt hdp ?_
                · simpa using hgrow2
                · intro j hj
                  simp only [Node.children_mk, List.length_singleton] at hj
                  interval_cases j
                  simp only [Node.children_mk, List.getElem_cons_zero, Node.key_mk]
                  rw [firstByte_drop hplt, hd0]
                  exact fun hx => hdiverge hx.symm
            refine ⟨Node.mk k v (cs.set i c2), old2, rfl, ?_, by simp, ?_, by simp, ?_⟩
            · simp only [Node.children_mk]
              exact hfinish c2 hself2 hsec2
            · simp only [Node.children_mk, List.length_set]
              exact le_refl _
            · intro a b hab hno
              injection hab with h1 h2
              subst h1
              exact absurd hfb (hno i hilt)
        · -- no child shares the first byte: a fresh leaf is inserted
          subst hp0
          rw [dif_pos rfl]
          have hcap : cs.length < 256 := children_cap hsort hnofb
          rw [dif_neg (by rw [List.length_cons]; omega)]
          have hnwv : (Node.newWithValue (k0 :: krest) value : Option (Node T)) =
              some (Node.mk (k0 :: krest) (some value) []) := by
            rw [Node.newWithValue, if_pos]
            rw [List.length_cons]
            omega
          simp only [hnwv]
          have hic : (Node.mk k v cs).insertChild i
              (Node.mk (k0 :: krest) (some value) []) =
              some (Node.mk k v (cs.insertIdx i
                (Node.mk (k0 :: krest) (some value) []))) := by
            rw [Node.insertChild]
            simp only [Node.children_mk, Node.key_mk, Node.value_mk]
            rw [if_pos ⟨hile, hcap⟩]
          simp only [hic]
          have hins : cs.insertIdx i (Node.mk (k0 :: krest) (some value) []) =
              cs.take i ++ Node.mk (k0 :: krest) (some value) [] :: cs.drop i :=
            insertIdx_eq_take_cons_drop i cs hile _
          have hlen2 : (cs.insertIdx i (Node.mk (k0 :: krest) (some value) [])).length =
              cs.length + 1 := by
            rw [hins, List.length_append, List.length_cons, List.length_take,
              List.length_drop]
            omega
          refine ⟨Node.mk k v (cs.insertIdx i (Node.mk (k0 :: krest) (some value) [])),
            none, rfl, ?_, by simp, ?_, by simp, ?_⟩
          · simp only [Node.children_mk]
            refine allSEC_of ?_
            intro c hc
            rw [hins] at hc
            rcases List.mem_append.mp hc with hc | hc
            · exact allSEC_mem hsec (List.mem_of_mem_take hc)
            · rcases List.mem_cons.mp hc with rfl | hc
              · exact ⟨by simp, by simp only [Node.children_mk]; exact allSEC_nil⟩
              · exact allSEC_mem hsec (List.mem_of_mem_drop hc)
          · simp only [Node.children_mk]
            rw [hlen2]
            omega
          · intro a b hab hno
            simp only [Node.children_mk]
            rw [hlen2]
            omega
  intro key h255 n hinv hsec value
  exact H key.length key (le_refl _) h255 n hinv hsec value

theorem ecAt_of_sec {m : Node T} (h : m.value.isSome = true ∨ 2 ≤ m.children.length) :
    ecAt m := by
  rcases m with ⟨mk, mv, mcs⟩
  rcases mcs with _ | ⟨c, _ | ⟨c2, ct⟩⟩
  · simp [ecAt]
  · simp only [ecAt, Node.children_mk, Node.value_mk, Node.key_mk]
    rintro ⟨h1, h2⟩
    rcases h with h | h
    · rw [Option.isNone_iff_eq_none] at h1
      rw [h1] at h
      exact absurd h (by simp)
    · simp only [Node.children_mk, List.length_singleton] at h
      omega
  · simp [ecAt]

theorem rootEC_of_allSEC {root : Node T} (h : allSEC root.children) : rootEC root := by
  intro m hm
  exact ecAt_of_sec (h m hm)

/-- A batch of insertions with keys of at most 255 bytes keeps strong edge
compression below the root. -/
theorem buildMapGo_sec : ∀ (ps : List (List Byte × T)),
    (∀ e ∈ ps, (e.1 : List Byte).length ≤ 255) →
    ∀ (m : RadixMap T), MapInv m → allSEC m.root.children →
    ∃ m2, ps.foldlM (fun m e => (RadixMap.insert m e.1 e.2).map Prod.fst) m = some m2 ∧
      MapInv m2 ∧ allSEC m2.root.children := by
  intro ps
  induction ps with
  | nil =>
    intro _ m hinv hsec
    exact ⟨m, rfl, hinv, hsec⟩
  | cons e pt ih =>
    intro hall m hinv hsec
    obtain ⟨m1, old, heq, hinv1, hkey1, hold, hpoint, hlen⟩ := mapInsert_spec m hinv e.1 e.2
    obtain ⟨n2, old2, heqn, hsec2, _, _, _, _⟩ :=
      insert_sec e.1 (hall e (List.mem_cons_self _ _)) m.root hinv.1 hsec e.2
    have hm1root : m1.root = n2 := by
      rw [RadixMap.insert, heqn] at heq
      simp only [Option.some.injEq, Prod.mk.injEq] at heq
      rw [← heq.1]
    obtain ⟨m2, heq2, hinv2, hsec3⟩ := ih (fun e he => hall e (List.mem_cons_of_mem _ he))
      m1 hinv1 (by rw [hm1root]; exact hsec2)
    refine ⟨m2, ?_, hinv2, hsec3⟩
    rw [List.foldlM_cons, heq]
    simpa using heq2

-- ===== sequences of public map operations =====

/-- One public mutation of the map. -/
inductive MapOp (T : Type) : Type where
  | ins (k : List Byte) (v : T) : MapOp T
  | del (k : List Byte) : MapOp T

/-- Apply one operation, keeping only the map. -/
def runOp (m : RadixMap T) : MapOp T → Option (RadixMap T)
  | .ins k v => (m.insert k v).map Prod.fst
  | .del k => (m.remove k).map Prod.fst

/-- Apply a sequence of operations to a fresh map. -/
def runOps (ops : List (MapOp T)) : Option (RadixMap T) :=
  ops.foldlM runOp RadixMap.new

theorem allFragsShort_of_NodeInv {root : Node T} (h : NodeInv root) :
    allFragsShort root := by
  intro m hm
  exact (h m hm).1

/-- Insert a batch of keys into a fresh set. -/
def buildSet (ks : List (List Byte)) : Option RadixSet :=
  ks.foldlM (fun s k => (RadixSet.insert s k).map Prod.fst) RadixSet.new

/-- The sorted key stream of a well-formed map, with its key set. -/
theorem iterList_keys (m : RadixMap T) (hinv : MapInv m) :
    ((m.iterList.map Prod.fst).Pairwise lexLt) ∧
    m.iterList.length = m.len ∧
    (∀ k, k ∈ m.iterList.map Prod.fst ↔
      (findVal (entriesP [] m.root) k).isSome = true) := by
  refine ⟨?_, ?_, ?_⟩
  · rw [iterList_eq_entries, List.pairwise_map]
    exact entriesP_sorted m.root hinv.1 []
  · rw [iterList_eq_entries, entriesP_length, RadixMap.len, hinv.2]
  · intro k
    rw [iterList_eq_entries, findVal_isSome_iff]

-- ===== the claims =====

/-- C1: inserting any finite batch of (key, value) pairs into a fresh map
(last write wins) gives a map whose len is the number of distinct keys,
whose get returns the last value written for every inserted key, and whose
get returns the absent answer for every other key. -/
theorem C1_map_roundtrip (ps : List (List Byte × T)) :
    ∃ m, buildMap ps = some m ∧
      m.len = (ps.map Prod.fst).toFinset.card ∧
      (∀ k, k ∈ ps.map Prod.fst →
        m.get k = some (findVal ps.reverse k) ∧ (findVal ps.reverse k).isSome = true) ∧
      (∀ k, k ∉ ps.map Prod.fst → m.get k = some none) := by
  obtain ⟨m, heq, hinv, hkey, hpt⟩ := buildMapGo_spec ps RadixMap.new mapInv_new rfl
  have hlook : ∀ k, findVal (entriesP [] m.root) k = findVal ps.reverse k := by
    intro k
    rw [hpt k, entries_new]
    cases findVal ps.reverse k <;> rfl
  have hget : ∀ k, m.get k = some (findVal ps.reverse k) := by
    intro k
    rw [RadixMap.get, get_spec m.root hinv.1 k, hkey, List.nil_append, hlook k]
  have hmemiff : ∀ k, k ∈ ps.map Prod.fst ↔ (findVal ps.reverse k).isSome = true := by
    intro k
    rw [findVal_isSome_iff, List.map_reverse, List.mem_reverse]
  refine ⟨m, heq, ?_, ?_, ?_⟩
  · rw [RadixMap.len, hinv.2, ← entriesP_length m.root []]
    rw [sorted_length_card (entriesP_sorted m.root hinv.1 [])]
    congr 1
    refine Finset.ext ?_
    intro k
    rw [List.mem_toFinset, List.mem_toFinset, ← findVal_isSome_iff, hlook k]
    exact (hmemiff k).symm
  · intro k hk
    exact ⟨hget k, (hmemiff k).mp hk⟩
  · intro k hk
    have hnone : findVal ps.reverse k = none := by
      rcases hv : findVal ps.reverse k with _ | v
      · rfl
      · exact absurd ((hmemiff k).mpr (by rw [hv]; rfl)) hk
    rw [hget k, hnone]

/-- C3 (amended): after any batch of insertions whose keys are at most 255
bytes into a fresh map, the edge-compression invariant holds below the
root.  (The original claim, covering removes and longer keys, is refuted
by the recorded counterexample.) -/
theorem C3_edge_compression_inserts (ps : List (List Byte × T))
    (h : ∀ e ∈ ps, (e.1 : List Byte).length ≤ 255) :
    ∃ m, buildMap ps = some m ∧ rootEC m.root := by
  obtain ⟨m, heq, hinv, hsec⟩ := buildMapGo_sec ps h RadixMap.new mapInv_new
    (by show allSEC ([] : List (Node T)); exact allSEC_nil)
  exact ⟨m, heq, rootEC_of_allSEC hsec⟩

/-- C5: full iteration of a well-formed map yields keys in strictly
ascending lexicographic byte order and exactly len items. -/
theorem C5_sorted_iteration (m : RadixMap T) (hinv : MapInv m) :
    ((m.iterList.map Prod.fst).Pairwise lexLt) ∧ m.iterList.length = m.len :=
  ⟨(iterList_keys m hinv).1, (iterList_keys m hinv).2.1⟩

/-- C6: the range iterator of a well-formed map yields exactly the
in-bounds entries of the full iteration, in ascending key order. -/
theorem C6_range_is_filter (m : RadixMap T) (hinv : MapInv m) (lo hi : RBound) :
    m.rangeList lo hi =
      m.iterList.filter (fun e => inRangeLeft lo e.1 && inRangeRight hi e.1) ∧
    ((m.rangeList lo hi).map Prod.fst).Pairwise lexLt := by
  have hsorted : m.iterList.Pairwise (fun e1 e2 => lexLt e1.1 e2.1) := by
    rw [iterList_eq_entries]
    exact entriesP_sorted m.root hinv.1 []
  have hfe : m.rangeList lo hi =
      m.iterList.filter (fun e => inRangeLeft lo e.1 && inRangeRight hi e.1) := by
    rw [RadixMap.rangeList]
    exact rangeFilter_eq_filter m.iterList hsorted lo hi
  refine ⟨hfe, ?_⟩
  rw [hfe, List.pairwise_map]
  exact hsorted.sublist (List.filter_sublist _)

/-- C7: inserting an absent key and then removing it restores the exact
full-iteration stream of the map. -/
theorem C7_remove_cancels_insert (m : RadixMap T) (hinv : MapInv m) (k : List Byte)
    (v : T) (habs : m.get k = some none) :
    ∃ m1 m2, m.insert k v = some (m1, none) ∧ m1.remove k = some (m2, some v) ∧
      m2.iterList = m.iterList := by
  have hlook : findVal (entriesP [] m.root) (m.root.key ++ k) = none := by
    have h2 := habs.symm.trans (get_spec m.root hinv.1 k)
    exact (Option.some.inj h2).symm
  obtain ⟨m1, old, heq1, hinv1, hkey1, hold1, hpoint1, hlen1⟩ := mapInsert_spec m hinv k v
  have hold1n : old = none := by rw [hold1, hlook]
  subst hold1n
  obtain ⟨m2, old2, heq2, hinv2, hpre2, hold2, hpoint2, hlen2⟩ := mapRemove_spec m1 hinv1 k
  have hold2v : old2 = some v := by
    rw [hold2, hkey1, hpoint1, if_pos rfl]
  subst hold2v
  refine ⟨m1, m2, heq1, heq2, ?_⟩
  rw [iterList_eq_entries, iterList_eq_entries]
  refine entries_ext _ _ (entriesP_sorted m2.root hinv2.1 [])
    (entriesP_sorted m.root hinv.1 []) ?_
  intro t
  rw [hpoint2 t]
  simp only [hkey1]
  by_cases ht : t = m.root.key ++ k
  · rw [if_pos ht, ht, hlook]
  · rw [if_neg ht, hpoint1 t, if_neg ht]

/-- C8: insert accepts keys of any length without hitting the key-length
assertions, get then finds the value, and every stored fragment stays
under 256 bytes. -/
theorem C8_long_keys_accepted (m : RadixMap T) (hinv : MapInv m) (key : List Byte)
    (value : T) :
    ∃ m2 old, m.insert key value = some (m2, old) ∧
      m2.get key = some (some value) ∧ allFragsShort m2.root := by
  obtain ⟨m2, old, heq, hinv2, hkey2, hold, hpoint, hlen⟩ := mapInsert_spec m hinv key value
  refine ⟨m2, old, heq, ?_, allFragsShort_of_NodeInv hinv2.1⟩
  rw [RadixMap.get, get_spec m2.root hinv2.1 key, hkey2, hpoint, if_pos rfl]

/-- C10: the empty byte string is an ordinary key: insert([]) stores the
value at the root and returns the previous one, get([]) finds it, and len
counts it like any other entry. -/
theorem C10_empty_key (m : RadixMap T) (hinv : MapInv m) (v : T) :
    ∃ m2 old, m.insert [] v = some (m2, old) ∧ m.get [] = some old ∧
      m2.get [] = some (some v) ∧ m2.root.value = some v ∧
      m2.len = m.len + (if old.isNone then 1 else 0) := by
  obtain ⟨m2, old, heq, hinv2, hkey2, hold, hpoint, hlen⟩ := mapInsert_spec m hinv [] v
  have hget2 : m2.get [] = some (some v) := by
    rw [RadixMap.get, get_spec m2.root hinv2.1 [], hkey2, hpoint, if_pos rfl]
  refine ⟨m2, old, heq, ?_, hget2, ?_, hlen⟩
  · rw [RadixMap.get, get_spec m.root hinv.1 [], hold]
  · rcases hm2 : m2.root with ⟨k2, v2, cs2⟩
    have hne2 : ∀ c ∈ cs2, c.key ≠ [] := by
      have := (NodeInv_iff.mp (hm2 ▸ hinv2.1)).1.2.1
      simpa using this
    have hself := @findVal_entries_at_self T k2 v2 cs2 hne2
    rw [Node.value_mk]
    rw [← hself]
    have := hpoint (m.root.key ++ [])
    rw [if_pos rfl] at this
    rw [hm2] at this
    rw [← hkey2, hm2] at this
    simp only [Node.key_mk] at this
    rw [List.append_nil] at this
    exact this
  -- (the penultimate bullet proves the root value)

/-- C2 (counterexample evaluation): on the one-entry map for key [0, 1],
removing the absent empty key returns the absent answer but merges the
sole child into the root, after which get can no longer find [0, 1] even
though len still reports one entry. -/
theorem C2_remove_absent_corrupts :
    ∃ m m', runOps [MapOp.ins [0, 1] (1 : Nat)] = some m ∧
      m.get [] = some none ∧
      m.remove [] = some (m', none) ∧
      m'.len = m.len ∧
      m.get [0, 1] = some (some 1) ∧
      m'.get [0, 1] = some none := by
  have h1 : (Node.mk [] none ([] : List (Node Nat))).insert [0, 1] 1 =
      some (Node.mk [] none [Node.mk [0, 1] (some 1) []], none) := by
    simp [Node.insert, longestCommonPfx, binarySearchGo, Node.newWithValue,
      Node.insertChild]
  have h2 : (Node.mk [] none [Node.mk [0, 1] (some (1 : Nat)) []]).remove [] =
      some (Node.mk [0, 1] (some 1) [], none) := by
    simp +decide [Node.remove, Node.takeValue, Node.extendKey, Node.replaceValue,
      Node.moveChildren]
  refine ⟨⟨Node.mk [] none [Node.mk [0, 1] (some 1) []], 1⟩,
    ⟨Node.mk [0, 1] (some 1) [], 1⟩, ?_, ?_, ?_, rfl, ?_, ?_⟩
  · rw [runOps]
    simp only [List.foldlM_cons, List.foldlM_nil, runOp, RadixMap.new, RadixMap.insert, h1]
    rfl
  · rw [RadixMap.get]
    simp [Node.get]
  · rw [RadixMap.remove]
    simp only [h2]
    rfl
  · rw [RadixMap.get]
    simp +decide [Node.get, Node.selectNextChild, longestCommonPfx, binarySearchGo,
      bytesCmp, commonPfxLen]
  · rw [RadixMap.get]
    simp [Node.get, Node.selectNextChild, longestCommonPfx, binarySearchGo]

theorem c3rem3a : (Node.mk [1] (some (1 : Nat)) ([] : List (Node Nat))).remove [] =
    some (Node.mk [1] none [], some 1) := by
  rw [Node.remove]
  simp [Node.takeValue]

theorem c3rem3b : (Node.mk [0] none
    [Node.mk [1] (some (1 : Nat)) [], Node.mk [2] (some 2) []]).remove [1] =
    some (Node.mk [0] none [Node.mk [2] (some 2) []], some 1) := by
  rw [Node.remove]
  have hl : (Node.mk [0] none [Node.mk [1] (some (1 : Nat)) [],
      Node.mk [2] (some 2) []]).selectNextChild [1] = some (some (1, 0)) := by
    simp +decide [Node.selectNextChild, longestCommonPfx, binarySearchGo, bytesCmp,
      commonPfxLen]
  simp only [hl]
  split
  · rename_i heq
    simp only [Node.children_mk, List.getElem?_cons_zero] at heq
    exact absurd heq (by simp)
  · rename_i child heq
    simp only [Node.children_mk, List.getElem?_cons_zero] at heq
    injection heq with heq2
    subst heq2
    simp only [List.drop_succ_cons, List.drop_zero, c3rem3a]
    simp +decide [Node.isEmptyNode, Node.setChild, Node.removeChildAt]

theorem c3rem3 : (Node.mk [] none [Node.mk [0] none
    [Node.mk [1] (some (1 : Nat)) [], Node.mk [2] (some 2) []]]).remove [0, 1] =
    some (Node.mk [] none [Node.mk [0] none [Node.mk [2] (some 2) []]], some 1) := by
  rw [Node.remove]
  have hl : (Node.mk [] none [Node.mk [0] none [Node.mk [1] (some (1 : Nat)) [],
      Node.mk [2] (some 2) []]]).selectNextChild [0, 1] = some (some (1, 0)) := by
    simp +decide [Node.selectNextChild, longestCommonPfx, binarySearchGo, bytesCmp,
      commonPfxLen]
  simp only [hl]
  split
  · rename_i heq
    simp only [Node.children_mk, List.getElem?_cons_zero] at heq
    exact absurd heq (by simp)
  · rename_i child heq
    simp only [Node.children_mk, List.getElem?_cons_zero] at heq
    injection heq with heq2
    subst heq2
    simp only [List.drop_succ_cons, List.drop_zero, c3rem3b]
    simp +decide [Node.isEmptyNode, Node.setChild, Node.removeChildAt]

/-- C3 (counterexample evaluation): inserting [0, 1] and [0, 2] and then
removing [0, 1] leaves a value-less node keyed [0] with a single child
keyed [2], with combined fragment length far below 256 — edge compression
is violated. -/
theorem C3_counterexample :
    ∃ m, runOps [MapOp.ins [0, 1] (1 : Nat), MapOp.ins [0, 2] 2,
      MapOp.del [0, 1]] = some m ∧ ¬ rootEC m.root := by
  have h1 : (Node.mk [] none ([] : List (Node Nat))).insert [0, 1] 1 =
      some (Node.mk [] none [Node.mk [0, 1] (some 1) []], none) := by
    simp [Node.insert, longestCommonPfx, binarySearchGo, Node.newWithValue,
      Node.insertChild]
  have h2 : (Node.mk [] none [Node.mk [0, 1] (some (1 : Nat)) []]).insert [0, 2] 2 =
      some (Node.mk [] none [Node.mk [0] none
        [Node.mk [1] (some 1) [], Node.mk [2] (some 2) []]], none) := by
    simp +decide [Node.insert, longestCommonPfx, binarySearchGo, bytesCmp, commonPfxLen,
      Node.newWithValue, Node.insertChild, Node.newNode, Node.stripKeyPfx, Node.pushChild,
      Node.setChild]
  refine ⟨⟨Node.mk [] none [Node.mk [0] none [Node.mk [2] (some 2) []]], 1⟩, ?_, ?_⟩
  · have hr1 : runOp (RadixMap.new : RadixMap Nat) (MapOp.ins [0, 1] 1) =
        some ⟨Node.mk [] none [Node.mk [0, 1] (some 1) []], 1⟩ := by
      rw [runOp, RadixMap.insert]
      simp only [RadixMap.new, h1]
      rfl
    have hr2 : runOp (⟨Node.mk [] none [Node.mk [0, 1] (some 1) []], 1⟩ : RadixMap Nat)
        (MapOp.ins [0, 2] 2) =
        some ⟨Node.mk [] none [Node.mk [0] none
          [Node.mk [1] (some 1) [], Node.mk [2] (some 2) []]], 2⟩ := by
      rw [runOp, RadixMap.insert]
      simp only [h2]
      rfl
    have hr3 : runOp (⟨Node.mk [] none [Node.mk [0] none
        [Node.mk [1] (some 1) [], Node.mk [2] (some 2) []]], 2⟩ : RadixMap Nat)
        (MapOp.del [0, 1]) =
        some ⟨Node.mk [] none [Node.mk [0] none [Node.mk [2] (some 2) []]], 1⟩ := by
      rw [runOp, RadixMap.remove]
      simp only [c3rem3]
      rfl
    rw [runOps, List.foldlM_cons, hr1]
    show List.foldlM runOp
      (⟨Node.mk [] none [Node.mk [0, 1] (some 1) []], 1⟩ : RadixMap Nat)
      [MapOp.ins [0, 2] 2, MapOp.del [0, 1]] = _
    rw [List.foldlM_cons, hr2]
    show List.foldlM runOp (⟨Node.mk [] none [Node.mk [0] none
      [Node.mk [1] (some 1) [], Node.mk [2] (some 2) []]], 2⟩ : RadixMap Nat)
      [MapOp.del [0, 1]] = _
    rw [List.foldlM_cons, hr3]
    rfl
  · intro hec
    have hmem : Node.mk [0] none [Node.mk [2] (some (2 : Nat)) []] ∈
        nodesList (Node.mk [] none [Node.mk [0] none
          [Node.mk [2] (some (2 : Nat)) []]] : Node Nat).children := by
      simp only [Node.children_mk, nodesList_cons, nodesList]
      simp
    have := hec _ hmem
    simp [ecAt] at this

theorem c4pfx1 : (Node.mk [0, 1, 2] (some (1 : Nat))
    [Node.mk [3] (some 2) []]).findPfx [3] =
    some (some (0, Node.mk [3] (some 2) [])) := by
  rw [Node.findPfx]
  have hl : longestCommonPfx [Node.mk [3] (some (2 : Nat)) []] [3] = some (1, 0) := by
    simp +decide [longestCommonPfx, binarySearchGo, bytesCmp, commonPfxLen]
  simp only [Node.children_mk, hl]
  rw [if_neg (by omega)]
  split
  · rename_i heq
    simp only [List.getElem?_cons_zero] at heq
    exact absurd heq (by simp)
  · rename_i child heq
    simp only [List.getElem?_cons_zero] at heq
    injection heq with heq2
    subst heq2
    simp

theorem c4pfx2 : (Node.mk [] none [Node.mk [0, 1, 2] (some (1 : Nat))
    [Node.mk [3] (some 2) []]]).findPfx [0, 1, 3] =
    some (some (2, Node.mk [3] (some 2) [])) := by
  rw [Node.findPfx]
  have hl : longestCommonPfx [Node.mk [0, 1, 2] (some (1 : Nat))
      [Node.mk [3] (some 2) []]] [0, 1, 3] = some (2, 0) := by
    simp +decide [longestCommonPfx, binarySearchGo, bytesCmp, commonPfxLen]
  simp only [Node.children_mk, hl]
  rw [if_neg (by omega)]
  split
  · rename_i heq
    simp only [List.getElem?_cons_zero] at heq
    exact absurd heq (by simp)
  · rename_i child heq
    simp only [List.getElem?_cons_zero] at heq
    injection heq with heq2
    subst heq2
    simp only [List.drop_succ_cons, List.drop_zero]
    rw [if_neg (by simp)]
    rw [c4pfx1]
    rfl

/-- C4 (counterexample evaluation): on the map {[0,1,2] ↦ 1,
[0,1,2,3] ↦ 2}, prefix iteration for [0, 1, 3] fabricates the entry
([0, 1, 3], 2) although that key is absent, and prefix iteration for the
empty prefix aborts (find_prefix indexes key[0]). -/
theorem C4_prefix_iter_wrong :
    ∃ m, runOps [MapOp.ins [0, 1, 2] (1 : Nat), MapOp.ins [0, 1, 2, 3] 2] = some m ∧
      m.pfxIterList [0, 1, 3] = some [([0, 1, 3], 2)] ∧
      m.get [0, 1, 3] = some none ∧
      m.pfxIterList [] = none := by
  have h1 : (Node.mk [] none ([] : List (Node Nat))).insert [0, 1, 2] 1 =
      some (Node.mk [] none [Node.mk [0, 1, 2] (some 1) []], none) := by
    simp [Node.insert, longestCommonPfx, binarySearchGo, Node.newWithValue,
      Node.insertChild]
  have h2 : (Node.mk [] none [Node.mk [0, 1, 2] (some (1 : Nat)) []]).insert
      [0, 1, 2, 3] 2 =
      some (Node.mk [] none [Node.mk [0, 1, 2] (some 1)
        [Node.mk [3] (some 2) []]], none) := by
    simp +decide [Node.insert, longestCommonPfx, binarySearchGo, bytesCmp, commonPfxLen,
      Node.newWithValue, Node.insertChild, Node.newNode, Node.stripKeyPfx, Node.pushChild,
      Node.setChild]
  refine ⟨⟨Node.mk [] none [Node.mk [0, 1, 2] (some 1) [Node.mk [3] (some 2) []]], 2⟩,
    ?_, ?_, ?_, ?_⟩
  · have hr1 : runOp (RadixMap.new : RadixMap Nat) (MapOp.ins [0, 1, 2] 1) =
        some ⟨Node.mk [] none [Node.mk [0, 1, 2] (some 1) []], 1⟩ := by
      rw [runOp, RadixMap.insert]
      simp only [RadixMap.new, h1]
      rfl
    have hr2 : runOp (⟨Node.mk [] none [Node.mk [0, 1, 2] (some 1) []], 1⟩ : RadixMap Nat)
        (MapOp.ins [0, 1, 2, 3] 2) =
        some ⟨Node.mk [] none [Node.mk [0, 1, 2] (some 1)
          [Node.mk [3] (some 2) []]], 2⟩ := by
      rw [runOp, RadixMap.insert]
      simp only [h2]
      rfl
    rw [runOps, List.foldlM_cons, hr1]
    show List.foldlM runOp
      (⟨Node.mk [] none [Node.mk [0, 1, 2] (some 1) []], 1⟩ : RadixMap Nat)
      [MapOp.ins [0, 1, 2, 3] 2] = _
    rw [List.foldlM_cons, hr2]
    rfl
  · rw [RadixMap.pfxIterList]
    rw [c4pfx2]
    simp +decide [iterAll]
  · rw [RadixMap.get]
    simp +decide [Node.get, Node.selectNextChild, longestCommonPfx, binarySearchGo,
      bytesCmp, commonPfxLen]
  · rw [RadixMap.pfxIterList]
    simp [Node.findPfx, longestCommonPfx]

/-- C9 (counterexample evaluation): for the sets A = {[1], [25]} and
B = {[0], [2]}, the intersection iterator emits [1] although [1] is not a
member of B. -/
theorem C9_intersection_wrong :
    ∃ a b, buildSet [[1], [25]] = some a ∧ buildSet [[0], [2]] = some b ∧
      RadixSet.intersectionList a b = [[1]] ∧ [1] ∉ b.keyList := by
  have h1 : (Node.mk [] none ([] : List (Node Unit))).insert [1] () =
      some (Node.mk [] none [Node.mk [1] (some ()) []], none) := by
    simp [Node.insert, longestCommonPfx, binarySearchGo, Node.newWithValue,
      Node.insertChild]
  have h2 : (Node.mk [] none [Node.mk [1] (some ()) []]).insert [25] () =
      some (Node.mk [] none [Node.mk [1] (some ()) [], Node.mk [25] (some ()) []],
        none) := by
    simp +decide [Node.insert, longestCommonPfx, binarySearchGo, bytesCmp, commonPfxLen,
      Node.newWithValue, Node.insertChild]
  have h3 : (Node.mk [] none ([] : List (Node Unit))).insert [0] () =
      some (Node.mk [] none [Node.mk [0] (some ()) []], none) := by
    simp [Node.insert, longestCommonPfx, binarySearchGo, Node.newWithValue,
      Node.insertChild]
  have h4 : (Node.mk [] none [Node.mk [0] (some ()) []]).insert [2] () =
      some (Node.mk [] none [Node.mk [0] (some ()) [], Node.mk [2] (some ()) []],
        none) := by
    simp +decide [Node.insert, longestCommonPfx, binarySearchGo, bytesCmp, commonPfxLen,
      Node.newWithValue, Node.insertChild]
  refine ⟨⟨⟨Node.mk [] none [Node.mk [1] (some ()) [], Node.mk [25] (some ()) []], 2⟩⟩,
    ⟨⟨Node.mk [] none [Node.mk [0] (some ()) [], Node.mk [2] (some ()) []], 2⟩⟩,
    ?_, ?_, ?_, ?_⟩
  · have hs1 : (RadixSet.insert RadixSet.new [1]).map Prod.fst =
        some ⟨⟨Node.mk [] none [Node.mk [1] (some ()) []], 1⟩⟩ := by
      rw [RadixSet.insert, RadixSet.new, RadixMap.insert]
      simp only [RadixMap.new, h1]
      rfl
    have hs2 : (RadixSet.insert ⟨⟨Node.mk [] none [Node.mk [1] (some ()) []], 1⟩⟩
        [25]).map Prod.fst =
        some ⟨⟨Node.mk [] none [Node.mk [1] (some ()) [],
          Node.mk [25] (some ()) []], 2⟩⟩ := by
      rw [RadixSet.insert, RadixMap.insert]
      simp only [h2]
      rfl
    rw [buildSet, List.foldlM_cons, hs1]
    show List.foldlM (fun s k => (RadixSet.insert s k).map Prod.fst)
      (⟨⟨Node.mk [] none [Node.mk [1] (some ()) []], 1⟩⟩ : RadixSet) [[25]] = _
    rw [List.foldlM_cons, hs2]
    rfl
  · have hs3 : (RadixSet.insert RadixSet.new [0]).map Prod.fst =
        some ⟨⟨Node.mk [] none [Node.mk [0] (some ()) []], 1⟩⟩ := by
      rw [RadixSet.insert, RadixSet.new, RadixMap.insert]
      simp only [RadixMap.new, h3]
      rfl
    have hs4 : (RadixSet.insert ⟨⟨Node.mk [] none [Node.mk [0] (some ()) []], 1⟩⟩
        [2]).map Prod.fst =
        some ⟨⟨Node.mk [] none [Node.mk [0] (some ()) [],
          Node.mk [2] (some ()) []], 2⟩⟩ := by
      rw [RadixSet.insert, RadixMap.insert]
      simp only [h4]
      rfl
    rw [buildSet, List.foldlM_cons, hs3]
    show List.foldlM (fun s k => (RadixSet.insert s k).map Prod.fst)
      (⟨⟨Node.mk [] none [Node.mk [0] (some ()) []], 1⟩⟩ : RadixSet) [[2]] = _
    rw [List.foldlM_cons, hs4]
    rfl
  · have hka : RadixSet.keyList ⟨⟨Node.mk [] none [Node.mk [1] (some ()) [],
        Node.mk [25] (some ()) []], 2⟩⟩ = [[1], [25]] := by
      rw [RadixSet.keyList, RadixMap.iterList]
      simp +decide [iterAll]
    have hkb : RadixSet.keyList ⟨⟨Node.mk [] none [Node.mk [0] (some ()) [],
        Node.mk [2] (some ()) []], 2⟩⟩ = [[0], [2]] := by
      rw [RadixSet.keyList, RadixMap.iterList]
      simp +decide [iterAll]
    rw [RadixSet.intersectionList, hka, hkb]
    simp +decide [intersectionAll, intersectionNext, advanceUntilGe]
  · have hkb : RadixSet.keyList ⟨⟨Node.mk [] none [Node.mk [0] (some ()) [],
        Node.mk [2] (some ()) []], 2⟩⟩ = [[0], [2]] := by
      rw [RadixSet.keyList, RadixMap.iterList]
      simp +decide [iterAll]
    rw [hkb]
    decide

-- ===== witnesses: the claim theorems applied at concrete inputs =====

theorem C3_edge_compression_inserts_witness :
    (∀ e ∈ [(([0] : List Byte), (1 : Nat))], (e.1 : List Byte).length ≤ 255) ∧
    (∃ m, buildMap [(([0] : List Byte), (1 : Nat))] = some m ∧ rootEC m.root) :=
  ⟨by decide, C3_edge_compression_inserts [(([0] : List Byte), (1 : Nat))] (by decide)⟩

theorem C5_sorted_iteration_witness :
    MapInv (RadixMap.new : RadixMap Nat) ∧
    ((((RadixMap.new : RadixMap Nat).iterList.map Prod.fst).Pairwise lexLt) ∧
      (RadixMap.new : RadixMap Nat).iterList.length = (RadixMap.new : RadixMap Nat).len) :=
  ⟨mapInv_new, C5_sorted_iteration RadixMap.new mapInv_new⟩

theorem C6_range_is_filter_witness :
    MapInv (RadixMap.new : RadixMap Nat) ∧
    ((RadixMap.new : RadixMap Nat).rangeList RBound.unbounded RBound.unbounded =
      (RadixMap.new : RadixMap Nat).iterList.filter
        (fun e => inRangeLeft RBound.unbounded e.1 && inRangeRight RBound.unbounded e.1) ∧
    (((RadixMap.new : RadixMap Nat).rangeList RBound.unbounded
        RBound.unbounded).map Prod.fst).Pairwise lexLt) :=
  ⟨mapInv_new, C6_range_is_filter RadixMap.new mapInv_new RBound.unbounded
    RBound.unbounded⟩

theorem C7_remove_cancels_insert_witness :
    MapInv (RadixMap.new : RadixMap Nat) ∧
    (RadixMap.new : RadixMap Nat).get [0] = some none ∧
    (∃ m1 m2, (RadixMap.new : RadixMap Nat).insert [0] 1 = some (m1, none) ∧
      m1.remove [0] = some (m2, some 1) ∧ m2.iterList = RadixMap.new.iterList) :=
  ⟨mapInv_new,
    by rw [RadixMap.get]
       simp [RadixMap.new, Node.get, Node.selectNextChild, longestCommonPfx,
         binarySearchGo],
    C7_remove_cancels_insert RadixMap.new mapInv_new [0] 1
      (by rw [RadixMap.get]
          simp [RadixMap.new, Node.get, Node.selectNextChild, longestCommonPfx,
            binarySearchGo])⟩

theorem C8_long_keys_accepted_witness :
    MapInv (RadixMap.new : RadixMap Nat) ∧
    (∃ m2 old, (RadixMap.new : RadixMap Nat).insert (List.replicate 300 0) 1 =
        some (m2, old) ∧
      m2.get (List.replicate 300 0) = some (some 1) ∧ allFragsShort m2.root) :=
  ⟨mapInv_new, C8_long_keys_accepted RadixMap.new mapInv_new (List.replicate 300 0) 1⟩

theorem C10_empty_key_witness :
    MapInv (RadixMap.new : RadixMap Nat) ∧
    (∃ m2 old, (RadixMap.new : RadixMap Nat).insert [] 1 = some (m2, old) ∧
      (RadixMap.new : RadixMap Nat).get [] = some old ∧
      m2.get [] = some (some 1) ∧ m2.root.value = some 1 ∧
      m2.len = (RadixMap.new : RadixMap Nat).len + (if old.isNone then 1 else 0)) :=
  ⟨mapInv_new, C10_empty_key RadixMap.new mapInv_new 1⟩

end Radixt
